import Mathlib

/-!
Verification development for the traversal-to-tree pipeline of the erdtree
repository (src/render/tree/mod.rs): the Collector loop inside
Tree::traverse, Tree::assemble_tree, Tree::prune_directories and
Tree::filter_directories, shallowly embedded over explicit state.

The event channel is embedded as the list of Entry Descriptors the parallel
walker delivers before the termination event; the Collector consumes that
list in order.  The indextree arena is embedded as a list of slots addressed
by position (NodeId = Nat).
-/

namespace Erdtree

/-- A filesystem path, as its list of components. -/
abbrev Path := List String

/-- Modelled from the spec (section 3, Hard-link Set): the hard-link identity
of an entry, device + inode number + link count, as stored by the node module
which is outside src/.  The Collector's HashSet stores whole values of this
type. -/
structure Inode where
  dev : Nat
  ino : Nat
  nlink : Nat
deriving DecidableEq, Repr

/-- Modelled from the spec (section 3, Entry Descriptor): the kind of a
filesystem object. -/
inductive Kind where
  | file
  | dir
  | symlink
  | other
deriving DecidableEq, Repr

/-- Modelled from the spec (section 3): the Entry Descriptor / Tree Node
payload produced by the walker (src/render/tree/node.rs is not under src/):
path (absolute, as component list), depth (root = 0), kind, byte length
(files only, held in file_size, which the Assembler overwrites once for
directories with a positive aggregate), and optional hard-link identity.
The Size Accumulator's unit policy is carried, not computed, so file_size
keeps only the byte count. -/
structure Node where
  path : Path
  depth : Nat
  kind : Kind
  file_size : Option Nat
  inode : Option Inode
deriving DecidableEq, Repr

instance : Inhabited Node := ⟨⟨[], 0, Kind.other, none, none⟩⟩

/-- Modelled from the spec: Node::is_dir, true exactly for directory
entries. -/
def Node.is_dir (n : Node) : Bool :=
  match n.kind with
  | Kind.dir => true
  | _ => false

/-- Modelled from the spec: Node::parent_path, the path with the last
component removed; None for the empty path (as Path::parent at a root). -/
def Node.parent_path (n : Node) : Option Path :=
  match n.path with
  | [] => none
  | _ => some n.path.dropLast

/-- One slot of the indextree arena: the payload plus the structural links
(parent, ordered children) and the removed flag used by remove_subtree. -/
structure Slot where
  node : Node
  parent : Option Nat
  kids : List Nat
  removed : Bool
deriving DecidableEq, Repr

instance : Inhabited Slot := ⟨⟨default, none, [], false⟩⟩

/-- The indextree arena: slots addressed by position. -/
abbrev Arena := List Slot

/-- Read a slot (out-of-range reads give the default slot, which has no
children). -/
def Arena.get (a : Arena) (i : Nat) : Slot :=
  a.getD i default

/-- Arena::new_node: appends a fresh, unattached slot and returns its id. -/
def Arena.new_node (a : Arena) (n : Node) : Arena × Nat :=
  (a ++ [⟨n, none, [], false⟩], a.length)

/-- Replace the slot at an id. -/
def Arena.setSlot (a : Arena) (i : Nat) (s : Slot) : Arena :=
  a.set i s

/-- NodeId::append(child, arena): attach child as the last child of parent,
recording the back-reference. -/
def Arena.append (a : Arena) (p c : Nat) : Arena :=
  let a1 := a.setSlot c { a.get c with parent := some p }
  a1.setSlot p { a1.get p with kids := (a1.get p).kids ++ [c] }

/-- NodeId::detach(arena): remove the node from its parent's child list and
clear its parent link; a node with no parent is left alone. -/
def Arena.detach (a : Arena) (c : Nat) : Arena :=
  match (a.get c).parent with
  | none => a
  | some p =>
    let a1 := a.setSlot p { a.get p with kids := (a.get p).kids.erase c }
    a1.setSlot c { a1.get c with parent := none }

/-- Mark a list of slots as removed from the arena (storage reclaimed by
indextree; the hierarchy no longer reaches them). -/
def Arena.markRemoved (a : Arena) (ids : List Nat) : Arena :=
  ids.foldl (fun acc i => acc.setSlot i { acc.get i with removed := true }) a

/-- Depth-fuelled preorder traversal along child links, as the descendants
iterator of indextree walks the live hierarchy. -/
def preorderAux (a : Arena) : Nat → Nat → List Nat
  | 0, _ => []
  | fuel + 1, i => i :: ((a.get i).kids).flatMap (preorderAux a fuel)

/-- NodeId::descendants(arena): preorder list of the node and everything
below it.  Fuel a.length + 1 covers every arena whose child links strictly
increase path length (no chain can repeat a slot). -/
def Arena.descendants (a : Arena) (i : Nat) : List Nat :=
  preorderAux a (a.length + 1) i

/-- NodeId::remove_subtree(arena): detach the node and mark its whole
subtree as removed. -/
def Arena.remove_subtree (a : Arena) (i : Nat) : Arena :=
  let sub := a.descendants i
  (a.detach i).markRemoved sub

/-- The pending-children index: HashMap from a directory's path to the
ordered list of child node ids collected so far, embedded as an association
list with distinct keys. -/
abbrev Branches := List (Path × List Nat)

/-- HashMap::get / contains_key. -/
def bLookup (bs : Branches) (p : Path) : Option (List Nat) :=
  match bs with
  | [] => none
  | (q, v) :: rest => if q = p then some v else bLookup rest p

/-- HashMap::insert (the Collector only inserts keys that are absent, so no
overwrite case arises; insertion appends). -/
def bInsert (bs : Branches) (p : Path) (v : List Nat) : Branches :=
  bs ++ [(p, v)]

/-- HashMap::remove. -/
def bRemove (bs : Branches) (p : Path) : Branches :=
  match bs with
  | [] => []
  | (q, v) :: rest => if q = p then rest else (q, v) :: bRemove rest p

/-- Vec::push through HashMap::get_mut: append an id to the list stored at
an existing key. -/
def bPush (bs : Branches) (p : Path) (id : Nat) : Branches :=
  match bs with
  | [] => []
  | (q, v) :: rest => if q = p then (q, v ++ [id]) :: rest else (q, v) :: bPush rest p id

/-- The errors the embedded pipeline can surface: Error::ExpectedParent and
Error::MissingRoot from the source's error module, plus assemblePanic, which
stands for the unwrap panic in assemble_tree when a directory's
pending-children entry is missing. -/
inductive MErr where
  | expectedParent
  | missingRoot
  | assemblePanic
deriving DecidableEq, Repr

/-- The Collector's private state inside Tree::traverse: the arena, the
pending-children index, the hard-link set and the optional root handle. -/
structure CState where
  tree : Arena
  branches : Branches
  inodes : List Inode
  root_id : Option Nat
deriving Repr

/-- The state the Collector starts from. -/
def initState : CState := ⟨[], [], [], none⟩

/-- Lines 109-114 of mod.rs: a directory gets a pending-children entry if
one is absent. -/
def stepDirIndex (st : CState) (node : Node) : CState :=
  if node.is_dir ∧ (bLookup st.branches node.path).isNone then
    { st with branches := bInsert st.branches node.path [] }
  else st

/-- Lines 116-119 of mod.rs: a directory at depth 0 is inserted and becomes
the root; it is not treated as a child of anything. -/
def stepRoot (st : CState) (node : Node) : CState :=
  let (t, id) := st.tree.new_node node
  { st with tree := t, root_id := some id }

/-- Lines 122-127 of mod.rs, the test: a hard-linked entry whose identity
is already accounted for is discarded. -/
def stepDiscard (st : CState) (node : Node) : Bool :=
  match node.inode with
  | some ino => decide (ino.nlink > 1) && decide (ino ∈ st.inodes)
  | none => false

/-- Lines 122-127 of mod.rs, the set update: HashSet::insert grows the set
exactly when the link count is above one and the identity is new. -/
def stepInodes (st : CState) (node : Node) : List Inode :=
  match node.inode with
  | some ino => if ino.nlink > 1 ∧ ino ∉ st.inodes then ino :: st.inodes else st.inodes
  | none => st.inodes

/-- Lines 131-139 of mod.rs: insert the node into the arena, then push its
handle onto the parent's pending list when the key exists; otherwise insert
an empty list (the freshly created id is not recorded in it). -/
def stepInsert (st : CState) (node : Node) (parent : Path) : CState :=
  let (t, node_id) := st.tree.new_node node
  match bLookup st.branches parent with
  | some _ =>
    { st with tree := t, inodes := stepInodes st node, branches := bPush st.branches parent node_id }
  | none =>
    { st with tree := t, inodes := stepInodes st node, branches := bInsert st.branches parent [] }

/-- One iteration of the Collector loop in Tree::traverse (mod.rs lines
108-140), for one Ongoing event. -/
def collect_step (st : CState) (node : Node) : Except MErr CState :=
  let st := stepDirIndex st node
  if node.is_dir ∧ node.depth = 0 then
    Except.ok (stepRoot st node)
  else if stepDiscard st node then
    Except.ok st
  else
    -- line 129: a non-root entry must expose a parent path.
    match node.parent_path with
    | none => Except.error MErr.expectedParent
    | some parent => Except.ok (stepInsert st node parent)

/-- The Collector loop: drain the event list, stopping early only on a
fatal error (the while-let in mod.rs line 108 stops at the Done event, which
is the end of the list). -/
def collect_loop (st : CState) : List Node → Except MErr CState
  | [] => Except.ok st
  | n :: rest =>
    match collect_step st n with
    | Except.error e => Except.error e
    | Except.ok st' => collect_loop st' rest

/-- Modelled from the spec (section 4.3 step 5): the run configuration the
pipeline consumes (render/context is not under src/): the prune and
dirs-only flags, and the optional sort comparator derived from the sort key
and direction (node::cmp::comparator); the disk-usage unit policy is
carried, not computed, and plays no part in these operations. -/
structure Ctx where
  prune : Bool
  dirs_only : Bool
  comparator : Option (Node → Node → Ordering)

/-- Stable insertion of one element: it goes in front of the first resident
it does not strictly come after. -/
def insertCmp (c : α → α → Ordering) (x : α) : List α → List α
  | [] => [x]
  | y :: ys => if c x y = Ordering.gt then y :: insertCmp c x ys else x :: y :: ys

/-- slice::sort_by: a stable comparison sort (the Rust standard library
documents sort_by as stable), embedded as stable insertion sort. -/
def sortByCmp (c : α → α → Ordering) (l : List α) : List α :=
  l.foldr (insertCmp c) []

/-- The sorting step of assemble_tree (mod.rs lines 202-209): sort the
pending child list with the configured comparator applied to the two nodes,
or keep it as collected when no comparator is configured. -/
def sortChildren (ctx : Ctx) (tree : Arena) (children : List Nat) : List Nat :=
  match ctx.comparator with
  | some f => sortByCmp (fun a b => f (tree.get a).node (tree.get b).node) children
  | none => children

/-- The byte contribution a child adds to its parent's running total
(mod.rs lines 193-195): its stored file_size if it has one. -/
def childBytes (tree : Arena) (c : Nat) : Nat :=
  match (tree.get c).node.file_size with
  | some b => b
  | none => 0

/-- The child loop of assemble_tree (mod.rs lines 181-196): recurse into
directory children first, then add each child's (possibly just aggregated)
size to the running total.  The recursion itself is passed in, so the
driver below can tie the knot on its fuel. -/
def goChildren (f : Arena → Nat → Branches → Option (Arena × Branches)) (tree : Arena)
    (branches : Branches) (acc : Nat) : List Nat → Option (Arena × Branches × Nat)
  | [] => some (tree, branches, acc)
  | c :: cs =>
    if (tree.get c).node.is_dir then
      match f tree c branches with
      | none => none
      | some (tree', branches') => goChildren f tree' branches' (acc + childBytes tree' c) cs
    else
      goChildren f tree branches (acc + childBytes tree c) cs

/-- Tree::assemble_tree (mod.rs lines 169-215): take the current node's
pending children out of the index (the unwrap on line 177 is the none case
here), assemble directory children recursively, store the positive
aggregate, sort, and attach the children in order.  The fuel only bounds the
recursion depth; every level removes one pending-children entry, so any fuel
above the size of the index is enough. -/
def assemble_tree (ctx : Ctx) : Nat → Arena → Nat → Branches → Option (Arena × Branches)
  | 0, _, _, _ => none
  | fuel + 1, tree, current_node_id, branches =>
    let p := (tree.get current_node_id).node.path
    match bLookup branches p with
    | none => none
    | some children =>
      let branches1 := bRemove branches p
      match goChildren (fun t c b => assemble_tree ctx fuel t c b) tree branches1 0 children with
      | none => none
      | some (tree1, branches2, dir_size) =>
        let tree2 :=
          if dir_size > 0 then
            tree1.setSlot current_node_id
              { tree1.get current_node_id with
                node := { (tree1.get current_node_id).node with file_size := some dir_size } }
          else tree1
        let sorted := sortChildren ctx tree2 children
        some (sorted.foldl (fun t c => t.append current_node_id c) tree2, branches2)

/-- The scan of one prune pass (mod.rs lines 219-231): every directory
descendant of the root, the root excluded, that currently has no
children. -/
def scanPrune (root_id : Nat) (tree : Arena) : List Nat :=
  ((tree.descendants root_id).drop 1).filter
    (fun id => (tree.get id).node.is_dir && decide ((tree.get id).kids = []))

/-- Total length of all child lists; each prune pass that removes anything
strictly shrinks it, so it bounds the number of passes. -/
def totalKids (a : Arena) : Nat :=
  ∑ i in Finset.range a.length, (a.get i).kids.length

/-- Tree::prune_directories (mod.rs lines 218-242): collect the empty
directory descendants, stop if there are none, otherwise remove each
subtree and rescan.  The fuel bounds the number of passes. -/
def prune_directories (root_id : Nat) : Nat → Arena → Arena
  | 0, tree => tree
  | fuel + 1, tree =>
    let to_prune := scanPrune root_id tree
    if to_prune = [] then tree
    else prune_directories root_id fuel (to_prune.foldl (fun t id => t.remove_subtree id) tree)

/-- prune_directories with the fuel that provably reaches the fixpoint. -/
def pruneRun (root_id : Nat) (tree : Arena) : Arena :=
  prune_directories root_id (totalKids tree + 1) tree

/-- Tree::filter_directories (mod.rs lines 245-257): collect every
non-directory descendant of the root, then detach each one. -/
def filter_directories (root : Nat) (tree : Arena) : Arena :=
  let to_detach := ((tree.descendants root).drop 1).filter (fun id => !(tree.get id).node.is_dir)
  to_detach.foldl (fun t id => t.detach id) tree

/-- The Collector plus Assembler part of Tree::traverse (mod.rs lines
106-144): drain the events, fail with MissingRoot if no root was recorded,
then assemble starting at the root. -/
def collectAssemble (events : List Node) (ctx : Ctx) : Except MErr (Arena × Nat) :=
  match collect_loop initState events with
  | Except.error e => Except.error e
  | Except.ok st =>
    match st.root_id with
    | none => Except.error MErr.missingRoot
    | some root =>
      match assemble_tree ctx (st.branches.length + 1) st.tree root st.branches with
      | none => Except.error MErr.assemblePanic
      | some (tree, _) => Except.ok (tree, root)

/-- The whole consumer side of Tree::traverse (mod.rs lines 106-154):
collect, assemble, then the optional prune and dirs-only passes in that
order. -/
def traverse (events : List Node) (ctx : Ctx) : Except MErr (Arena × Nat) :=
  match collectAssemble events ctx with
  | Except.error e => Except.error e
  | Except.ok (tree, root) =>
    let tree1 := if ctx.prune then pruneRun root tree else tree
    let tree2 := if ctx.dirs_only then filter_directories root tree1 else tree1
    Except.ok (tree2, root)

/-! ### Structural predicates on arenas

These are the shape invariants the assembled arena satisfies; the topology
filter theorems are stated for every arena satisfying them. -/

/-- Every child link increases the path length: rules out cycles and bounds
the depth of the live hierarchy by the number of slots. -/
def Graded (a : Arena) : Prop :=
  ∀ i ∈ List.range a.length, ∀ j ∈ (a.get i).kids,
    (a.get i).node.path.length < (a.get j).node.path.length

instance (a : Arena) : Decidable (Graded a) := by
  unfold Graded
  infer_instance

/-- Every stored parent link agrees with the child lists. -/
def ParentConsistent (a : Arena) : Prop :=
  ∀ i ∈ List.range a.length, ∀ j ∈ (a.get i).kids, (a.get j).parent = some i

instance (a : Arena) : Decidable (ParentConsistent a) := by
  unfold ParentConsistent
  infer_instance

/-- The concatenation of all child lists. -/
def allKids (a : Arena) : List Nat :=
  (List.range a.length).flatMap (fun i => (a.get i).kids)

/-- Every id occurs at most once among all child lists: each node has at
most one place in the hierarchy. -/
def GlobalNodup (a : Arena) : Prop :=
  (allKids a).Nodup

instance (a : Arena) : Decidable (GlobalNodup a) := by
  unfold GlobalNodup
  infer_instance

/-- The root is nobody's child. -/
def RootFree (a : Arena) (root : Nat) : Prop :=
  ∀ i ∈ List.range a.length, root ∉ (a.get i).kids

instance (a : Arena) (root : Nat) : Decidable (RootFree a root) := by
  unfold RootFree
  infer_instance

/-! ### Admissible event streams

The walker contract (spec section 4.1) delivers the canonicalized root
first; every directory is read only after it was visited, so its entry is
sent before its children's; paths are distinct; entry depths below the root
are positive.  Hard links are excluded here (their aliases are collapsed by
arrival order, which is covered by its own claim). -/

/-- The entry at a position of the stream. -/
def ent (s : List Node) (i : Nat) : Node :=
  s.getD i default

/-- The positions of the stream entries whose parent path is p (the root
position 0 is no one's child). -/
def childIds (s : List Node) (p : Path) : List Nat :=
  (List.range s.length).filter (fun i => decide (i ≠ 0) && decide ((ent s i).path.dropLast = p))

/-- The longest path length in the stream. -/
def maxLen (s : List Node) : Nat :=
  (s.map (fun e => e.path.length)).foldr max 0

/-- The aggregate byte count below a path, computed from the stream alone:
a directory child contributes its own aggregate, any other child its stored
byte length. -/
def canonAgg (s : List Node) : Nat → Path → Nat
  | 0, _ => 0
  | fuel + 1, p =>
    ((childIds s p).map (fun c =>
      if (ent s c).is_dir then canonAgg s fuel (ent s c).path
      else (ent s c).file_size.getD 0)).sum

/-- canonAgg with enough fuel for every path of the stream. -/
def canonAggF (s : List Node) (p : Path) : Nat :=
  canonAgg s (maxLen s + 1) p

/-- The zero-means-absent policy of assemble_tree: a positive total is
stored, zero leaves the field empty. -/
def zeroAbsent (n : Nat) : Option Nat :=
  if n > 0 then some n else none

/-- The position of the stream entry carrying a path (0 if there is none;
admissible streams have distinct paths, making it unique). -/
def idOfP (s : List Node) (p : Path) : Nat :=
  match (List.range s.length).find? (fun i => decide ((ent s i).path = p)) with
  | some i => i
  | none => 0

/-- Admissibility of an event stream, from the walker contract of spec
section 4.1: a single root directory entry delivered first, every other
entry preceded by the directory entry owning its parent path, all paths
nonempty and distinct, no hard-linked entries, directories carrying no byte
length of their own. -/
def Adm (s : List Node) : Prop :=
  s ≠ [] ∧
  (ent s 0).is_dir = true ∧
  (ent s 0).depth = 0 ∧
  (∀ i ∈ List.range s.length, i ≠ 0 → ¬((ent s i).is_dir = true ∧ (ent s i).depth = 0)) ∧
  (∀ i ∈ List.range s.length, (ent s i).path ≠ []) ∧
  (∀ i ∈ List.range s.length, ∀ j ∈ List.range s.length, i ≠ j → (ent s i).path ≠ (ent s j).path) ∧
  (∀ i ∈ List.range s.length, i ≠ 0 →
    ∃ j ∈ List.range i, (ent s j).is_dir = true ∧ (ent s j).path = (ent s i).path.dropLast) ∧
  (∀ i ∈ List.range s.length, ((ent s i).inode.getD ⟨0, 0, 0⟩).nlink ≤ 1) ∧
  (∀ i ∈ List.range s.length, (ent s i).is_dir = true → (ent s i).file_size = none)

instance (s : List Node) : Decidable (Adm s) := by
  unfold Adm
  infer_instance

/-! ### Observable shape of an assembled tree

What the rendering boundary reads: the set of live node paths, the
parent-to-child relation over paths, and the stored size at each path. -/

/-- The set of paths reachable from the root. -/
def extractPaths (a : Arena) (root : Nat) : Finset Path :=
  ((a.descendants root).map (fun i => (a.get i).node.path)).toFinset

/-- The parent-to-child relation over paths, read off the live child
lists. -/
def extractEdges (a : Arena) (root : Nat) : Finset (Path × Path) :=
  ((a.descendants root).flatMap (fun i =>
    (a.get i).kids.map (fun c => ((a.get i).node.path, (a.get c).node.path)))).toFinset

/-- The stored size at each reachable path. -/
def extractSizes (a : Arena) (root : Nat) : Finset (Path × Option Nat) :=
  ((a.descendants root).map (fun i => ((a.get i).node.path, (a.get i).node.file_size))).toFinset

/-- Number of arena slots holding a given hard-link identity. -/
def slotsWithInode (a : Arena) (ino : Inode) : Nat :=
  (a.filter (fun sl => decide (sl.node.inode = some ino))).length

/-- Number of stream entries carrying a given hard-link identity. -/
def entriesWithInode (s : List Node) (ino : Inode) : Nat :=
  (s.filter (fun e => decide (e.inode = some ino))).length

/-! ### Canonical descriptions of an admissible stream

The assembled tree is characterized against these stream-level functions. -/

/-- Prefix test on paths. -/
def isPfx : Path → Path → Bool
  | [], _ => true
  | _ :: _, [] => false
  | a :: as, b :: bs => decide (a = b) && isPfx as bs

/-- The ids of the directory entries inside the subtree of a path (the
path's own entry included). -/
def subDirsF (s : List Node) (p : Path) : Finset Nat :=
  (Finset.range s.length).filter
    (fun i => (ent s i).is_dir = true ∧ isPfx p (ent s i).path = true)

/-- What one child contributes to its parent directory's byte total. -/
def contrib (s : List Node) (c : Nat) : Nat :=
  if (ent s c).is_dir = true then canonAggF s (ent s c).path
  else (ent s c).file_size.getD 0

/-- The subtree-dirs accumulated over a list of children. -/
def childSubs (s : List Node) : List Nat → Finset Nat
  | [] => ∅
  | c :: cs =>
    (if (ent s c).is_dir = true then subDirsF s (ent s c).path else ∅) ∪ childSubs s cs

/-- How many directory entries are not yet assembled. -/
def dirCount (s : List Node) (A : Finset Nat) : Nat :=
  ((Finset.range s.length).filter (fun i => (ent s i).is_dir = true ∧ i ∉ A)).card

/-- Invariant tying the arena to the stream during assembly: A is the set
of ids of already-assembled directories.  Payloads survive throughout;
assembled directories carry their canonical aggregate and a permutation of
their canonical children; a slot is attached (parent link set) exactly when
the directory owning its parent path has been assembled. -/
def TInv (s : List Node) (A : Finset Nat) (T : Arena) : Prop :=
  T.length = s.length ∧
  ∀ i, i < s.length →
    (T.get i).node.path = (ent s i).path ∧
    (T.get i).node.depth = (ent s i).depth ∧
    (T.get i).node.kind = (ent s i).kind ∧
    (T.get i).node.inode = (ent s i).inode ∧
    (T.get i).removed = false ∧
    (i ∈ A → (ent s i).is_dir = true) ∧
    (i ∈ A →
      (T.get i).node.file_size = zeroAbsent (canonAggF s (ent s i).path) ∧
      (T.get i).kids.Perm (childIds s (ent s i).path)) ∧
    (i ∉ A → (T.get i).kids = [] ∧ (T.get i).node.file_size = (ent s i).file_size) ∧
    (i = 0 → (T.get i).parent = none) ∧
    (i ≠ 0 → idOfP s (ent s i).path.dropLast ∈ A →
      (T.get i).parent = some (idOfP s (ent s i).path.dropLast)) ∧
    (i ≠ 0 → idOfP s (ent s i).path.dropLast ∉ A → (T.get i).parent = none)

/-- Invariant on the pending-children index during assembly: keys are the
paths of the not-yet-assembled directories, each holding its canonical
child list; everything else is absent. -/
def BInv (s : List Node) (A : Finset Nat) (B : Branches) : Prop :=
  (B.map Prod.fst).Nodup ∧
  (∀ i, i < s.length → (ent s i).is_dir = true → i ∉ A →
    bLookup B (ent s i).path = some (childIds s (ent s i).path)) ∧
  (∀ p : Path,
    (∀ i, i < s.length → (ent s i).is_dir = true → (ent s i).path = p → i ∈ A) →
    bLookup B p = none) ∧
  B.length = dirCount s A

/-- The live node paths an assembled arena exposes, as a function of the
stream alone. -/
def pathsCanon (s : List Node) : Finset Path :=
  (s.map Node.path).toFinset

/-- The parent-to-child relation over paths, as a function of the stream
alone: one edge per non-root entry. -/
def edgesCanon (s : List Node) : Finset (Path × Path) :=
  ((s.filter (fun e => !(e.is_dir && decide (e.depth = 0)))).map
    (fun e => (e.path.dropLast, e.path))).toFinset

/-- The stored size at each path, as a function of the stream alone. -/
def sizesCanon (s : List Node) : Finset (Path × Option Nat) :=
  (s.map (fun e =>
    (e.path, if e.is_dir = true then zeroAbsent (canonAggF s e.path) else e.file_size))).toFinset

/-- The full shape of the arena the Collector plus Assembler produce from an
admissible stream: slot j carries entry j; directories hold their canonical
aggregate (zero left absent) and a permutation of their canonical children;
non-directories keep their own size and are childless; every non-root slot
points back at the slot owning its parent path. -/
def AssembledChar (s : List Node) (T : Arena) : Prop :=
  T.length = s.length ∧
  ∀ j, j < s.length →
    (T.get j).node.path = (ent s j).path ∧
    (T.get j).node.depth = (ent s j).depth ∧
    (T.get j).node.kind = (ent s j).kind ∧
    (T.get j).node.inode = (ent s j).inode ∧
    (T.get j).removed = false ∧
    ((ent s j).is_dir = true →
      (T.get j).node.file_size = zeroAbsent (canonAggF s (ent s j).path) ∧
      (T.get j).kids.Perm (childIds s (ent s j).path)) ∧
    ((ent s j).is_dir = false →
      (T.get j).kids = [] ∧ (T.get j).node.file_size = (ent s j).file_size) ∧
    (j = 0 → (T.get j).parent = none) ∧
    (j ≠ 0 → (T.get j).parent = some (idOfP s (ent s j).path.dropLast))

/-! ## Basic lemmas about arena access -/

theorem Arena.get_oor (a : Arena) (i : Nat) (h : a.length ≤ i) : a.get i = default := by
  simp [Arena.get, List.getD_eq_getElem?_getD, List.getElem?_eq_none h]

theorem Arena.get_append_lt (a : Arena) (t : Arena) (i : Nat) (h : i < a.length) :
    (a ++ t).get i = a.get i := by
  simp [Arena.get, List.getD_eq_getElem?_getD, List.getElem?_append_left h]

theorem Arena.get_setSlot_self (a : Arena) (i : Nat) (s : Slot) (h : i < a.length) :
    (a.setSlot i s).get i = s := by
  simp [Arena.setSlot, Arena.get, List.getD_eq_getElem?_getD, List.getElem?_set_self h]

theorem Arena.get_setSlot_ne (a : Arena) (i j : Nat) (s : Slot) (h : i ≠ j) :
    (a.setSlot i s).get j = a.get j := by
  simp [Arena.setSlot, Arena.get, List.getD_eq_getElem?_getD, List.getElem?_set_ne h]

theorem Arena.length_setSlot (a : Arena) (i : Nat) (s : Slot) :
    (a.setSlot i s).length = a.length := by
  simp [Arena.setSlot]

/-! ## C1: what the Collector does when a child arrives before its parent -/

/-- C1: the claim says every non-root, non-deduplicated entry's handle is
appended to its parent's pending-children list, the list being created if
absent, so that the handle is present even when the child arrives before
its parent directory's event.  Evaluating the Collector on exactly that
event order refutes the appended-handle part: the root (id 0) arrives,
then the file a/b/y arrives before its parent directory a/b; the entry is
inserted into the arena as id 1 and the pending list for a/b is created,
but created empty — the handle 1 is recorded nowhere (mod.rs line 138
inserts an empty vector instead of one holding node_id). -/
theorem C1_child_handle_dropped :
    collect_loop initState
      [⟨["a"], 0, Kind.dir, none, none⟩, ⟨["a", "b", "y"], 2, Kind.file, some 5, none⟩] =
      Except.ok
        ⟨[⟨⟨["a"], 0, Kind.dir, none, none⟩, none, [], false⟩,
          ⟨⟨["a", "b", "y"], 2, Kind.file, some 5, none⟩, none, [], false⟩],
         [(["a"], []), (["a", "b"], [])], [], some 0⟩ ∧
    bLookup [(["a"], []), (["a", "b"], [])] ["a", "b"] = some [] := by
  exact ⟨rfl, rfl⟩

/-! ## Collector step analysis -/

theorem Node.parent_path_some (n : Node) (hp : n.path ≠ []) :
    n.parent_path = some n.path.dropLast := by
  cases hn : n.path with
  | nil => exact absurd hn hp
  | cons a l => simp [Node.parent_path, hn]

theorem stepDirIndex_tree (st : CState) (n : Node) : (stepDirIndex st n).tree = st.tree := by
  unfold stepDirIndex; split <;> rfl

theorem stepDirIndex_inodes (st : CState) (n : Node) : (stepDirIndex st n).inodes = st.inodes := by
  unfold stepDirIndex; split <;> rfl

theorem stepDirIndex_root_id (st : CState) (n : Node) : (stepDirIndex st n).root_id = st.root_id := by
  unfold stepDirIndex; split <;> rfl

theorem stepInsert_tree (st : CState) (n : Node) (p : Path) :
    (stepInsert st n p).tree = st.tree ++ [⟨n, none, [], false⟩] := by
  unfold stepInsert
  cases bLookup st.branches p <;> rfl

theorem stepInsert_inodes (st : CState) (n : Node) (p : Path) :
    (stepInsert st n p).inodes = stepInodes st n := by
  unfold stepInsert
  cases bLookup st.branches p <;> rfl

theorem stepInsert_root_id (st : CState) (n : Node) (p : Path) :
    (stepInsert st n p).root_id = st.root_id := by
  unfold stepInsert
  cases bLookup st.branches p <;> rfl

theorem stepDiscard_iff (st : CState) (n : Node) :
    stepDiscard st n = true ↔ ∃ ino, n.inode = some ino ∧ ino.nlink > 1 ∧ ino ∈ st.inodes := by
  cases hino : n.inode with
  | none => simp [stepDiscard, hino]
  | some ino => simp [stepDiscard, hino]

theorem collect_step_cases (st : CState) (n : Node) (hp : n.path ≠ []) :
    ∃ st', collect_step st n = Except.ok st' ∧
      ((n.is_dir = true ∧ n.depth = 0 ∧ st'.tree = st.tree ++ [⟨n, none, [], false⟩] ∧
          st'.root_id = some st.tree.length ∧ st'.inodes = st.inodes) ∨
       (¬(n.is_dir = true ∧ n.depth = 0) ∧
          (∃ ino, n.inode = some ino ∧ ino.nlink > 1 ∧ ino ∈ st.inodes) ∧
          st'.tree = st.tree ∧ st'.root_id = st.root_id ∧ st'.inodes = st.inodes) ∨
       (¬(n.is_dir = true ∧ n.depth = 0) ∧
          ¬(∃ ino, n.inode = some ino ∧ ino.nlink > 1 ∧ ino ∈ st.inodes) ∧
          st'.tree = st.tree ++ [⟨n, none, [], false⟩] ∧ st'.root_id = st.root_id ∧
          st'.inodes = stepInodes st n)) := by
  have hdi_t := stepDirIndex_tree st n
  have hdi_i := stepDirIndex_inodes st n
  have hdi_r := stepDirIndex_root_id st n
  by_cases hroot : (n.is_dir = true ∧ n.depth = 0)
  · refine ⟨stepRoot (stepDirIndex st n) n, ?_, Or.inl ⟨hroot.1, hroot.2, ?_, ?_, ?_⟩⟩
    · simp [collect_step, hroot]
    · simp [stepRoot, Arena.new_node, hdi_t]
    · simp [stepRoot, Arena.new_node, hdi_t]
    · simp [stepRoot, hdi_i]
  · by_cases hdisc : stepDiscard st n = true
    · have hdisc' : stepDiscard (stepDirIndex st n) n = true := by
        rw [show stepDiscard (stepDirIndex st n) n = stepDiscard st n from by
          unfold stepDiscard; rw [hdi_i]]
        exact hdisc
      refine ⟨stepDirIndex st n, ?_, Or.inr (Or.inl ⟨hroot, ?_, hdi_t, hdi_r, hdi_i⟩)⟩
      · simp [collect_step, hroot, hdisc']
      · exact (stepDiscard_iff st n).mp hdisc
    · have hdisc' : ¬ stepDiscard (stepDirIndex st n) n = true := by
        rw [show stepDiscard (stepDirIndex st n) n = stepDiscard st n from by
          unfold stepDiscard; rw [hdi_i]]
        exact hdisc
      refine ⟨stepInsert (stepDirIndex st n) n n.path.dropLast, ?_, Or.inr (Or.inr
        ⟨hroot, fun hex => hdisc ((stepDiscard_iff st n).mpr hex), ?_, ?_, ?_⟩)⟩
      · simp [collect_step, hroot, hdisc', Node.parent_path_some n hp]
      · rw [stepInsert_tree, hdi_t]
      · rw [stepInsert_root_id, hdi_r]
      · rw [stepInsert_inodes]
        unfold stepInodes
        rw [hdi_i]


theorem slotsWithInode_append (a : Arena) (sl : Slot) (ino : Inode) :
    slotsWithInode (a ++ [sl]) ino =
      slotsWithInode a ino + (if sl.node.inode = some ino then 1 else 0) := by
  simp only [slotsWithInode, List.filter_append]
  by_cases h : sl.node.inode = some ino <;> simp [h]

theorem entriesWithInode_cons (n : Node) (s : List Node) (ino : Inode) :
    entriesWithInode (n :: s) ino =
      (if n.inode = some ino then 1 else 0) + entriesWithInode s ino := by
  by_cases h : n.inode = some ino <;> simp [entriesWithInode, h, Nat.add_comm]

/-- The Collector loop succeeds on any event list of nonempty paths, only
grows the arena, and tracks the root handle: recorded once seen, unchanged
when no root event occurs. -/
theorem collect_loop_ok (s : List Node) : ∀ st : CState, (∀ e ∈ s, e.path ≠ []) →
    ∃ st', collect_loop st s = Except.ok st' ∧
      (∃ t, st'.tree = st.tree ++ t) ∧
      (st.root_id.isSome = true → st'.root_id.isSome = true) ∧
      ((∀ e ∈ s, ¬(e.is_dir = true ∧ e.depth = 0)) → st'.root_id = st.root_id) ∧
      ((∃ e ∈ s, e.is_dir = true ∧ e.depth = 0) → st'.root_id.isSome = true) := by
  induction s with
  | nil =>
    intro st _
    exact ⟨st, rfl, ⟨[], by simp⟩, fun h => h, fun _ => rfl, by simp⟩
  | cons n rest ih =>
    intro st hp
    obtain ⟨st1, hstep, hcases⟩ := collect_step_cases st n (hp n (by simp))
    obtain ⟨st', hloop, ⟨t, ht⟩, hsome, hkeep, hseen⟩ :=
      ih st1 (fun e he => hp e (List.mem_cons_of_mem _ he))
    refine ⟨st', by simp [collect_loop, hstep, hloop], ?_, ?_, ?_, ?_⟩
    · rcases hcases with ⟨_, _, h1, _, _⟩ | ⟨_, _, h1, _, _⟩ | ⟨_, _, h1, _, _⟩
      · exact ⟨[⟨n, none, [], false⟩] ++ t, by rw [ht, h1, List.append_assoc]⟩
      · exact ⟨t, by rw [ht, h1]⟩
      · exact ⟨[⟨n, none, [], false⟩] ++ t, by rw [ht, h1, List.append_assoc]⟩
    · intro _
      rcases hcases with ⟨_, _, _, h2, _⟩ | ⟨_, _, _, h2, _⟩ | ⟨_, _, _, h2, _⟩
      · exact hsome (by simp [h2])
      · exact hsome (by simp [h2, *])
      · exact hsome (by simp [h2, *])
    · intro hnone
      have hn := hnone n (by simp)
      rcases hcases with ⟨h1, h2, _⟩ | ⟨_, _, _, h2, _⟩ | ⟨_, _, _, h2, _⟩
      · exact absurd ⟨h1, h2⟩ hn
      · rw [hkeep (fun e he => hnone e (List.mem_cons_of_mem _ he)), h2]
      · rw [hkeep (fun e he => hnone e (List.mem_cons_of_mem _ he)), h2]
    · intro ⟨e, he, hroot⟩
      rcases List.mem_cons.mp he with rfl | hmem
      · rcases hcases with ⟨_, _, _, h2, _⟩ | ⟨hc, _⟩ | ⟨hc, _⟩
        · exact hsome (by simp [h2])
        · exact absurd hroot hc
        · exact absurd hroot hc
      · exact hseen ⟨e, hmem, hroot⟩


/-- The dedup bookkeeping of the Collector loop: with every hard-linked
identity either absent from arena and set or present exactly once in both,
the loop keeps that correspondence, and entries whose link count is not
above one are always inserted. -/
theorem collect_loop_counts (s : List Node) : ∀ st : CState,
    (∀ e ∈ s, e.path ≠ []) →
    (∀ e ∈ s, e.inode.isSome = true → ¬(e.is_dir = true ∧ e.depth = 0)) →
    (∀ ino : Inode, ino.nlink > 1 →
      slotsWithInode st.tree ino = (if ino ∈ st.inodes then 1 else 0)) →
    ∃ st', collect_loop st s = Except.ok st' ∧
      (∀ ino : Inode, ino.nlink > 1 →
        slotsWithInode st'.tree ino =
          (if ino ∈ st.inodes ∨ 1 ≤ entriesWithInode s ino then 1 else 0)) ∧
      (∀ ino : Inode, ino.nlink ≤ 1 →
        slotsWithInode st'.tree ino = slotsWithInode st.tree ino + entriesWithInode s ino) := by
  induction s with
  | nil =>
    intro st _ _ hinv
    refine ⟨st, rfl, ?_, ?_⟩
    · intro ino h1
      rw [hinv ino h1]
      simp [entriesWithInode]
    · intro ino _
      simp [entriesWithInode]
  | cons n rest ih =>
    intro st hp hri hinv
    obtain ⟨st1, hstep, hcases⟩ := collect_step_cases st n (hp n (by simp))
    have hp' : ∀ e ∈ rest, e.path ≠ [] := fun e he => hp e (List.mem_cons_of_mem _ he)
    have hri' : ∀ e ∈ rest, e.inode.isSome = true → ¬(e.is_dir = true ∧ e.depth = 0) :=
      fun e he => hri e (List.mem_cons_of_mem _ he)
    rcases hcases with ⟨hd, h0, ht, _, hi⟩ | ⟨_, ⟨ino0, hino0, hnl0, hmem0⟩, ht, _, hi⟩ |
      ⟨_, hnd, ht, _, hi⟩
    · -- root insertion: by hypothesis the root entry has no inode
      have hnone : n.inode = none := by
        cases hino : n.inode with
        | none => rfl
        | some v => exact absurd ⟨hd, h0⟩ (hri n (by simp) (by simp [hino]))
      have hinv1 : ∀ ino : Inode, ino.nlink > 1 →
          slotsWithInode st1.tree ino = (if ino ∈ st1.inodes then 1 else 0) := by
        intro ino h1
        rw [ht, hi, slotsWithInode_append]
        simp [hnone, hinv ino h1]
      obtain ⟨st', hloop, hc1, hc2⟩ := ih st1 hp' hri' hinv1
      refine ⟨st', by simp [collect_loop, hstep, hloop], ?_, ?_⟩
      · intro ino h1
        rw [hc1 ino h1, hi, entriesWithInode_cons]
        simp [hnone]
      · intro ino h1
        rw [hc2 ino h1, ht, slotsWithInode_append, entriesWithInode_cons]
        simp [hnone, Nat.add_assoc]
    · -- discard: a known hard-linked alias, nothing changes
      have hinv1 : ∀ ino : Inode, ino.nlink > 1 →
          slotsWithInode st1.tree ino = (if ino ∈ st1.inodes then 1 else 0) := by
        intro ino h1
        rw [ht, hi]
        exact hinv ino h1
      obtain ⟨st', hloop, hc1, hc2⟩ := ih st1 hp' hri' hinv1
      refine ⟨st', by simp [collect_loop, hstep, hloop], ?_, ?_⟩
      · intro ino h1
        rw [hc1 ino h1, hi]
        by_cases hii : ino = ino0
        · subst hii
          simp [hmem0]
        · have hne : ¬(n.inode = some ino) := by
            rw [hino0]
            exact fun h => hii (by injection h with h2; exact h2.symm)
          rw [entriesWithInode_cons]
          simp [hne]
      · intro ino h1
        have hii : ¬(ino0 = ino) := fun h => by
          subst h
          exact absurd h1 (by omega)
        rw [hc2 ino h1, ht, entriesWithInode_cons]
        simp [hino0, hii]
    · -- genuine insertion
      cases hino : n.inode with
      | none =>
        have hieq : st1.inodes = st.inodes := by
          rw [hi]; unfold stepInodes; rw [hino]
        have hinv1 : ∀ ino : Inode, ino.nlink > 1 →
            slotsWithInode st1.tree ino = (if ino ∈ st1.inodes then 1 else 0) := by
          intro ino h1
          rw [ht, hieq, slotsWithInode_append]
          simp [hino, hinv ino h1]
        obtain ⟨st', hloop, hc1, hc2⟩ := ih st1 hp' hri' hinv1
        refine ⟨st', by simp [collect_loop, hstep, hloop], ?_, ?_⟩
        · intro ino h1
          rw [hc1 ino h1, hieq, entriesWithInode_cons]
          simp [hino]
        · intro ino h1
          rw [hc2 ino h1, ht, slotsWithInode_append, entriesWithInode_cons]
          simp [hino, Nat.add_assoc]
      | some ino0 =>
        by_cases hnl : ino0.nlink > 1
        · have hnm : ino0 ∉ st.inodes := fun hm => hnd ⟨ino0, hino, hnl, hm⟩
          have hieq : st1.inodes = ino0 :: st.inodes := by
            rw [hi]; unfold stepInodes; rw [hino]; simp [hnl, hnm]
          have hinv1 : ∀ ino : Inode, ino.nlink > 1 →
              slotsWithInode st1.tree ino = (if ino ∈ st1.inodes then 1 else 0) := by
            intro ino h1
            rw [ht, hieq, slotsWithInode_append, hinv ino h1]
            by_cases hii : ino = ino0
            · subst hii
              simp [hino, hnm]
            · have hii' : ¬ino0 = ino := fun h => hii h.symm
              have hne : ¬(n.inode = some ino) := by simp [hino, hii']
              simp [hne, hii]
          obtain ⟨st', hloop, hc1, hc2⟩ := ih st1 hp' hri' hinv1
          refine ⟨st', by simp [collect_loop, hstep, hloop], ?_, ?_⟩
          · intro ino h1
            rw [hc1 ino h1, hieq, entriesWithInode_cons]
            by_cases hii : ino = ino0
            · subst hii
              simp [hino]
            · have hii' : ¬ino0 = ino := fun h => hii h.symm
              have hne : ¬(n.inode = some ino) := by simp [hino, hii']
              simp [hne, hii]
          · intro ino h1
            have hii : ¬(ino = ino0) := fun h => by
              subst h
              exact absurd h1 (by omega)
            have hii' : ¬ino0 = ino := fun h => hii h.symm
            have hne : ¬(n.inode = some ino) := by simp [hino, hii']
            rw [hc2 ino h1, ht, slotsWithInode_append, entriesWithInode_cons]
            simp [hne]
        · have hieq : st1.inodes = st.inodes := by
            rw [hi]; unfold stepInodes; rw [hino]; simp [hnl]
          have hinv1 : ∀ ino : Inode, ino.nlink > 1 →
              slotsWithInode st1.tree ino = (if ino ∈ st1.inodes then 1 else 0) := by
            intro ino h1
            have hii : ¬(ino = ino0) := fun h => by
              subst h
              exact absurd h1 hnl
            have hii' : ¬ino0 = ino := fun h => hii h.symm
            have hne : ¬(n.inode = some ino) := by simp [hino, hii']
            rw [ht, hieq, slotsWithInode_append, hinv ino h1]
            simp [hne]
          obtain ⟨st', hloop, hc1, hc2⟩ := ih st1 hp' hri' hinv1
          refine ⟨st', by simp [collect_loop, hstep, hloop], ?_, ?_⟩
          · intro ino h1
            have hii : ¬(ino = ino0) := fun h => by
              subst h
              exact absurd h1 hnl
            have hii' : ¬ino0 = ino := fun h => hii h.symm
            have hne : ¬(n.inode = some ino) := by simp [hino, hii']
            rw [hc1 ino h1, hieq, entriesWithInode_cons]
            simp [hne]
          · intro ino h1
            rw [hc2 ino h1, ht, slotsWithInode_append, entriesWithInode_cons]
            by_cases hii : ino = ino0
            · subst hii
              simp [hino, Nat.add_assoc, Nat.add_comm]
              omega
            · have hii' : ¬ino0 = ino := fun h => hii h.symm
              have hne : ¬(n.inode = some ino) := by simp [hino, hii']
              simp [hne, Nat.add_assoc]


/-! ## C5, C9: the missing-root condition; C4: hard-link dedup -/

/-- C5: if the event stream reaches its termination (its end) without ever
having delivered a root entry, the whole operation fails with the
missing-root error and no tree is returned (the result is the error alone);
conversely, if a root entry was seen, the result is never the missing-root
error — assembly proceeds.  The hypothesis only excludes entries with empty
paths, on which the Collector would already have aborted earlier with
ExpectedParent. -/
theorem C5_missing_root (s : List Node) (ctx : Ctx)
    (hp : ∀ e ∈ s, e.path ≠ []) :
    ((∀ e ∈ s, ¬(e.is_dir = true ∧ e.depth = 0)) →
      traverse s ctx = Except.error MErr.missingRoot) ∧
    ((∃ e ∈ s, e.is_dir = true ∧ e.depth = 0) →
      traverse s ctx ≠ Except.error MErr.missingRoot) := by
  obtain ⟨st', hloop, _, _, hkeep, hseen⟩ := collect_loop_ok s initState hp
  constructor
  · intro hnone
    have hr : st'.root_id = none := hkeep hnone
    simp [traverse, collectAssemble, hloop, hr]
  · intro hex
    have hr : st'.root_id.isSome = true := hseen hex
    obtain ⟨r, hr'⟩ := Option.isSome_iff_exists.mp hr
    simp only [traverse, collectAssemble, hloop, hr']
    cases assemble_tree ctx (st'.branches.length + 1) st'.tree r st'.branches with
    | none => simp
    | some pr => simp

theorem C5_missing_root_witness :
    (∀ e ∈ [(⟨["a", "x"], 1, Kind.file, some 3, none⟩ : Node)], e.path ≠ []) ∧
    ((∀ e ∈ [(⟨["a", "x"], 1, Kind.file, some 3, none⟩ : Node)],
        ¬(e.is_dir = true ∧ e.depth = 0)) →
      traverse [⟨["a", "x"], 1, Kind.file, some 3, none⟩] ⟨false, false, none⟩ =
        Except.error MErr.missingRoot) ∧
    ((∃ e ∈ [(⟨["a", "x"], 1, Kind.file, some 3, none⟩ : Node)],
        e.is_dir = true ∧ e.depth = 0) →
      traverse [⟨["a", "x"], 1, Kind.file, some 3, none⟩] ⟨false, false, none⟩ ≠
        Except.error MErr.missingRoot) :=
  ⟨by decide, C5_missing_root [⟨["a", "x"], 1, Kind.file, some 3, none⟩] ⟨false, false, none⟩
    (by decide)⟩

/-- C9: when the depth-0 entry is not a directory (the root path names a
regular file), the Collector inserts it as an ordinary node (slot 0 of the
arena, unattached), never records a root handle, and after the termination
event the pipeline fails with the missing-root error instead of returning a
single-node tree. -/
theorem C9_nondir_depth0 (e0 : Node) (rest : List Node) (ctx : Ctx)
    (h0 : e0.depth = 0) (hd : e0.is_dir = false) (hp0 : e0.path ≠ [])
    (hpr : ∀ e ∈ rest, e.path ≠ [])
    (hnr : ∀ e ∈ rest, ¬(e.is_dir = true ∧ e.depth = 0)) :
    ∃ st, collect_loop initState (e0 :: rest) = Except.ok st ∧
      st.root_id = none ∧
      st.tree.get 0 = ⟨e0, none, [], false⟩ ∧
      traverse (e0 :: rest) ctx = Except.error MErr.missingRoot := by
  obtain ⟨st1, hstep, hcases⟩ := collect_step_cases initState e0 hp0
  rcases hcases with ⟨h1, _⟩ | ⟨_, ⟨ino, _, _, hmem⟩, _⟩ | ⟨_, _, ht, hrid, _⟩
  · rw [hd] at h1
    exact absurd h1 (by simp)
  · exact absurd hmem (by simp [initState])
  · obtain ⟨st', hloop, ⟨t, htree⟩, _, hkeep, _⟩ := collect_loop_ok rest st1 hpr
    have hr : st'.root_id = none := by
      rw [hkeep hnr, hrid]
      rfl
    have htr : st'.tree = [⟨e0, none, [], false⟩] ++ t := by
      rw [htree, ht]
      rfl
    refine ⟨st', by simp [collect_loop, hstep, hloop], hr, ?_, ?_⟩
    · rw [htr, Arena.get_append_lt _ _ 0 (by simp)]
      rfl
    · simp [traverse, collectAssemble, collect_loop, hstep, hloop, hr]

theorem C9_nondir_depth0_witness :
    ((⟨["a"], 0, Kind.file, some 4, none⟩ : Node).depth = 0 ∧
     (⟨["a"], 0, Kind.file, some 4, none⟩ : Node).is_dir = false ∧
     (⟨["a"], 0, Kind.file, some 4, none⟩ : Node).path ≠ []) ∧
    (∃ st, collect_loop initState [⟨["a"], 0, Kind.file, some 4, none⟩] = Except.ok st ∧
      st.root_id = none ∧
      st.tree.get 0 = ⟨⟨["a"], 0, Kind.file, some 4, none⟩, none, [], false⟩ ∧
      traverse [⟨["a"], 0, Kind.file, some 4, none⟩] ⟨false, false, none⟩ =
        Except.error MErr.missingRoot) :=
  ⟨⟨by decide, by decide, by decide⟩,
   C9_nondir_depth0 ⟨["a"], 0, Kind.file, some 4, none⟩ [] ⟨false, false, none⟩
     (by decide) (by decide) (by decide) (by decide) (by decide)⟩

/-- C4: for any hard-link identity with link count above one carried by at
least one entry of the stream, exactly one arena slot holds that identity
after the Collector drains the stream — later aliases are discarded while
the loop still succeeds (no error is produced) — and identities with link
count not above one are never discarded: every such entry gets its own
slot.  The hypotheses only exclude empty paths (which abort the loop for
unrelated reasons) and hard-link identities on the root entry, which the
Collector's root branch would bypass. -/
theorem C4_hardlink_dedup (s : List Node)
    (hp : ∀ e ∈ s, e.path ≠ [])
    (hri : ∀ e ∈ s, e.inode.isSome = true → ¬(e.is_dir = true ∧ e.depth = 0)) :
    ∃ st, collect_loop initState s = Except.ok st ∧
      (∀ ino : Inode, ino.nlink > 1 → 1 ≤ entriesWithInode s ino →
        slotsWithInode st.tree ino = 1) ∧
      (∀ ino : Inode, ino.nlink ≤ 1 →
        slotsWithInode st.tree ino = entriesWithInode s ino) := by
  obtain ⟨st', hloop, hc1, hc2⟩ := collect_loop_counts s initState hp hri
    (by intro ino _; simp [initState, slotsWithInode])
  refine ⟨st', hloop, ?_, ?_⟩
  · intro ino h1 h2
    rw [hc1 ino h1]
    simp [initState, h2]
  · intro ino h1
    rw [hc2 ino h1]
    simp [initState, slotsWithInode]

theorem C4_hardlink_dedup_witness :
    ((∀ e ∈ [(⟨["a"], 0, Kind.dir, none, none⟩ : Node),
             ⟨["a", "p"], 1, Kind.file, some 8, some ⟨1, 7, 2⟩⟩,
             ⟨["a", "q"], 1, Kind.file, some 8, some ⟨1, 7, 2⟩⟩], e.path ≠ []) ∧
     (∀ e ∈ [(⟨["a"], 0, Kind.dir, none, none⟩ : Node),
             ⟨["a", "p"], 1, Kind.file, some 8, some ⟨1, 7, 2⟩⟩,
             ⟨["a", "q"], 1, Kind.file, some 8, some ⟨1, 7, 2⟩⟩],
        e.inode.isSome = true → ¬(e.is_dir = true ∧ e.depth = 0))) ∧
    (∃ st, collect_loop initState
        [⟨["a"], 0, Kind.dir, none, none⟩,
         ⟨["a", "p"], 1, Kind.file, some 8, some ⟨1, 7, 2⟩⟩,
         ⟨["a", "q"], 1, Kind.file, some 8, some ⟨1, 7, 2⟩⟩] = Except.ok st ∧
      (∀ ino : Inode, ino.nlink > 1 →
        1 ≤ entriesWithInode
          [⟨["a"], 0, Kind.dir, none, none⟩,
           ⟨["a", "p"], 1, Kind.file, some 8, some ⟨1, 7, 2⟩⟩,
           ⟨["a", "q"], 1, Kind.file, some 8, some ⟨1, 7, 2⟩⟩] ino →
        slotsWithInode st.tree ino = 1) ∧
      (∀ ino : Inode, ino.nlink ≤ 1 →
        slotsWithInode st.tree ino =
          entriesWithInode
            [⟨["a"], 0, Kind.dir, none, none⟩,
             ⟨["a", "p"], 1, Kind.file, some 8, some ⟨1, 7, 2⟩⟩,
             ⟨["a", "q"], 1, Kind.file, some 8, some ⟨1, 7, 2⟩⟩] ino)) :=
  ⟨⟨by decide, by decide⟩,
   C4_hardlink_dedup
     [⟨["a"], 0, Kind.dir, none, none⟩,
      ⟨["a", "p"], 1, Kind.file, some 8, some ⟨1, 7, 2⟩⟩,
      ⟨["a", "q"], 1, Kind.file, some 8, some ⟨1, 7, 2⟩⟩] (by decide) (by decide)⟩


/-! ## C8: stability of the configured sibling sort -/

theorem sublist_insertCmp (c : α → α → Ordering) (x : α) (l : List α) :
    l.Sublist (insertCmp c x l) := by
  induction l with
  | nil => simp [insertCmp]
  | cons y ys ih =>
    unfold insertCmp
    split
    · exact List.Sublist.cons₂ y ih
    · exact List.sublist_cons_self x (y :: ys)

theorem insertCmp_perm (c : α → α → Ordering) (x : α) (l : List α) :
    (insertCmp c x l).Perm (x :: l) := by
  induction l with
  | nil => simp [insertCmp]
  | cons y ys ih =>
    unfold insertCmp
    split
    · exact (List.Perm.cons y ih).trans (List.Perm.swap x y ys)
    · exact List.Perm.refl _

theorem sortByCmp_perm (c : α → α → Ordering) (l : List α) :
    (sortByCmp c l).Perm l := by
  induction l with
  | nil => exact List.Perm.refl _
  | cons y ys ih =>
    exact (insertCmp_perm c y (sortByCmp c ys)).trans (List.Perm.cons y ih)

theorem mem_sortByCmp (c : α → α → Ordering) (l : List α) (x : α) (h : x ∈ l) :
    x ∈ sortByCmp c l :=
  (sortByCmp_perm c l).mem_iff.mpr h

theorem insertCmp_pair (c : α → α → Ordering) (x b : α) (l : List α)
    (hb : b ∈ l) (hxb : ¬c x b = Ordering.gt) :
    [x, b].Sublist (insertCmp c x l) := by
  induction l with
  | nil => cases hb
  | cons y ys ih =>
    unfold insertCmp
    split
    · rcases List.mem_cons.mp hb with rfl | h
      · exact absurd (by assumption) hxb
      · exact List.Sublist.cons y (ih h)
    · exact List.Sublist.cons₂ x (List.singleton_sublist.mpr hb)

/-- Stability of the embedded sort_by: a pair of equal-comparing elements
appearing in this order in the input appears in the same order in the
output. -/
theorem sortByCmp_stable (c : α → α → Ordering) (a b : α) (l : List α)
    (heq : c a b = Ordering.eq) (hab : [a, b].Sublist l) :
    [a, b].Sublist (sortByCmp c l) := by
  induction l with
  | nil => cases hab
  | cons x xs ih =>
    cases hab with
    | cons _ h =>
      exact (ih h).trans (sublist_insertCmp c x (sortByCmp c xs))
    | cons₂ _ h =>
      exact insertCmp_pair c a b (sortByCmp c xs)
        (mem_sortByCmp c xs b (List.singleton_sublist.mp h))
        (by rw [heq]; simp)

/-- C8: when a comparator is configured, the Assembler's sibling sort is
stable: any two pending siblings whose nodes compare equal keep their
pending-list order in the sorted list that assemble_tree attaches (and the
sorted list is a permutation of the pending list, so nothing is added or
lost). -/
theorem C8_sort_stable (ctx : Ctx) (f : Node → Node → Ordering) (tree : Arena)
    (children : List Nat) (a b : Nat)
    (hc : ctx.comparator = some f)
    (heq : f (tree.get a).node (tree.get b).node = Ordering.eq)
    (hab : [a, b].Sublist children) :
    [a, b].Sublist (sortChildren ctx tree children) ∧
      (sortChildren ctx tree children).Perm children := by
  unfold sortChildren
  rw [hc]
  exact ⟨sortByCmp_stable _ a b children heq hab, sortByCmp_perm _ children⟩

theorem C8_sort_stable_witness :
    ((⟨false, false, some (fun n1 n2 => compare n1.path.length n2.path.length)⟩ :
        Ctx).comparator = some (fun n1 n2 => compare n1.path.length n2.path.length) ∧
     (fun n1 n2 => compare n1.path.length n2.path.length)
        (Arena.get [⟨⟨["a"], 0, Kind.dir, none, none⟩, none, [], false⟩,
           ⟨⟨["b"], 0, Kind.dir, none, none⟩, none, [], false⟩] 0).node
        (Arena.get [⟨⟨["a"], 0, Kind.dir, none, none⟩, none, [], false⟩,
           ⟨⟨["b"], 0, Kind.dir, none, none⟩, none, [], false⟩] 1).node =
        Ordering.eq ∧
     [0, 1].Sublist [0, 1]) ∧
    ([0, 1].Sublist
        (sortChildren ⟨false, false, some (fun n1 n2 => compare n1.path.length n2.path.length)⟩
          [⟨⟨["a"], 0, Kind.dir, none, none⟩, none, [], false⟩,
           ⟨⟨["b"], 0, Kind.dir, none, none⟩, none, [], false⟩] [0, 1]) ∧
      (sortChildren ⟨false, false, some (fun n1 n2 => compare n1.path.length n2.path.length)⟩
          [⟨⟨["a"], 0, Kind.dir, none, none⟩, none, [], false⟩,
           ⟨⟨["b"], 0, Kind.dir, none, none⟩, none, [], false⟩] [0, 1]).Perm [0, 1]) :=
  ⟨⟨rfl, rfl, List.Sublist.refl _⟩,
   C8_sort_stable _ _ _ _ 0 1 rfl rfl (List.Sublist.refl _)⟩


/-! ## Preorder traversal toolkit -/

theorem Arena.kids_default : (default : Slot).kids = [] := rfl

theorem graded_all (a : Arena) (h : Graded a) :
    ∀ i, ∀ j ∈ (a.get i).kids, (a.get i).node.path.length < (a.get j).node.path.length := by
  intro i j hj
  by_cases hi : i < a.length
  · exact h i (List.mem_range.mpr hi) j hj
  · rw [Arena.get_oor a i (Nat.le_of_not_lt hi)] at hj
    cases hj

theorem graded_kid_lt (a : Arena) (h : Graded a) :
    ∀ i, ∀ j ∈ (a.get i).kids, j < a.length := by
  intro i j hj
  by_contra hge
  have := graded_all a h i j hj
  rw [Arena.get_oor a j (Nat.le_of_not_lt hge)] at this
  exact Nat.not_lt_zero _ this

theorem kids_nonempty_lt (a : Arena) (i : Nat) (h : (a.get i).kids ≠ []) : i < a.length := by
  by_contra hge
  rw [Arena.get_oor a i (Nat.le_of_not_lt hge)] at h
  exact h rfl

/-- Rank of a slot: how many slots have strictly longer paths.  Child links
strictly decrease it, so it bounds the live depth below a slot. -/
def gRank (a : Arena) (i : Nat) : Nat :=
  ((Finset.range a.length).filter
    (fun j => (a.get i).node.path.length < (a.get j).node.path.length)).card

theorem gRank_le_len (a : Arena) (i : Nat) : gRank a i ≤ a.length := by
  classical
  calc gRank a i ≤ (Finset.range a.length).card := Finset.card_filter_le _ _
  _ = a.length := Finset.card_range _

theorem gRank_lt_of_kid (a : Arena) (h : Graded a) (i j : Nat) (hj : j ∈ (a.get i).kids) :
    gRank a j < gRank a i := by
  classical
  apply Finset.card_lt_card
  constructor
  · intro x hx
    rw [Finset.mem_filter] at hx ⊢
    exact ⟨hx.1, lt_trans (graded_all a h i j hj) hx.2⟩
  · intro hsub
    have hjmem : j ∈ (Finset.range a.length).filter
        (fun x => (a.get i).node.path.length < (a.get x).node.path.length) := by
      rw [Finset.mem_filter]
      exact ⟨Finset.mem_range.mpr (graded_kid_lt a h i j hj), graded_all a h i j hj⟩
    have := hsub hjmem
    rw [Finset.mem_filter] at this
    exact lt_irrefl _ this.2

theorem mem_preorder_self (a : Arena) (fuel i : Nat) (h : 1 ≤ fuel) :
    i ∈ preorderAux a fuel i := by
  cases fuel with
  | zero => omega
  | succ f => exact List.mem_cons_self i _

theorem preorder_head (a : Arena) (f i : Nat) :
    preorderAux a (f + 1) i = i :: (preorderAux a (f + 1) i).drop 1 := rfl

/-- Any element of the strict tail of a preorder traversal sits in some
child list. -/
theorem preorder_tail_allKids (a : Arena) :
    ∀ fuel r x, x ∈ (preorderAux a fuel r).drop 1 → x ∈ allKids a := by
  intro fuel
  induction fuel with
  | zero => intro r x hx; cases hx
  | succ f ih =>
    intro r x hx
    simp only [preorderAux, List.drop_one, List.tail_cons] at hx
    obtain ⟨k, hk, hxk⟩ := List.mem_flatMap.mp hx
    have hr : r < a.length := kids_nonempty_lt a r (List.ne_nil_of_mem hk)
    cases f with
    | zero => cases hxk
    | succ f' =>
      rcases List.mem_cons.mp ((preorder_head a f' k) ▸ hxk) with rfl | htail
      · exact List.mem_flatMap.mpr ⟨r, List.mem_range.mpr hr, hk⟩
      · exact ih k x htail

/-- Closure: the child of a traversed slot is in the traversal's strict
tail, provided the fuel exceeds the root's rank. -/
theorem preorder_kid_tail (a : Arena) (hg : Graded a) :
    ∀ fuel r i j, gRank a r < fuel → i ∈ preorderAux a fuel r → j ∈ (a.get i).kids →
      j ∈ (preorderAux a fuel r).drop 1 := by
  intro fuel
  induction fuel with
  | zero => intro r i j hfuel; omega
  | succ f ih =>
    intro r i j hfuel hi hj
    simp only [preorderAux, List.drop_one, List.tail_cons]
    rcases List.mem_cons.mp hi with rfl | htail
    · -- i is the root: j is a direct child, it heads its own sub-traversal
      have hf1 : 1 ≤ f := by
        have := gRank_lt_of_kid a hg i j hj
        omega
      exact List.mem_flatMap.mpr ⟨j, hj, mem_preorder_self a f j hf1⟩
    · obtain ⟨k, hk, hik⟩ := List.mem_flatMap.mp htail
      have hrank : gRank a k < f := by
        have := gRank_lt_of_kid a hg r k hk
        omega
      have := ih k i j hrank hik hj
      exact List.mem_flatMap.mpr ⟨k, hk, List.mem_of_mem_drop this⟩

/-- Membership in a preorder traversal is monotone in the child lists. -/
theorem preorder_mono (a b : Arena) (hk : ∀ i, (b.get i).kids.Sublist (a.get i).kids) :
    ∀ fuel r x, x ∈ preorderAux b fuel r → x ∈ preorderAux a fuel r := by
  intro fuel
  induction fuel with
  | zero => intro r x hx; cases hx
  | succ f ih =>
    intro r x hx
    simp only [preorderAux] at hx ⊢
    rcases List.mem_cons.mp hx with rfl | htail
    · exact List.mem_cons_self x _
    · obtain ⟨k, hkm, hxk⟩ := List.mem_flatMap.mp htail
      exact List.mem_cons_of_mem r
        (List.mem_flatMap.mpr ⟨k, (hk r).mem hkm, ih k x hxk⟩)

/-- Tail version of monotonicity. -/
theorem preorder_mono_tail (a b : Arena) (hk : ∀ i, (b.get i).kids.Sublist (a.get i).kids) :
    ∀ fuel r x, x ∈ (preorderAux b fuel r).drop 1 → x ∈ (preorderAux a fuel r).drop 1 := by
  intro fuel
  cases fuel with
  | zero => intro r x hx; cases hx
  | succ f =>
    intro r x hx
    simp only [preorderAux, List.drop_one, List.tail_cons] at hx ⊢
    obtain ⟨k, hkm, hxk⟩ := List.mem_flatMap.mp hx
    exact List.mem_flatMap.mpr ⟨k, (hk r).mem hkm, preorder_mono a b hk f k x hxk⟩

/-- Traversal only reads child lists. -/
theorem preorder_congr (a b : Arena) (hk : ∀ i, (b.get i).kids = (a.get i).kids) :
    ∀ fuel r, preorderAux b fuel r = preorderAux a fuel r := by
  intro fuel
  induction fuel with
  | zero => intro r; rfl
  | succ f ih =>
    intro r
    simp only [preorderAux, hk r]
    congr 1
    exact List.flatMap_congr (fun k _ => ih k)

theorem mem_allKids (a : Arena) (x : Nat) :
    x ∈ allKids a ↔ ∃ i, i < a.length ∧ x ∈ (a.get i).kids := by
  unfold allKids
  rw [List.mem_flatMap]
  constructor
  · rintro ⟨i, hi, hx⟩
    exact ⟨i, List.mem_range.mp hi, hx⟩
  · rintro ⟨i, hi, hx⟩
    exact ⟨i, List.mem_range.mpr hi, hx⟩


/-! ## Effect lemmas for detach, markRemoved, remove_subtree -/

theorem Arena.setSlot_oor (a : Arena) (i : Nat) (s : Slot) (h : a.length ≤ i) :
    a.setSlot i s = a :=
  List.set_eq_of_length_le h

theorem Arena.get_setSlot (a : Arena) (i j : Nat) (s : Slot) :
    (a.setSlot i s).get j = if j = i ∧ i < a.length then s else a.get j := by
  by_cases hij : j = i
  · subst hij
    by_cases hl : j < a.length
    · simp [hl, Arena.get_setSlot_self a j s hl]
    · rw [Arena.setSlot_oor a j s (Nat.le_of_not_lt hl)]
      simp [hl]
  · rw [Arena.get_setSlot_ne a i j s (fun h => hij h.symm)]
    simp [hij]

theorem markRemoved_get (ids : List Nat) : ∀ (a : Arena) (i : Nat),
    ((a.markRemoved ids).get i).node = (a.get i).node ∧
    ((a.markRemoved ids).get i).parent = (a.get i).parent ∧
    ((a.markRemoved ids).get i).kids = (a.get i).kids := by
  induction ids with
  | nil => intro a i; exact ⟨rfl, rfl, rfl⟩
  | cons c cs ih =>
    intro a i
    show ((Arena.markRemoved (a.setSlot c { a.get c with removed := true }) cs).get i).node =
        (a.get i).node ∧
      ((Arena.markRemoved (a.setSlot c { a.get c with removed := true }) cs).get i).parent =
        (a.get i).parent ∧
      ((Arena.markRemoved (a.setSlot c { a.get c with removed := true }) cs).get i).kids =
        (a.get i).kids
    obtain ⟨h1, h2, h3⟩ := ih (a.setSlot c { a.get c with removed := true }) i
    refine ⟨?_, ?_, ?_⟩
    · rw [h1, Arena.get_setSlot]
      split
      · next h => rw [h.1]
      · rfl
    · rw [h2, Arena.get_setSlot]
      split
      · next h => rw [h.1]
      · rfl
    · rw [h3, Arena.get_setSlot]
      split
      · next h => rw [h.1]
      · rfl

theorem markRemoved_length (ids : List Nat) : ∀ (a : Arena),
    (a.markRemoved ids).length = a.length := by
  induction ids with
  | nil => intro a; rfl
  | cons c cs ih =>
    intro a
    show (Arena.markRemoved (a.setSlot c { a.get c with removed := true }) cs).length = a.length
    rw [ih, Arena.length_setSlot]

theorem markRemoved_removed_notmem (ids : List Nat) : ∀ (a : Arena) (i : Nat), i ∉ ids →
    ((a.markRemoved ids).get i).removed = (a.get i).removed := by
  induction ids with
  | nil => intro a i _; rfl
  | cons c cs ih =>
    intro a i hni
    show ((Arena.markRemoved (a.setSlot c { a.get c with removed := true }) cs).get i).removed =
      (a.get i).removed
    rw [ih _ i (fun h => hni (List.mem_cons_of_mem c h)), Arena.get_setSlot]
    rw [if_neg (fun h => hni (by rw [h.1]; exact List.mem_cons_self c cs))]

theorem Arena.detach_length (a : Arena) (c : Nat) : (a.detach c).length = a.length := by
  unfold Arena.detach
  cases (a.get c).parent with
  | none => rfl
  | some p => simp [Arena.length_setSlot]

theorem Arena.remove_subtree_length (a : Arena) (c : Nat) :
    (a.remove_subtree c).length = a.length := by
  unfold Arena.remove_subtree
  rw [markRemoved_length, Arena.detach_length]

/-- What detach does to each slot, when the target has a stored parent. -/
theorem Arena.detach_get (a : Arena) (c p : Nat) (hp : (a.get c).parent = some p)
    (hpc : p ≠ c) (i : Nat) :
    (a.detach c).get i =
      if i = p ∧ p < a.length then { a.get p with kids := (a.get p).kids.erase c }
      else if i = c ∧ c < a.length then { a.get c with parent := none }
      else a.get i := by
  unfold Arena.detach
  rw [hp]
  simp only
  rw [Arena.get_setSlot, Arena.get_setSlot, Arena.length_setSlot, Arena.get_setSlot]
  by_cases hic : i = c
  · subst hic
    have hip : ¬i = p := fun h => hpc h.symm
    by_cases hl : i < List.length a <;> simp [hip, hl]
  · by_cases hip : i = p
    · subst hip
      simp [hic]
    · simp [hic, hip]

/-- Detach when the target has no stored parent: nothing happens. -/
theorem Arena.detach_none (a : Arena) (c : Nat) (h : (a.get c).parent = none) :
    a.detach c = a := by
  unfold Arena.detach
  rw [h]


/-- Slot-level effect of detach on a target with a stored parent: the
parent's child list loses the target, the target's parent link clears,
payloads survive. -/
theorem detach_get_cases (a : Arena) (c p : Nat) (hp : (a.get c).parent = some p)
    (i : Nat) :
    ((a.detach c).get i).kids =
      (if i = p ∧ p < a.length then (a.get p).kids.erase c else (a.get i).kids) ∧
    ((a.detach c).get i).node = (a.get i).node ∧
    (i ≠ c → ((a.detach c).get i).parent = (a.get i).parent) ∧
    ((a.detach c).get i).removed = (a.get i).removed := by
  unfold Arena.detach
  rw [hp]
  simp only [Arena.get_setSlot, Arena.length_setSlot]
  by_cases hic : i = c <;> by_cases hip : i = p <;> by_cases hlc : c < a.length <;>
    by_cases hlp : p < a.length <;>
    simp [hic, hip, hlc, hlp] <;>
    simp_all

theorem sublist_flatMap_of_mem (l : List Nat) (f : Nat → List Nat) (i : Nat) (h : i ∈ l) :
    (f i).Sublist (l.flatMap f) := by
  induction l with
  | nil => cases h
  | cons x xs ih =>
    simp only [List.flatMap_cons]
    rcases List.mem_cons.mp h with rfl | hm
    · exact List.sublist_append_left _ _
    · exact (ih hm).trans (List.sublist_append_right _ _)

theorem kids_sublist_allKids (a : Arena) (i : Nat) (hi : i < a.length) :
    (a.get i).kids.Sublist (allKids a) := by
  unfold allKids
  exact sublist_flatMap_of_mem (List.range a.length) (fun j => (a.get j).kids) i (List.mem_range.mpr hi)

theorem kids_nodup (a : Arena) (hg : GlobalNodup a) (i : Nat) : (a.get i).kids.Nodup := by
  by_cases hi : i < a.length
  · exact (kids_sublist_allKids a i hi).nodup hg
  · rw [Arena.get_oor a i (Nat.le_of_not_lt hi)]
    exact List.nodup_nil

theorem Arena.detach_removed_eq (a : Arena) (c : Nat) :
    ∀ i, ((a.detach c).get i).removed = (a.get i).removed := by
  intro i
  cases hp : (a.get c).parent with
  | none => rw [Arena.detach_none a c hp]
  | some p => exact (detach_get_cases a c p hp i).2.2.2



/-! ## The well-formedness bundle and its preservation under removal -/

/-- The arena shape produced by assembly: ranked child links, consistent
parent links, a single place per node, the root nobody's child. -/
def Wf (a : Arena) (root : Nat) : Prop :=
  Graded a ∧ ParentConsistent a ∧ GlobalNodup a ∧ RootFree a root

theorem totalKids_congr (a b : Arena) (hl : b.length = a.length)
    (hk : ∀ i, (b.get i).kids = (a.get i).kids) : totalKids b = totalKids a := by
  unfold totalKids
  rw [hl]
  exact Finset.sum_congr rfl (fun i _ => by rw [hk i])

theorem sublist_flatMap (l : List Nat) (f g : Nat → List Nat)
    (h : ∀ i ∈ l, (f i).Sublist (g i)) : (l.flatMap f).Sublist (l.flatMap g) := by
  induction l with
  | nil => simp
  | cons x xs ih =>
    simp only [List.flatMap_cons]
    exact List.Sublist.append (h x (by simp))
      (ih (fun i hi => h i (List.mem_cons_of_mem x hi)))

theorem allKids_sublist (a b : Arena) (hl : b.length = a.length)
    (hk : ∀ i, (b.get i).kids.Sublist (a.get i).kids) :
    (allKids b).Sublist (allKids a) := by
  unfold allKids
  rw [hl]
  exact sublist_flatMap _ _ _ (fun i _ => hk i)

theorem graded_of_sub (a b : Arena) (hl : b.length = a.length)
    (hk : ∀ i, (b.get i).kids.Sublist (a.get i).kids)
    (hn : ∀ i, (b.get i).node = (a.get i).node) (hg : Graded a) : Graded b := by
  intro i _ j hj
  rw [hn i, hn j]
  exact graded_all a hg i j ((hk i).mem hj)

theorem rootFree_of_sub (a b : Arena) (root : Nat) (hl : b.length = a.length)
    (hk : ∀ i, (b.get i).kids.Sublist (a.get i).kids) (hr : RootFree a root) :
    RootFree b root := by
  intro i hi hmem
  rw [hl] at hi
  exact hr i hi ((hk i).mem hmem)

theorem globalNodup_of_sub (a b : Arena) (hl : b.length = a.length)
    (hk : ∀ i, (b.get i).kids.Sublist (a.get i).kids) (hg : GlobalNodup a) :
    GlobalNodup b :=
  (allKids_sublist a b hl hk).nodup hg

/-- A sum over the slot range with exactly one child list changed. -/
theorem totalKids_single (a b : Arena) (p : Nat) (hl : b.length = a.length)
    (hp : p < a.length) (hk : ∀ i, i ≠ p → (b.get i).kids = (a.get i).kids) :
    totalKids b + (a.get p).kids.length = totalKids a + (b.get p).kids.length := by
  classical
  unfold totalKids
  rw [hl]
  have hmem : p ∈ Finset.range a.length := Finset.mem_range.mpr hp
  rw [← Finset.add_sum_erase _ (fun i => (Arena.get b i).kids.length) hmem,
      ← Finset.add_sum_erase _ (fun i => (Arena.get a i).kids.length) hmem]
  have hrest : ∑ i in (Finset.range a.length).erase p, (Arena.get b i).kids.length =
      ∑ i in (Finset.range a.length).erase p, (Arena.get a i).kids.length :=
    Finset.sum_congr rfl (fun i hi => by rw [hk i (Finset.ne_of_mem_erase hi)])
  rw [hrest]
  omega

/-- All facts needed about one remove_subtree call on an arbitrary id:
shape preservation, payload preservation, the measure never grows, and it
strictly shrinks when the target actually sits in a child list. -/
theorem remove_subtree_facts (a : Arena) (root c : Nat) (hw : Wf a root) :
    (a.remove_subtree c).length = a.length ∧
    (∀ i, ((a.remove_subtree c).get i).kids.Sublist (a.get i).kids) ∧
    (∀ i, ((a.remove_subtree c).get i).node = (a.get i).node) ∧
    Wf (a.remove_subtree c) root ∧
    totalKids (a.remove_subtree c) ≤ totalKids a ∧
    (c ∈ allKids a → totalKids (a.remove_subtree c) < totalKids a) := by
  obtain ⟨hg, hpc, hgn, hrf⟩ := hw
  have hlen := Arena.remove_subtree_length a c
  have hmr := markRemoved_get (a.descendants c) (a.detach c)
  have hdlen := Arena.detach_length a c
  -- kids of the result agree with kids of the detach stage
  have hkd : ∀ i, ((a.remove_subtree c).get i).kids = ((a.detach c).get i).kids :=
    fun i => (hmr i).2.2
  have hnd : ∀ i, ((a.remove_subtree c).get i).node = ((a.detach c).get i).node :=
    fun i => (hmr i).1
  have hpd : ∀ i, ((a.remove_subtree c).get i).parent = ((a.detach c).get i).parent :=
    fun i => (hmr i).2.1
  cases hpar : (a.get c).parent with
  | none =>
    -- the detach stage is the identity
    have hid := Arena.detach_none a c hpar
    have hksub : ∀ i, ((a.remove_subtree c).get i).kids.Sublist (a.get i).kids := by
      intro i
      rw [hkd i, hid]
    have hnode : ∀ i, ((a.remove_subtree c).get i).node = (a.get i).node := by
      intro i
      rw [hnd i, hid]
    have hkeq : ∀ i, ((a.remove_subtree c).get i).kids = (a.get i).kids := by
      intro i
      rw [hkd i, hid]
    have hparc : ∀ i, ((a.remove_subtree c).get i).parent = (a.get i).parent := by
      intro i
      rw [hpd i, hid]
    have htk : totalKids (a.remove_subtree c) = totalKids a :=
      totalKids_congr a _ hlen hkeq
    refine ⟨hlen, hksub, hnode, ⟨?_, ?_, ?_, ?_⟩, le_of_eq htk, ?_⟩
    · exact graded_of_sub a _ hlen hksub hnode hg
    · intro i hi j hj
      rw [hparc j]
      rw [hkeq i] at hj
      rw [hlen] at hi
      exact hpc i hi j hj
    · exact globalNodup_of_sub a _ hlen hksub hgn
    · exact rootFree_of_sub a _ root hlen hksub hrf
    · intro hmem
      obtain ⟨i, hi, hci⟩ := (mem_allKids a c).mp hmem
      exact absurd (hpc i (List.mem_range.mpr hi) c hci) (by rw [hpar]; simp)
  | some p =>
    have hdet := fun i => detach_get_cases a c p hpar i
    have hksub : ∀ i, ((a.remove_subtree c).get i).kids.Sublist (a.get i).kids := by
      intro i
      rw [hkd i, (hdet i).1]
      split
      · next h => rw [h.1]; exact List.erase_sublist _ _
      · exact List.Sublist.refl _
    have hnode : ∀ i, ((a.remove_subtree c).get i).node = (a.get i).node := by
      intro i
      rw [hnd i, (hdet i).2.1]
    have hcnot : ∀ i, c ∉ ((a.remove_subtree c).get i).kids := by
      intro i hmem
      rw [hkd i, (hdet i).1] at hmem
      by_cases hip : i = p ∧ p < a.length
      · rw [if_pos hip] at hmem
        have := ((kids_nodup a hgn p).mem_erase_iff.mp hmem).1
        exact this rfl
      · rw [if_neg hip] at hmem
        have hlt : i < a.length := kids_nonempty_lt a i (List.ne_nil_of_mem hmem)
        have := hpc i (List.mem_range.mpr hlt) c hmem
        rw [hpar] at this
        have hip' : i = p := by injection this with h; exact h.symm
        subst hip'
        exact hip ⟨rfl, hlt⟩
    refine ⟨hlen, hksub, hnode, ⟨?_, ?_, ?_, ?_⟩, ?_, ?_⟩
    · exact graded_of_sub a _ hlen hksub hnode hg
    · -- parent consistency
      intro i hi j hj
      by_cases hjc : j = c
      · subst hjc
        exact absurd hj (hcnot i)
      · rw [hpd j, (hdet j).2.2.1 hjc]
        rw [hlen] at hi
        exact hpc i hi j ((hksub i).mem hj)
    · exact globalNodup_of_sub a _ hlen hksub hgn
    · exact rootFree_of_sub a _ root hlen hksub hrf
    · -- measure never grows
      by_cases hlp : p < a.length
      · have := totalKids_single a (a.remove_subtree c) p hlen hlp
          (fun i hip => by
            rw [hkd i, (hdet i).1, if_neg (fun h => hip h.1)])
        have he : ((a.remove_subtree c).get p).kids = (a.get p).kids.erase c := by
          rw [hkd p, (hdet p).1, if_pos ⟨rfl, hlp⟩]
        rw [he] at this
        have hle : ((a.get p).kids.erase c).length ≤ (a.get p).kids.length :=
          (List.erase_sublist _ _).length_le
        omega
      · have hkeq : ∀ i, ((a.remove_subtree c).get i).kids = (a.get i).kids := by
          intro i
          rw [hkd i, (hdet i).1, if_neg (fun h => hlp h.2)]
        exact le_of_eq (totalKids_congr a _ hlen hkeq)
    · -- strict when the target sits in some child list
      intro hmem
      obtain ⟨i, hi, hci⟩ := (mem_allKids a c).mp hmem
      have hip : i = p := by
        have := hpc i (List.mem_range.mpr hi) c hci
        rw [hpar] at this
        injection this with h
        exact h.symm
      subst hip
      have hlp : i < a.length := hi
      have := totalKids_single a (a.remove_subtree c) i hlen hlp
        (fun k hki => by
          rw [hkd k, (hdet k).1, if_neg (fun h => hki h.1)])
      have he : ((a.remove_subtree c).get i).kids = (a.get i).kids.erase c := by
        rw [hkd i, (hdet i).1, if_pos ⟨rfl, hlp⟩]
      rw [he] at this
      have hlt : ((a.get i).kids.erase c).length < (a.get i).kids.length := by
        rw [List.length_erase_of_mem hci]
        have : (a.get i).kids.length ≠ 0 := by
          intro h0
          rw [List.length_eq_zero] at h0
          rw [h0] at hci
          cases hci
        omega
      omega


/-! ## One prune pass and the prune fixpoint -/

theorem descendants_of_kids_nil (a : Arena) (c : Nat) (h : (a.get c).kids = []) :
    a.descendants c = [c] := by
  unfold Arena.descendants preorderAux
  rw [h]
  rfl

theorem remove_subtree_removed_other (a : Arena) (c r : Nat) (hcr : c ≠ r)
    (hke : (a.get c).kids = []) :
    ((a.remove_subtree c).get r).removed = (a.get r).removed := by
  unfold Arena.remove_subtree
  rw [descendants_of_kids_nil a c hke]
  rw [markRemoved_removed_notmem [c] (a.detach c) r
    (by intro hm; rw [List.mem_singleton] at hm; exact hcr hm.symm)]
  exact Arena.detach_removed_eq a c r

/-- Facts about folding remove_subtree over a list of empty, non-root
directories: shape is preserved, the measure never grows, and shrinks
strictly as soon as the first element actually sits in a child list. -/
theorem fold_remove_facts (ds : List Nat) : ∀ (a : Arena) (root : Nat), Wf a root →
    (∀ c ∈ ds, c ≠ root) → (∀ c ∈ ds, (a.get c).kids = []) →
    (ds.foldl (fun t id => t.remove_subtree id) a).length = a.length ∧
    (∀ i, ((ds.foldl (fun t id => t.remove_subtree id) a).get i).kids.Sublist
      (a.get i).kids) ∧
    (∀ i, ((ds.foldl (fun t id => t.remove_subtree id) a).get i).node = (a.get i).node) ∧
    Wf (ds.foldl (fun t id => t.remove_subtree id) a) root ∧
    ((ds.foldl (fun t id => t.remove_subtree id) a).get root).removed =
      (a.get root).removed ∧
    totalKids (ds.foldl (fun t id => t.remove_subtree id) a) ≤ totalKids a ∧
    (∀ c0 rest, ds = c0 :: rest → c0 ∈ allKids a →
      totalKids (ds.foldl (fun t id => t.remove_subtree id) a) < totalKids a) := by
  induction ds with
  | nil =>
    intro a root hw _ _
    exact ⟨rfl, fun i => List.Sublist.refl _, fun i => rfl, hw, rfl, le_refl _,
      fun c0 rest h => by cases h⟩
  | cons c cs ih =>
    intro a root hw hnr hke
    obtain ⟨hlen1, hsub1, hnode1, hw1, hle1, hlt1⟩ := remove_subtree_facts a root c hw
    have hflag1 : ((a.remove_subtree c).get root).removed = (a.get root).removed :=
      remove_subtree_removed_other a c root (hnr c (by simp)) (hke c (by simp))
    have hke' : ∀ d ∈ cs, ((a.remove_subtree c).get d).kids = [] := by
      intro d hd
      have := hsub1 d
      rw [hke d (List.mem_cons_of_mem c hd)] at this
      exact List.sublist_nil.mp this
    have hnr' : ∀ d ∈ cs, d ≠ root := fun d hd => hnr d (List.mem_cons_of_mem c hd)
    obtain ⟨ihlen, ihsub, ihnode, ihw, ihflag, ihle, _⟩ :=
      ih (a.remove_subtree c) root hw1 hnr' hke'
    have hfold : (c :: cs).foldl (fun t id => t.remove_subtree id) a =
        cs.foldl (fun t id => t.remove_subtree id) (a.remove_subtree c) := rfl
    rw [hfold]
    refine ⟨ihlen.trans hlen1, ?_, ?_, ihw, ihflag.trans hflag1, ihle.trans hle1, ?_⟩
    · exact fun i => (ihsub i).trans (hsub1 i)
    · exact fun i => (ihnode i).trans (hnode1 i)
    · intro c0 rest heq hmem
      injection heq with h1 h2
      subst h1
      exact lt_of_le_of_lt ihle (hlt1 hmem)

/-- Everything scanPrune returns is an empty directory in a child list,
distinct from the root. -/
theorem scanPrune_facts (a : Arena) (root : Nat) (hw : Wf a root) :
    ∀ c ∈ scanPrune root a, (a.get c).kids = [] ∧ c ∈ allKids a ∧ c ≠ root := by
  intro c hc
  obtain ⟨hmem, hcond⟩ := List.mem_filter.mp hc
  have hkids : (a.get c).kids = [] := by
    have := (Bool.and_eq_true _ _).mp hcond
    exact of_decide_eq_true this.2
  have hall : c ∈ allKids a := preorder_tail_allKids a _ root c hmem
  refine ⟨hkids, hall, ?_⟩
  intro hcr
  subst hcr
  obtain ⟨i, hi, hci⟩ := (mem_allKids a c).mp hall
  exact hw.2.2.2 i (List.mem_range.mpr hi) hci

/-- The prune recursion reaches its fixpoint within any fuel above the
measure, preserving shape, payloads and the root slot's flag. -/
theorem prune_fix (root : Nat) : ∀ (fuel : Nat) (a : Arena), Wf a root →
    totalKids a < fuel →
    scanPrune root (prune_directories root fuel a) = [] ∧
    Wf (prune_directories root fuel a) root ∧
    (prune_directories root fuel a).length = a.length ∧
    (∀ i, ((prune_directories root fuel a).get i).kids.Sublist (a.get i).kids) ∧
    (∀ i, ((prune_directories root fuel a).get i).node = (a.get i).node) ∧
    ((prune_directories root fuel a).get root).removed = (a.get root).removed := by
  intro fuel
  induction fuel with
  | zero => intro a _ h; omega
  | succ f ih =>
    intro a hw hfuel
    by_cases hscan : scanPrune root a = []
    · have : prune_directories root (f + 1) a = a := by
        rw [prune_directories]
        simp [hscan]
      rw [this]
      exact ⟨hscan, hw, rfl, fun i => List.Sublist.refl _, fun i => rfl, rfl⟩
    · have hstep : prune_directories root (f + 1) a =
          prune_directories root f
            ((scanPrune root a).foldl (fun t id => t.remove_subtree id) a) := by
        rw [prune_directories]
        simp only [hscan, if_false]
      obtain ⟨c0, rest, hds⟩ := List.exists_cons_of_ne_nil hscan
      have hfacts := scanPrune_facts a root hw
      obtain ⟨hlen1, hsub1, hnode1, hw1, hflag1, hle1, hstrict⟩ :=
        fold_remove_facts (scanPrune root a) a root hw
          (fun c hc => (hfacts c hc).2.2) (fun c hc => (hfacts c hc).1)
      have hc0 : c0 ∈ allKids a := by
        have : c0 ∈ scanPrune root a := by rw [hds]; exact List.mem_cons_self c0 rest
        exact (hfacts c0 this).2.1
      have hlt : totalKids ((scanPrune root a).foldl (fun t id => t.remove_subtree id) a) <
          totalKids a := hstrict c0 rest hds hc0
      obtain ⟨ihscan, ihw, ihlen, ihsub, ihnode, ihflag⟩ :=
        ih ((scanPrune root a).foldl (fun t id => t.remove_subtree id) a) hw1 (by omega)
      rw [hstep]
      exact ⟨ihscan, ihw, ihlen.trans hlen1, fun i => (ihsub i).trans (hsub1 i),
        fun i => (ihnode i).trans (hnode1 i), ihflag.trans hflag1⟩


theorem prune_directories_of_scan_nil (root n : Nat) (t : Arena)
    (h : scanPrune root t = []) : prune_directories root (n + 1) t = t := by
  rw [prune_directories]
  simp [h]

/-- C6: pruning empty directories is idempotent — a second pruneRun is the
identity on the result of the first — because the first run reaches the
fixpoint where no directory descendant of the root (the root excluded, as
the scan skips it) has zero children; and the root is never removed: its
slot keeps its removed flag and it stays the head of the live traversal,
even when it ends up with zero children.  The hypotheses are the shape
invariants of an assembled arena. -/
theorem C6_prune_idempotent (a : Arena) (root : Nat)
    (hg : Graded a) (hp : ParentConsistent a) (hn : GlobalNodup a)
    (hr : RootFree a root) :
    pruneRun root (pruneRun root a) = pruneRun root a ∧
    scanPrune root (pruneRun root a) = [] ∧
    (∀ id ∈ ((pruneRun root a).descendants root).drop 1,
      ((pruneRun root a).get id).node.is_dir = true →
        ((pruneRun root a).get id).kids ≠ []) ∧
    ((pruneRun root a).get root).removed = (a.get root).removed ∧
    root ∈ (pruneRun root a).descendants root := by
  obtain ⟨hscan, hwY, hlen, hsub, hnode, hflag⟩ :=
    prune_fix root (totalKids a + 1) a ⟨hg, hp, hn, hr⟩ (Nat.lt_succ_self _)
  refine ⟨?_, hscan, ?_, hflag, ?_⟩
  · exact prune_directories_of_scan_nil root (totalKids (pruneRun root a)) _ hscan
  · intro id hid hdir
    unfold pruneRun at hid hdir
    have hfil := List.filter_eq_nil_iff.mp hscan id hid
    intro hkids
    unfold pruneRun at hkids
    apply hfil
    rw [hdir, hkids]
    simp
  · exact mem_preorder_self _ _ root (Nat.succ_le_succ (Nat.zero_le _))

theorem C6_prune_idempotent_witness :
    (Graded [⟨⟨["a"], 0, Kind.dir, none, none⟩, none, [1, 2], false⟩,
             ⟨⟨["a", "b"], 1, Kind.dir, none, none⟩, some 0, [], false⟩,
             ⟨⟨["a", "c"], 1, Kind.file, some 4, none⟩, some 0, [], false⟩] ∧
     ParentConsistent [⟨⟨["a"], 0, Kind.dir, none, none⟩, none, [1, 2], false⟩,
             ⟨⟨["a", "b"], 1, Kind.dir, none, none⟩, some 0, [], false⟩,
             ⟨⟨["a", "c"], 1, Kind.file, some 4, none⟩, some 0, [], false⟩] ∧
     GlobalNodup [⟨⟨["a"], 0, Kind.dir, none, none⟩, none, [1, 2], false⟩,
             ⟨⟨["a", "b"], 1, Kind.dir, none, none⟩, some 0, [], false⟩,
             ⟨⟨["a", "c"], 1, Kind.file, some 4, none⟩, some 0, [], false⟩] ∧
     RootFree [⟨⟨["a"], 0, Kind.dir, none, none⟩, none, [1, 2], false⟩,
             ⟨⟨["a", "b"], 1, Kind.dir, none, none⟩, some 0, [], false⟩,
             ⟨⟨["a", "c"], 1, Kind.file, some 4, none⟩, some 0, [], false⟩] 0) ∧
    (pruneRun 0 (pruneRun 0
        [⟨⟨["a"], 0, Kind.dir, none, none⟩, none, [1, 2], false⟩,
         ⟨⟨["a", "b"], 1, Kind.dir, none, none⟩, some 0, [], false⟩,
         ⟨⟨["a", "c"], 1, Kind.file, some 4, none⟩, some 0, [], false⟩]) =
      pruneRun 0
        [⟨⟨["a"], 0, Kind.dir, none, none⟩, none, [1, 2], false⟩,
         ⟨⟨["a", "b"], 1, Kind.dir, none, none⟩, some 0, [], false⟩,
         ⟨⟨["a", "c"], 1, Kind.file, some 4, none⟩, some 0, [], false⟩]) :=
  ⟨⟨by decide, by decide, by decide, by decide⟩,
   (C6_prune_idempotent
     [⟨⟨["a"], 0, Kind.dir, none, none⟩, none, [1, 2], false⟩,
      ⟨⟨["a", "b"], 1, Kind.dir, none, none⟩, some 0, [], false⟩,
      ⟨⟨["a", "c"], 1, Kind.file, some 4, none⟩, some 0, [], false⟩] 0
     (by decide) (by decide) (by decide) (by decide)).1⟩


/-! ## C7: the directories-only filter -/

theorem detach_parent_self (a : Arena) (c p : Nat) (hp : (a.get c).parent = some p)
    (hc : c < a.length) : ((a.detach c).get c).parent = none := by
  unfold Arena.detach
  rw [hp]
  simp only [Arena.get_setSlot, Arena.length_setSlot]
  simp [hc]

/-- Folding detach over a batch of ids: child lists end up filtered by the
batch, cleared slots lose their parent link, payloads survive.  The
characterization is relative to the starting arena a and an accumulator S
of already-detached ids. -/
theorem fold_detach_char (a : Arena) (hpa : ParentConsistent a) (hga : GlobalNodup a) :
    ∀ (ds : List Nat) (b : Arena) (S : List Nat),
    b.length = a.length →
    (∀ i, (b.get i).kids = (a.get i).kids.filter (fun x => decide (x ∉ S))) →
    (∀ j, (b.get j).parent = if j ∈ S then none else (a.get j).parent) →
    (∀ i, (b.get i).node = (a.get i).node) →
    (ds.foldl (fun t id => t.detach id) b).length = a.length ∧
    (∀ i, ((ds.foldl (fun t id => t.detach id) b).get i).kids =
      (a.get i).kids.filter (fun x => decide (x ∉ S ++ ds))) ∧
    (∀ j, ((ds.foldl (fun t id => t.detach id) b).get j).parent =
      if j ∈ S ++ ds then none else (a.get j).parent) ∧
    (∀ i, ((ds.foldl (fun t id => t.detach id) b).get i).node = (a.get i).node) := by
  intro ds
  induction ds with
  | nil =>
    intro b S hlen hK hP hN
    simp only [List.foldl_nil, List.append_nil]
    exact ⟨hlen, hK, hP, hN⟩
  | cons c cs ih =>
    intro b S hlen hK hP hN
    have hassoc : S ++ c :: cs = (S ++ [c]) ++ cs := by simp
    rw [hassoc]
    have hfold : (c :: cs).foldl (fun t id => t.detach id) b =
        cs.foldl (fun t id => t.detach id) (b.detach c) := rfl
    rw [hfold]
    by_cases hcS : c ∈ S
    · -- already cleared: detach is the identity
      have hpn : (b.get c).parent = none := by rw [hP c, if_pos hcS]
      rw [Arena.detach_none b c hpn]
      apply ih b (S ++ [c]) hlen
      · intro i
        rw [hK i]
        apply List.filter_congr
        intro x _
        by_cases h1 : x ∈ S
        · simp [h1]
        · have h2 : x ≠ c := fun h => h1 (h ▸ hcS)
          simp [h1, h2]
      · intro j
        rw [hP j]
        by_cases hj : j ∈ S
        · rw [if_pos hj, if_pos (by simp [hj])]
        · have hnotc : j ≠ c := fun h => hj (h ▸ hcS)
          rw [if_neg hj, if_neg (by simp [hj, hnotc])]
      · exact hN
    · have hpc : (b.get c).parent = (a.get c).parent := by rw [hP c, if_neg hcS]
      cases hpar : (a.get c).parent with
      | none =>
        -- never anyone's child: detach is the identity and c occurs in no list
        have hcnk : ∀ i, c ∉ (a.get i).kids := by
          intro i hmem
          have hlt : i < a.length := kids_nonempty_lt a i (List.ne_nil_of_mem hmem)
          have := hpa i (List.mem_range.mpr hlt) c hmem
          rw [hpar] at this
          cases this
        rw [Arena.detach_none b c (hpc.trans hpar)]
        apply ih b (S ++ [c]) hlen
        · intro i
          rw [hK i]
          apply List.filter_congr
          intro x hx
          by_cases h1 : x ∈ S
          · simp [h1]
          · have h2 : x ≠ c := fun h => hcnk i (h ▸ hx)
            simp [h1, h2]
        · intro j
          rw [hP j]
          by_cases hjc : j = c
          · subst hjc
            rw [if_neg hcS, hpar, if_pos (by simp)]
          · by_cases hj : j ∈ S
            · rw [if_pos hj, if_pos (by simp [hj])]
            · rw [if_neg hj, if_neg (by simp [hj, hjc])]
        · exact hN
      | some p =>
        have hbp : (b.get c).parent = some p := hpc.trans hpar
        have hclt : c < a.length := by
          by_contra hge
          have hd : b.get c = default := by
            rw [← hlen] at hge
            exact Arena.get_oor b c (Nat.le_of_not_lt hge)
          rw [hd] at hbp
          cases hbp
        have hdet := fun i => detach_get_cases b c p hbp i
        apply ih (b.detach c) (S ++ [c])
        · rw [Arena.detach_length, hlen]
        · intro i
          rw [(hdet i).1]
          by_cases hip : i = p ∧ p < b.length
          · rw [if_pos hip, hip.1, hK p]
            have hnd : (a.get p).kids.Nodup := kids_nodup a hga p
            rw [List.Nodup.erase_eq_filter (hnd.filter _) c, List.filter_filter]
            apply List.filter_congr
            intro x _
            by_cases h1 : x ∈ S
            · simp [h1]
            · by_cases h2 : x = c
              · simp [h1, h2]
              · simp [h1, h2]
          · rw [if_neg hip, hK i]
            apply List.filter_congr
            intro x hx
            by_cases h1 : x ∈ S
            · simp [h1]
            · by_cases h2 : x = c
              · -- x = c sits in the kids of i, so i would be p
                subst h2
                have hlt : i < a.length := kids_nonempty_lt a i (List.ne_nil_of_mem hx)
                have := hpa i (List.mem_range.mpr hlt) x hx
                rw [hpar] at this
                injection this with hh
                rw [hlen] at hip
                exact absurd ⟨hh.symm, hh ▸ hlt⟩ hip
              · simp [h1, h2]
        · intro j
          by_cases hjc : j = c
          · subst hjc
            rw [detach_parent_self b j p hbp (by rw [hlen]; exact hclt)]
            rw [if_pos (by simp)]
          · rw [(hdet j).2.2.1 hjc, hP j]
            by_cases hj : j ∈ S
            · rw [if_pos hj, if_pos (by simp [hj])]
            · rw [if_neg hj, if_neg (by simp [hj, hjc])]
        · intro i
          rw [(hdet i).2.1, hN i]


/-- C7: the directories-only filter detaches every non-directory descendant
of the root in its single pass — afterwards every live node other than the
root is a directory — while payloads (hence aggregate sizes) of every slot
are untouched and every surviving directory keeps its children in order,
merely restricted to the directory ones. -/
theorem C7_filter_directories (a : Arena) (root : Nat)
    (hg : Graded a) (hp : ParentConsistent a) (hn : GlobalNodup a) :
    (∀ x ∈ (filter_directories root a).descendants root, x ≠ root →
      ((filter_directories root a).get x).node.is_dir = true) ∧
    (∀ i, ((filter_directories root a).get i).node = (a.get i).node) ∧
    (∀ i ∈ a.descendants root, (a.get i).node.is_dir = true →
      ((filter_directories root a).get i).kids =
        (a.get i).kids.filter (fun c => (a.get c).node.is_dir)) := by
  have hds : filter_directories root a =
      (((a.descendants root).drop 1).filter
        (fun id => !(a.get id).node.is_dir)).foldl (fun t id => t.detach id) a := rfl
  obtain ⟨hlen, hK, hP, hN⟩ := fold_detach_char a hp hn
    (((a.descendants root).drop 1).filter (fun id => !(a.get id).node.is_dir)) a []
    rfl (by intro i; simp) (by intro j; simp) (fun i => rfl)
  rw [← hds] at hlen hK hP hN
  simp only [List.nil_append] at hK hP
  have hmemds : ∀ x, x ∈ (((a.descendants root).drop 1).filter
      (fun id => !(a.get id).node.is_dir)) ↔
      x ∈ (a.descendants root).drop 1 ∧ (a.get x).node.is_dir = false := by
    intro x
    rw [List.mem_filter]
    simp
  refine ⟨?_, hN, ?_⟩
  · -- all live non-root slots are directories
    intro x hx hxr
    by_contra hnd
    have hnd' : (a.get x).node.is_dir = false := by
      rw [← hN x]
      exact Bool.not_eq_true _ ▸ (Bool.eq_false_iff.mpr hnd)
    -- x is in the strict tail of the live traversal of the result
    have hxtail : x ∈ ((filter_directories root a).descendants root).drop 1 := by
      unfold Arena.descendants at hx ⊢
      rcases List.mem_cons.mp ((preorder_head _ _ root) ▸ hx) with rfl | ht
      · exact absurd rfl hxr
      · exact ht
    -- hence x lies in some live child list, so x survived the batch
    have hall : x ∈ allKids (filter_directories root a) :=
      preorder_tail_allKids _ _ root x hxtail
    obtain ⟨i, hi, hxk⟩ := (mem_allKids _ x).mp hall
    rw [hK i, List.mem_filter] at hxk
    have hxnot := of_decide_eq_true hxk.2
    -- but x is also a non-directory member of the original strict tail
    have hxta : x ∈ (a.descendants root).drop 1 := by
      unfold Arena.descendants at hxtail ⊢
      rw [hlen] at hxtail
      exact preorder_mono_tail a (filter_directories root a)
        (fun i => by rw [hK i]; exact List.filter_sublist _) _ root x hxtail
    exact hxnot ((hmemds x).mpr ⟨hxta, hnd'⟩)
  · -- surviving directories keep their child order, restricted to directories
    intro i hi _
    rw [hK i]
    apply List.filter_congr
    intro c hc
    cases hdir : (a.get c).node.is_dir with
    | true =>
      simp only [hdir, decide_eq_true_eq]
      intro hmem
      rw [hmemds c] at hmem
      rw [hdir] at hmem
      cases hmem.2
    | false =>
      have htail : c ∈ (a.descendants root).drop 1 := by
        unfold Arena.descendants at hi ⊢
        exact preorder_kid_tail a hg _ root i c
          (Nat.lt_succ_of_le (gRank_le_len a root)) hi hc
      rw [decide_eq_false_iff_not]
      simp only [not_not]
      exact (hmemds c).mpr ⟨htail, hdir⟩


theorem C7_filter_directories_witness :
    (Graded [⟨⟨["a"], 0, Kind.dir, none, none⟩, none, [1, 2], false⟩,
             ⟨⟨["a", "x"], 1, Kind.file, some 3, none⟩, some 0, [], false⟩,
             ⟨⟨["a", "b"], 1, Kind.dir, some 5, none⟩, some 0, [3], false⟩,
             ⟨⟨["a", "b", "y"], 2, Kind.file, some 5, none⟩, some 2, [], false⟩] ∧
     ParentConsistent [⟨⟨["a"], 0, Kind.dir, none, none⟩, none, [1, 2], false⟩,
             ⟨⟨["a", "x"], 1, Kind.file, some 3, none⟩, some 0, [], false⟩,
             ⟨⟨["a", "b"], 1, Kind.dir, some 5, none⟩, some 0, [3], false⟩,
             ⟨⟨["a", "b", "y"], 2, Kind.file, some 5, none⟩, some 2, [], false⟩] ∧
     GlobalNodup [⟨⟨["a"], 0, Kind.dir, none, none⟩, none, [1, 2], false⟩,
             ⟨⟨["a", "x"], 1, Kind.file, some 3, none⟩, some 0, [], false⟩,
             ⟨⟨["a", "b"], 1, Kind.dir, some 5, none⟩, some 0, [3], false⟩,
             ⟨⟨["a", "b", "y"], 2, Kind.file, some 5, none⟩, some 2, [], false⟩]) ∧
    (∀ i, ((filter_directories 0
        [⟨⟨["a"], 0, Kind.dir, none, none⟩, none, [1, 2], false⟩,
         ⟨⟨["a", "x"], 1, Kind.file, some 3, none⟩, some 0, [], false⟩,
         ⟨⟨["a", "b"], 1, Kind.dir, some 5, none⟩, some 0, [3], false⟩,
         ⟨⟨["a", "b", "y"], 2, Kind.file, some 5, none⟩, some 2, [], false⟩]).get i).node =
      (Arena.get [⟨⟨["a"], 0, Kind.dir, none, none⟩, none, [1, 2], false⟩,
         ⟨⟨["a", "x"], 1, Kind.file, some 3, none⟩, some 0, [], false⟩,
         ⟨⟨["a", "b"], 1, Kind.dir, some 5, none⟩, some 0, [3], false⟩,
         ⟨⟨["a", "b", "y"], 2, Kind.file, some 5, none⟩, some 2, [], false⟩] i).node) :=
  ⟨⟨by decide, by decide, by decide⟩,
   (C7_filter_directories
     [⟨⟨["a"], 0, Kind.dir, none, none⟩, none, [1, 2], false⟩,
      ⟨⟨["a", "x"], 1, Kind.file, some 3, none⟩, some 0, [], false⟩,
      ⟨⟨["a", "b"], 1, Kind.dir, some 5, none⟩, some 0, [3], false⟩,
      ⟨⟨["a", "b", "y"], 2, Kind.file, some 5, none⟩, some 2, [], false⟩] 0
     (by decide) (by decide) (by decide)).2.1⟩


/-! ## Path prefix lemmas -/

theorem isPfx_iff (p : Path) : ∀ q, isPfx p q = true ↔ ∃ t, q = p ++ t := by
  induction p with
  | nil => intro q; simp [isPfx]
  | cons a as ih =>
    intro q
    cases q with
    | nil =>
      simp only [isPfx]
      constructor
      · intro h; cases h
      · rintro ⟨t, ht⟩; cases ht
    | cons b bs =>
      simp only [isPfx, Bool.and_eq_true, decide_eq_true_eq, ih bs]
      constructor
      · rintro ⟨rfl, t, rfl⟩
        exact ⟨t, rfl⟩
      · rintro ⟨t, ht⟩
        injection ht with h1 h2
        exact ⟨h1.symm, t, h2⟩

theorem isPfx_refl (p : Path) : isPfx p p = true :=
  (isPfx_iff p p).mpr ⟨[], by simp⟩

theorem isPfx_trans (p q r : Path) (h1 : isPfx p q = true) (h2 : isPfx q r = true) :
    isPfx p r = true := by
  obtain ⟨t1, rfl⟩ := (isPfx_iff p q).mp h1
  obtain ⟨t2, rfl⟩ := (isPfx_iff _ _).mp h2
  exact (isPfx_iff p _).mpr ⟨t1 ++ t2, by simp⟩

theorem isPfx_length (p q : Path) (h : isPfx p q = true) : p.length ≤ q.length := by
  obtain ⟨t, rfl⟩ := (isPfx_iff p q).mp h
  simp

theorem isPfx_eq_of_length (p q : Path) (h : isPfx p q = true)
    (hl : q.length ≤ p.length) : p = q := by
  obtain ⟨t, rfl⟩ := (isPfx_iff p q).mp h
  have : t = [] := by
    rw [List.length_append] at hl
    exact List.eq_nil_of_length_eq_zero (by omega)
  simp [this]

theorem isPfx_same_length (p q r : Path) (h1 : isPfx p r = true) (h2 : isPfx q r = true)
    (hl : p.length = q.length) : p = q := by
  obtain ⟨t1, ht1⟩ := (isPfx_iff p r).mp h1
  obtain ⟨t2, ht2⟩ := (isPfx_iff q r).mp h2
  rw [ht1] at ht2
  exact (List.append_inj ht2 hl).1

theorem isPfx_dropLast_self (l : Path) (h : l ≠ []) : isPfx l.dropLast l = true :=
  (isPfx_iff _ _).mpr ⟨[l.getLast h], (List.dropLast_append_getLast h).symm⟩

theorem isPfx_dropLast_of_lt (q l : Path) (h : isPfx q l = true) (hl : q.length < l.length) :
    isPfx q l.dropLast = true := by
  obtain ⟨t, rfl⟩ := (isPfx_iff q l).mp h
  have ht : t ≠ [] := by
    intro h0
    rw [h0] at hl
    simp at hl
  rw [List.dropLast_append_of_ne_nil _ ht]
  exact (isPfx_iff _ _).mpr ⟨t.dropLast, rfl⟩

theorem isPfx_take (p r : Path) (n : Nat) (h : isPfx p r = true) (hn : p.length ≤ n) :
    isPfx p (r.take n) = true := by
  obtain ⟨t, rfl⟩ := (isPfx_iff p r).mp h
  rw [List.take_append_eq_append_take, List.take_of_length_le hn]
  exact (isPfx_iff _ _).mpr ⟨_, rfl⟩

theorem take_isPfx (l : Path) (n : Nat) : isPfx (l.take n) l = true :=
  (isPfx_iff _ _).mpr ⟨l.drop n, (List.take_append_drop n l).symm⟩

theorem dropLast_of_pfx_succ (p q : Path) (h : isPfx p q = true)
    (hl : q.length = p.length + 1) : q.dropLast = p := by
  obtain ⟨t, rfl⟩ := (isPfx_iff p q).mp h
  rw [List.length_append] at hl
  have : t.length = 1 := by omega
  obtain ⟨x, hx⟩ := List.length_eq_one.mp this
  subst hx
  rw [List.dropLast_append_of_ne_nil _ (by simp)]
  simp


/-! ## Admissible stream lemmas -/

theorem adm_pathNe (s : List Node) (hs : Adm s) (i : Nat) (hi : i < s.length) :
    (ent s i).path ≠ [] :=
  hs.2.2.2.2.1 i (List.mem_range.mpr hi)

theorem adm_pathInj (s : List Node) (hs : Adm s) (i j : Nat) (hi : i < s.length)
    (hj : j < s.length) (hp : (ent s i).path = (ent s j).path) : i = j := by
  by_contra hne
  exact hs.2.2.2.2.2.1 i (List.mem_range.mpr hi) j (List.mem_range.mpr hj) hne hp

theorem adm_linkage (s : List Node) (hs : Adm s) (i : Nat) (hi : i < s.length)
    (h0 : i ≠ 0) : ∃ j, j < i ∧ (ent s j).is_dir = true ∧
      (ent s j).path = (ent s i).path.dropLast := by
  obtain ⟨j, hj, h⟩ := hs.2.2.2.2.2.2.1 i (List.mem_range.mpr hi) h0
  exact ⟨j, List.mem_range.mp hj, h⟩

theorem adm_uniqueRoot (s : List Node) (hs : Adm s) (i : Nat) (hi : i < s.length)
    (h0 : i ≠ 0) : ¬((ent s i).is_dir = true ∧ (ent s i).depth = 0) :=
  hs.2.2.2.1 i (List.mem_range.mpr hi) h0

theorem adm_dirNone (s : List Node) (hs : Adm s) (i : Nat) (hi : i < s.length)
    (hd : (ent s i).is_dir = true) : (ent s i).file_size = none :=
  hs.2.2.2.2.2.2.2.2 i (List.mem_range.mpr hi) hd

theorem le_foldr_max (l : List Nat) : ∀ x ∈ l, x ≤ l.foldr max 0 := by
  induction l with
  | nil => intro x hx; cases hx
  | cons y ys ih =>
    intro x hx
    rcases List.mem_cons.mp hx with rfl | hm
    · exact le_max_left _ _
    · exact le_trans (ih x hm) (le_max_right _ _)

theorem path_le_maxLen (s : List Node) (i : Nat) (hi : i < s.length) :
    (ent s i).path.length ≤ maxLen s := by
  apply le_foldr_max
  rw [List.mem_map]
  refine ⟨ent s i, ?_, rfl⟩
  unfold ent
  rw [List.getD_eq_getElem?_getD, List.getElem?_eq_getElem hi]
  exact List.getElem_mem hi

/-- Every path in an admissible stream extends the root's path. -/
theorem adm_root_pfx (s : List Node) (hs : Adm s) :
    ∀ i, i < s.length → isPfx (ent s 0).path (ent s i).path = true := by
  intro i
  induction i using Nat.strong_induction_on with
  | _ i ih =>
    intro hi
    by_cases h0 : i = 0
    · subst h0
      exact isPfx_refl _
    · obtain ⟨j, hji, hjd, hjp⟩ := adm_linkage s hs i hi h0
      have hj : isPfx (ent s 0).path (ent s j).path = true :=
        ih j hji (lt_trans hji hi)
      rw [hjp] at hj
      exact isPfx_trans _ _ _ hj (isPfx_dropLast_self _ (adm_pathNe s hs i hi))

theorem idOfP_of (s : List Node) (hs : Adm s) (j : Nat) (hj : j < s.length) :
    idOfP s (ent s j).path = j := by
  unfold idOfP
  cases hf : (List.range s.length).find? (fun i => decide ((ent s i).path = (ent s j).path)) with
  | none =>
    have := List.find?_eq_none.mp hf j (List.mem_range.mpr hj)
    simp at this
  | some k =>
    have hk := List.find?_some hf
    have hkm := List.mem_of_find?_eq_some hf
    rw [decide_eq_true_eq] at hk
    exact adm_pathInj s hs k j (List.mem_range.mp hkm) hj hk

theorem childIds_mem (s : List Node) (p : Path) (c : Nat) :
    c ∈ childIds s p ↔ c < s.length ∧ c ≠ 0 ∧ (ent s c).path.dropLast = p := by
  unfold childIds
  rw [List.mem_filter, List.mem_range]
  simp

theorem childIds_nodup (s : List Node) (p : Path) : (childIds s p).Nodup :=
  (List.nodup_range _).filter _

theorem childIds_path (s : List Node) (hs : Adm s) (p : Path) (c : Nat)
    (hc : c ∈ childIds s p) :
    (ent s c).path.length = p.length + 1 ∧ isPfx p (ent s c).path = true := by
  obtain ⟨hlt, h0, hdp⟩ := (childIds_mem s p c).mp hc
  have hne := adm_pathNe s hs c hlt
  have hlen : (ent s c).path.length = p.length + 1 := by
    rw [← hdp, List.length_dropLast]
    have : (ent s c).path.length ≠ 0 := fun h => hne (List.eq_nil_of_length_eq_zero h)
    omega
  refine ⟨hlen, ?_⟩
  rw [← hdp]
  exact isPfx_dropLast_self _ hne

/-- Every strict prefix of an entry's path reaching down to the root's
depth is itself the path of a directory entry. -/
theorem anc_dir (s : List Node) (hs : Adm s) :
    ∀ i, i < s.length → ∀ q, isPfx q (ent s i).path = true →
      (ent s 0).path.length ≤ q.length → q ≠ (ent s i).path →
      ∃ j, j < s.length ∧ (ent s j).is_dir = true ∧ (ent s j).path = q := by
  intro i
  induction i using Nat.strong_induction_on with
  | _ i ih =>
    intro hi q hq hlen hne
    by_cases h0 : i = 0
    · subst h0
      have := isPfx_length q _ hq
      exact absurd (isPfx_eq_of_length q _ hq (by omega)) hne
    · obtain ⟨j, hji, hjd, hjp⟩ := adm_linkage s hs i hi h0
      have hjlt : j < s.length := lt_trans hji hi
      have hqlt : q.length < (ent s i).path.length := by
        have := isPfx_length q _ hq
        rcases Nat.lt_or_ge q.length (ent s i).path.length with h | h
        · exact h
        · exact absurd (isPfx_eq_of_length q _ hq h) hne
      have hqj : isPfx q (ent s j).path = true := by
        rw [hjp]
        exact isPfx_dropLast_of_lt q _ hq hqlt
      by_cases hqe : q = (ent s j).path
      · exact ⟨j, hjlt, hjd, hqe.symm⟩
      · exact ih j hji hjlt q hqj hlen (fun h => hqe h)

/-- A non-directory entry has no other entry inside its subtree. -/
theorem nondir_no_desc (s : List Node) (hs : Adm s) (c : Nat) (hc : c < s.length)
    (hnd : (ent s c).is_dir = false) :
    ∀ i, i < s.length → isPfx (ent s c).path (ent s i).path = true → i = c := by
  intro i hi hpfx
  by_cases hip : (ent s c).path = (ent s i).path
  · exact adm_pathInj s hs i c hi hc hip.symm
  · obtain ⟨j, hj, hjdir, hjp⟩ := anc_dir s hs i hi (ent s c).path hpfx
      (isPfx_length _ _ (adm_root_pfx s hs c hc)) hip
    have : j = c := adm_pathInj s hs j c hj hc hjp
    subst this
    rw [hjdir] at hnd
    cases hnd


theorem subDirsF_mem (s : List Node) (p : Path) (i : Nat) :
    i ∈ subDirsF s p ↔
      i < s.length ∧ (ent s i).is_dir = true ∧ isPfx p (ent s i).path = true := by
  unfold subDirsF
  rw [Finset.mem_filter, Finset.mem_range]

theorem childSubs_mem (s : List Node) : ∀ (cs : List Nat) (i : Nat),
    i ∈ childSubs s cs ↔
      ∃ c ∈ cs, (ent s c).is_dir = true ∧ i ∈ subDirsF s (ent s c).path := by
  intro cs
  induction cs with
  | nil => intro i; simp [childSubs]
  | cons c cs ih =>
    intro i
    unfold childSubs
    rw [Finset.mem_union, ih i]
    constructor
    · rintro (h | ⟨c', hc', hd', hm'⟩)
      · by_cases hd : (ent s c).is_dir = true
        · rw [if_pos hd] at h
          exact ⟨c, List.mem_cons_self _ _, hd, h⟩
        · rw [if_neg hd] at h
          cases h
      · exact ⟨c', List.mem_cons_of_mem c hc', hd', hm'⟩
    · rintro ⟨c', hc', hd', hm'⟩
      rcases List.mem_cons.mp hc' with rfl | hm
      · exact Or.inl (by rw [if_pos hd']; exact hm')
      · exact Or.inr ⟨c', hm, hd', hm'⟩

theorem mem_subDirsF_self (s : List Node) (d : Nat) (hd : d < s.length)
    (hdir : (ent s d).is_dir = true) : d ∈ subDirsF s (ent s d).path :=
  (subDirsF_mem s _ d).mpr ⟨hd, hdir, isPfx_refl _⟩

theorem subDirsF_longer (s : List Node) (p : Path) (i : Nat) (h : i ∈ subDirsF s p) :
    p.length ≤ (ent s i).path.length := by
  obtain ⟨_, _, hpfx⟩ := (subDirsF_mem s p i).mp h
  exact isPfx_length _ _ hpfx

theorem not_mem_childSubs_self (s : List Node) (hs : Adm s) (d : Nat)
    (hdl : d < s.length) :
    d ∉ childSubs s (childIds s (ent s d).path) := by
  intro hmem
  obtain ⟨c, hc, hcd, hcm⟩ := (childSubs_mem s _ d).mp hmem
  have hlc := (childIds_path s hs _ c hc).1
  have := subDirsF_longer s _ d hcm
  rw [hlc] at this
  omega

/-- The subtree of a directory splits into the directory itself and the
subtrees of its directory children. -/
theorem subDirs_partition (s : List Node) (hs : Adm s) (d : Nat) (hdl : d < s.length)
    (hdir : (ent s d).is_dir = true) :
    subDirsF s (ent s d).path = insert d (childSubs s (childIds s (ent s d).path)) := by
  ext i
  rw [Finset.mem_insert, subDirsF_mem, childSubs_mem]
  constructor
  · rintro ⟨hil, hidir, hpfx⟩
    by_cases hie : (ent s i).path = (ent s d).path
    · exact Or.inl (adm_pathInj s hs i d hil hdl hie)
    · right
      have hlen : (ent s d).path.length < (ent s i).path.length := by
        have := isPfx_length _ _ hpfx
        rcases Nat.lt_or_ge (ent s d).path.length (ent s i).path.length with h | h
        · exact h
        · exact absurd (isPfx_eq_of_length _ _ hpfx h).symm hie
      -- the ancestor of i one level below d
      set q := (ent s i).path.take ((ent s d).path.length + 1) with hq
      have hqpfx : isPfx q (ent s i).path = true := take_isPfx _ _
      have hqlen : q.length = (ent s d).path.length + 1 := by
        rw [hq, List.length_take]
        omega
      have hdq : isPfx (ent s d).path q = true :=
        isPfx_take _ _ _ hpfx (by omega)
      have hdrop : q.dropLast = (ent s d).path := dropLast_of_pfx_succ _ q hdq hqlen
      by_cases hqi : q = (ent s i).path
      · -- i itself is a child of d
        refine ⟨i, ?_, hidir, mem_subDirsF_self s i hil hidir⟩
        rw [childIds_mem]
        refine ⟨hil, ?_, by rw [← hqi]; exact hdrop⟩
        intro h0
        subst h0
        have := isPfx_length _ _ (adm_root_pfx s hs d hdl)
        omega
      · obtain ⟨j, hjl, hjdir, hjp⟩ := anc_dir s hs i hil q hqpfx
          (by
            have := isPfx_length _ _ (adm_root_pfx s hs d hdl)
            omega) hqi
        refine ⟨j, ?_, hjdir, (subDirsF_mem s _ i).mpr ⟨hil, hidir, by rw [hjp]; exact hqpfx⟩⟩
        rw [childIds_mem]
        refine ⟨hjl, ?_, by rw [hjp]; exact hdrop⟩
        intro h0
        subst h0
        have h1 := isPfx_length _ _ (adm_root_pfx s hs d hdl)
        have h2 : (ent s 0).path.length = (ent s d).path.length + 1 := by
          rw [← hjp] at hqlen
          exact hqlen
        omega
  · rintro (rfl | ⟨c, hc, hcdir, hcm⟩)
    · exact ⟨hdl, hdir, isPfx_refl _⟩
    · obtain ⟨hil, hidir, hpfx⟩ := (subDirsF_mem s _ i).mp hcm
      refine ⟨hil, hidir, ?_⟩
      exact isPfx_trans _ _ _ (childIds_path s hs _ c hc).2 hpfx

theorem zeroAbsent_getD (n : Nat) : (zeroAbsent n).getD 0 = n := by
  unfold zeroAbsent
  split
  · simp
  · next h => simp only [Option.getD_none]; omega

/-- canonAgg ignores fuel beyond what the longest path requires. -/
theorem canonAgg_stable (s : List Node) (hne : ∀ i, i < s.length → (ent s i).path ≠ []) :
    ∀ (f f' : Nat) (p : Path), maxLen s ≤ p.length + f → maxLen s ≤ p.length + f' →
      canonAgg s f p = canonAgg s f' p := by
  intro f
  induction f with
  | zero =>
    intro f' p h1 h2
    have hempty : childIds s p = [] := by
      cases hc : childIds s p with
      | nil => rfl
      | cons c cs =>
        have hm : c ∈ childIds s p := by rw [hc]; exact List.mem_cons_self _ _
        have ⟨hcl, _, hdp⟩ := (childIds_mem s p c).mp hm
        have hlen : (ent s c).path.length = p.length + 1 := by
          rw [← hdp, List.length_dropLast]
          have : (ent s c).path.length ≠ 0 :=
            fun h => hne c hcl (List.eq_nil_of_length_eq_zero h)
          omega
        have := path_le_maxLen s c hcl
        omega
    cases f' with
    | zero => rfl
    | succ g =>
      show canonAgg s 0 p = canonAgg s (g + 1) p
      rw [canonAgg, canonAgg, hempty]
      simp
  | succ f ih =>
    intro f' p h1 h2
    cases f' with
    | zero =>
      have hempty : childIds s p = [] := by
        cases hc : childIds s p with
        | nil => rfl
        | cons c cs =>
          have hm : c ∈ childIds s p := by rw [hc]; exact List.mem_cons_self _ _
          have ⟨hcl, _, hdp⟩ := (childIds_mem s p c).mp hm
          have hlen : (ent s c).path.length = p.length + 1 := by
            rw [← hdp, List.length_dropLast]
            have : (ent s c).path.length ≠ 0 :=
              fun h => hne c hcl (List.eq_nil_of_length_eq_zero h)
            omega
          have := path_le_maxLen s c hcl
          omega
      rw [canonAgg, canonAgg, hempty]
      simp
    | succ g =>
      rw [canonAgg, canonAgg]
      congr 1
      apply List.map_congr_left
      intro c hc
      have ⟨hcl, _, hdp⟩ := (childIds_mem s p c).mp hc
      have hlen : (ent s c).path.length = p.length + 1 := by
        rw [← hdp, List.length_dropLast]
        have : (ent s c).path.length ≠ 0 :=
          fun h => hne c hcl (List.eq_nil_of_length_eq_zero h)
        omega
      by_cases hdir : (ent s c).is_dir = true
      · rw [if_pos hdir, if_pos hdir]
        exact ih g _ (by omega) (by omega)
      · rw [if_neg hdir, if_neg hdir]

/-- canonAggF unfolds to one canonical children sum. -/
theorem canonAggF_children (s : List Node)
    (hne : ∀ i, i < s.length → (ent s i).path ≠ []) (p : Path) :
    canonAggF s p = ((childIds s p).map (contrib s)).sum := by
  unfold canonAggF
  rw [canonAgg]
  congr 1
  apply List.map_congr_left
  intro c hc
  unfold contrib
  by_cases hdir : (ent s c).is_dir = true
  · rw [if_pos hdir, if_pos hdir]
    unfold canonAggF
    exact canonAgg_stable s hne _ _ _ (by omega) (by omega)
  · rw [if_neg hdir, if_neg hdir]


/-! ## Pending-children index lemmas -/

theorem bLookup_nil (p : Path) : bLookup [] p = none := rfl

theorem bLookup_cons (k : Path) (w : List Nat) (rest : Branches) (q : Path) :
    bLookup ((k, w) :: rest) q = if k = q then some w else bLookup rest q := rfl

theorem bLookup_none_iff (p : Path) : ∀ B : Branches,
    bLookup B p = none ↔ p ∉ B.map Prod.fst := by
  intro B
  induction B with
  | nil => simp [bLookup_nil]
  | cons kv rest ih =>
    obtain ⟨k, w⟩ := kv
    rw [bLookup_cons]
    by_cases hk : k = p
    · subst hk
      simp
    · rw [if_neg hk, ih]
      simp only [List.map_cons, List.mem_cons]
      constructor
      · intro h hm
        rcases hm with hm | hm
        · exact hk hm.symm
        · exact h hm
      · intro h hm
        exact h (Or.inr hm)

theorem bLookup_bInsert (B : Branches) (p : Path) (v : List Nat)
    (hB : bLookup B p = none) :
    ∀ q, bLookup (bInsert B p v) q = if q = p then some v else bLookup B q := by
  unfold bInsert
  induction B with
  | nil =>
    intro q
    rw [bLookup_nil, List.nil_append, bLookup_cons, bLookup_nil]
    by_cases hq : q = p
    · rw [if_pos hq, if_pos hq.symm]
    · rw [if_neg hq, if_neg (fun h : p = q => hq h.symm)]
  | cons kv rest ih =>
    obtain ⟨k, w⟩ := kv
    rw [bLookup_cons] at hB
    intro q
    rw [List.cons_append, bLookup_cons, bLookup_cons]
    by_cases hk : k = p
    · rw [if_pos hk] at hB
      cases hB
    · rw [if_neg hk] at hB
      by_cases hkq : k = q
      · rw [if_pos hkq, if_pos hkq, if_neg (fun h : q = p => hk (hkq.trans h))]
      · rw [if_neg hkq, if_neg hkq]
        exact ih hB q

theorem bInsert_keys (B : Branches) (p : Path) (v : List Nat) :
    (bInsert B p v).map Prod.fst = B.map Prod.fst ++ [p] := by
  unfold bInsert
  simp

theorem bPush_cons (k : Path) (w : List Nat) (rest : Branches) (p : Path) (id : Nat) :
    bPush ((k, w) :: rest) p id =
      if k = p then (k, w ++ [id]) :: rest else (k, w) :: bPush rest p id := rfl

theorem bPush_keys (B : Branches) (p : Path) (id : Nat) :
    (bPush B p id).map Prod.fst = B.map Prod.fst := by
  induction B with
  | nil => rfl
  | cons kv rest ih =>
    obtain ⟨k, w⟩ := kv
    rw [bPush_cons]
    by_cases hk : k = p
    · rw [if_pos hk]
      simp
    · rw [if_neg hk]
      simp only [List.map_cons, ih]

theorem bLookup_bPush (B : Branches) (p : Path) (id : Nat)
    (hnd : (B.map Prod.fst).Nodup) :
    ∀ q, bLookup (bPush B p id) q =
      if q = p then (bLookup B p).map (fun v => v ++ [id]) else bLookup B q := by
  induction B with
  | nil =>
    intro q
    show bLookup [] q = _
    rw [bLookup_nil, bLookup_nil]
    split <;> rfl
  | cons kv rest ih =>
    obtain ⟨k, w⟩ := kv
    have hnd' : (rest.map Prod.fst).Nodup := (List.nodup_cons.mp hnd).2
    have hknot : k ∉ rest.map Prod.fst := (List.nodup_cons.mp hnd).1
    intro q
    rw [bPush_cons, bLookup_cons]
    by_cases hk : k = p
    · subst hk
      rw [if_pos rfl, bLookup_cons]
      by_cases hq : k = q
      · rw [if_pos hq, if_pos hq.symm]
        simp
      · rw [if_neg hq, if_neg (fun h : q = k => hq h.symm), bLookup_cons, if_neg hq]
    · rw [if_neg hk, bLookup_cons]
      by_cases hq : k = q
      · rw [if_pos hq, if_neg (fun h : q = p => hk (hq.trans h)), bLookup_cons, if_pos hq]
      · rw [if_neg hq, ih hnd' q, if_neg hk, bLookup_cons, if_neg hq]

theorem bRemove_nil (p : Path) : bRemove [] p = [] := rfl

theorem bRemove_cons (k : Path) (w : List Nat) (rest : Branches) (p : Path) :
    bRemove ((k, w) :: rest) p =
      if k = p then rest else (k, w) :: bRemove rest p := rfl

theorem bRemove_keys_sublist (B : Branches) (p : Path) :
    ((bRemove B p).map Prod.fst).Sublist (B.map Prod.fst) := by
  induction B with
  | nil => exact List.Sublist.refl _
  | cons kv rest ih =>
    obtain ⟨k, w⟩ := kv
    rw [bRemove_cons]
    by_cases hk : k = p
    · rw [if_pos hk]
      exact List.sublist_cons_self _ _
    · rw [if_neg hk]
      simp only [List.map_cons]
      exact List.Sublist.cons₂ _ ih

theorem bLookup_bRemove (B : Branches) (p : Path) (hnd : (B.map Prod.fst).Nodup) :
    ∀ q, bLookup (bRemove B p) q = if q = p then none else bLookup B q := by
  induction B with
  | nil =>
    intro q
    show (none : Option (List Nat)) = if q = p then none else none
    split <;> rfl
  | cons kv rest ih =>
    obtain ⟨k, w⟩ := kv
    have hnd' : (rest.map Prod.fst).Nodup := (List.nodup_cons.mp hnd).2
    have hknot : k ∉ rest.map Prod.fst := (List.nodup_cons.mp hnd).1
    intro q
    rw [bRemove_cons]
    by_cases hk : k = p
    · subst hk
      rw [if_pos rfl]
      by_cases hq : q = k
      · subst hq
        rw [if_pos rfl]
        exact (bLookup_none_iff q rest).mpr hknot
      · rw [if_neg hq, bLookup_cons, if_neg (fun h : k = q => hq h.symm)]
    · rw [if_neg hk, bLookup_cons, bLookup_cons]
      by_cases hkq : k = q
      · rw [if_pos hkq, if_pos hkq, if_neg (fun h : q = p => hk (hkq.trans h))]
      · rw [if_neg hkq, if_neg hkq, ih hnd' q]

theorem bRemove_length (B : Branches) (p : Path) :
    ∀ v, bLookup B p = some v → (bRemove B p).length + 1 = B.length := by
  induction B with
  | nil =>
    intro v hv
    cases hv
  | cons kv rest ih =>
    obtain ⟨k, w⟩ := kv
    intro v hv
    rw [bLookup_cons] at hv
    rw [bRemove_cons]
    by_cases hk : k = p
    · rw [if_pos hk]
      rfl
    · rw [if_neg hk] at hv
      rw [if_neg hk, List.length_cons, List.length_cons, ih v hv]

/-! ## Counting unassembled directories -/

theorem dirCount_insert (s : List Node) (A : Finset Nat) (d : Nat) (hd : d < s.length)
    (hdir : (ent s d).is_dir = true) (hnA : d ∉ A) :
    dirCount s (insert d A) + 1 = dirCount s A := by
  classical
  unfold dirCount
  have hset : (Finset.range s.length).filter
      (fun i => (ent s i).is_dir = true ∧ i ∉ insert d A) =
      ((Finset.range s.length).filter (fun i => (ent s i).is_dir = true ∧ i ∉ A)).erase d := by
    ext i
    rw [Finset.mem_erase, Finset.mem_filter, Finset.mem_filter, Finset.mem_insert]
    constructor
    · rintro ⟨hr, hid, hni⟩
      exact ⟨fun h => hni (Or.inl h), hr, hid, fun h => hni (Or.inr h)⟩
    · rintro ⟨hne, hr, hid, hni⟩
      exact ⟨hr, hid, fun h => h.elim hne hni⟩
  rw [hset]
  have hmem : d ∈ (Finset.range s.length).filter
      (fun i => (ent s i).is_dir = true ∧ i ∉ A) := by
    rw [Finset.mem_filter, Finset.mem_range]
    exact ⟨hd, hdir, hnA⟩
  rw [Finset.card_erase_of_mem hmem]
  have : 0 < ((Finset.range s.length).filter
      (fun i => (ent s i).is_dir = true ∧ i ∉ A)).card := Finset.card_pos.mpr ⟨d, hmem⟩
  omega

theorem dirCount_mono (s : List Node) (A A' : Finset Nat) (h : A ⊆ A') :
    dirCount s A' ≤ dirCount s A := by
  classical
  unfold dirCount
  apply Finset.card_le_card
  intro i hi
  rw [Finset.mem_filter] at hi ⊢
  exact ⟨hi.1, hi.2.1, fun hm => hi.2.2 (h hm)⟩


/-! ## Stream prefix lemmas for the Collector induction -/

theorem ent_append_left (pre rest : List Node) (j : Nat) (hj : j < pre.length) :
    ent (pre ++ rest) j = ent pre j := by
  unfold ent
  rw [List.getD_eq_getElem?_getD, List.getD_eq_getElem?_getD,
    List.getElem?_append_left hj]

theorem ent_append_at (pre : List Node) (e : Node) (rest : List Node) :
    ent (pre ++ e :: rest) pre.length = e := by
  unfold ent
  rw [List.getD_eq_getElem?_getD, List.getElem?_append_right (le_refl _)]
  simp

theorem childIds_append_one (pre : List Node) (e : Node) (p : Path) :
    childIds (pre ++ [e]) p =
      childIds pre p ++
        (if pre.length ≠ 0 ∧ e.path.dropLast = p then [pre.length] else []) := by
  unfold childIds
  rw [List.length_append, List.length_cons, List.length_nil, List.range_succ,
    List.filter_append]
  congr 1
  · apply List.filter_congr
    intro i hi
    rw [ent_append_left pre [e] i (List.mem_range.mp hi)]
  · have he : ent (pre ++ [e]) pre.length = e := ent_append_at pre e []
    by_cases hc : pre.length ≠ 0 ∧ e.path.dropLast = p
    · rw [if_pos hc]
      simp [he, hc.1, hc.2]
    · rw [if_neg hc]
      rw [Decidable.not_and_iff_or_not] at hc
      rcases hc with hc | hc
      · simp only [ne_eq, Decidable.not_not] at hc
        simp [he, hc]
      · simp [he, hc]

theorem dirCount_append_one (pre : List Node) (e : Node) :
    dirCount (pre ++ [e]) ∅ =
      dirCount pre ∅ + (if e.is_dir = true then 1 else 0) := by
  classical
  unfold dirCount
  rw [List.length_append, List.length_cons, List.length_nil, Finset.range_succ,
    Finset.filter_insert]
  have he : ent (pre ++ [e]) pre.length = e := ent_append_at pre e []
  have hcong : (Finset.range pre.length).filter
      (fun i => (ent (pre ++ [e]) i).is_dir = true ∧ i ∉ (∅ : Finset Nat)) =
      (Finset.range pre.length).filter
      (fun i => (ent pre i).is_dir = true ∧ i ∉ (∅ : Finset Nat)) := by
    apply Finset.filter_congr
    intro i hi
    rw [ent_append_left pre [e] i (Finset.mem_range.mp hi)]
  by_cases hd : e.is_dir = true
  · rw [if_pos (by simp [he, hd]), if_pos hd, hcong,
      Finset.card_insert_of_not_mem (by simp)]
  · rw [if_neg (by simp [he, hd]), if_neg hd, hcong]
    omega

theorem slotMap_getD (l : List Node) (i : Nat) (hi : i < l.length) :
    Arena.get (l.map (fun e => (⟨e, none, [], false⟩ : Slot))) i =
      ⟨ent l i, none, [], false⟩ := by
  unfold Arena.get ent
  rw [List.getD_eq_getElem?_getD, List.getD_eq_getElem?_getD, List.getElem?_map,
    List.getElem?_eq_getElem hi]
  rfl


/-- One Collector step on an admissible non-root event whose parent key is
present: the node is appended to the arena and pushed onto the parent's
pending list (after the directory-index stage possibly created the event's
own empty entry). -/
theorem collect_step_insert (st : CState) (e : Node) (v : List Nat)
    (hnroot : ¬(e.is_dir = true ∧ e.depth = 0))
    (hpath : e.path ≠ [])
    (hino : st.inodes = [])
    (hnl : ∀ ino, e.inode = some ino → ino.nlink ≤ 1)
    (hnew : e.is_dir = true → bLookup st.branches e.path = none)
    (hparent : bLookup (if e.is_dir = true then bInsert st.branches e.path []
        else st.branches) e.path.dropLast = some v) :
    collect_step st e = Except.ok
      ⟨st.tree ++ [⟨e, none, [], false⟩],
       bPush (if e.is_dir = true then bInsert st.branches e.path [] else st.branches)
         e.path.dropLast st.tree.length,
       st.inodes, st.root_id⟩ := by
  have hb1 : stepDirIndex st e =
      { st with branches := if e.is_dir = true then bInsert st.branches e.path []
                            else st.branches } := by
    unfold stepDirIndex
    by_cases hd : e.is_dir = true
    · rw [if_pos (by rw [hnew hd]; exact ⟨hd, rfl⟩), if_pos hd]
    · rw [if_neg (fun h => hd h.1), if_neg hd]
  have hdisc : stepDiscard (stepDirIndex st e) e = false := by
    unfold stepDiscard
    rw [hb1]
    cases e.inode with
    | none => rfl
    | some ino =>
      show (decide (ino.nlink > 1) && decide (ino ∈ st.inodes)) = false
      rw [hino]
      simp
  have hinod : stepInodes (stepDirIndex st e) e = st.inodes := by
    unfold stepInodes
    rw [hb1]
    cases hei : e.inode with
    | none => rfl
    | some ino =>
      show (if ino.nlink > 1 ∧ ino ∉ st.inodes then ino :: st.inodes else st.inodes) = _
      have := hnl ino hei
      rw [if_neg (fun h => by omega)]
  show collect_step st e = _
  unfold collect_step
  rw [if_neg hnroot, hdisc]
  simp only [Bool.false_eq_true, if_false]
  rw [Node.parent_path_some e hpath]
  show Except.ok (stepInsert (stepDirIndex st e) e e.path.dropLast) = _
  unfold stepInsert
  rw [hb1] at hinod ⊢
  simp only
  rw [hparent]
  have htree : ({ st with branches := if e.is_dir = true then bInsert st.branches e.path []
      else st.branches } : CState).tree = st.tree := rfl
  rw [hinod]
  rfl


/-- The Collector loop on the tail of an admissible stream, from a state
reflecting a nonempty processed prefix. -/
theorem collect_char_aux (s : List Node) (hs : Adm s) :
    ∀ (rest pre : List Node) (st : CState),
    s = pre ++ rest →
    pre ≠ [] →
    st.tree = pre.map (fun e => (⟨e, none, [], false⟩ : Slot)) →
    st.root_id = some 0 →
    st.inodes = [] →
    (st.branches.map Prod.fst).Nodup →
    (∀ j, j < pre.length → (ent pre j).is_dir = true →
      bLookup st.branches (ent pre j).path = some (childIds pre (ent pre j).path)) →
    (∀ p, p ∈ st.branches.map Prod.fst →
      ∃ j, j < pre.length ∧ (ent pre j).is_dir = true ∧ (ent pre j).path = p) →
    st.branches.length = dirCount pre ∅ →
    ∃ bs : Branches,
      collect_loop st rest =
        Except.ok ⟨s.map (fun e => (⟨e, none, [], false⟩ : Slot)), bs, [], some 0⟩ ∧
      (bs.map Prod.fst).Nodup ∧
      (∀ j, j < s.length → (ent s j).is_dir = true →
        bLookup bs (ent s j).path = some (childIds s (ent s j).path)) ∧
      (∀ p, p ∈ bs.map Prod.fst →
        ∃ j, j < s.length ∧ (ent s j).is_dir = true ∧ (ent s j).path = p) ∧
      bs.length = dirCount s ∅ := by
  intro rest
  induction rest with
  | nil =>
    intro pre st hseq _ htree hroot hino hnd hpres hkeys hlen
    rw [List.append_nil] at hseq
    subst hseq
    refine ⟨st.branches, ?_, hnd, hpres, hkeys, hlen⟩
    show Except.ok st = _
    cases st with
    | mk t b ino r =>
      simp only at htree hroot hino
      rw [htree, hroot, hino]
  | cons e rest ih =>
    intro pre st hseq hpre htree hroot hino hnd hpres hkeys hlen
    have hk : pre.length < s.length := by
      rw [hseq, List.length_append, List.length_cons]
      omega
    have hk0 : pre.length ≠ 0 := fun h => hpre (List.eq_nil_of_length_eq_zero h)
    have hke : ent s pre.length = e := by rw [hseq]; exact ent_append_at pre e rest
    have hpre_ent : ∀ j, j < pre.length → ent s j = ent pre j := by
      intro j hj
      rw [hseq]
      exact ent_append_left pre (e :: rest) j hj
    have hnroot : ¬(e.is_dir = true ∧ e.depth = 0) := by
      have := adm_uniqueRoot s hs pre.length hk hk0
      rw [hke] at this
      exact this
    have hepath : e.path ≠ [] := by
      have := adm_pathNe s hs pre.length hk
      rw [hke] at this
      exact this
    have hnl : ∀ ino, e.inode = some ino → ino.nlink ≤ 1 := by
      intro ino hino'
      have := hs.2.2.2.2.2.2.2.1 pre.length (List.mem_range.mpr hk)
      rw [hke, hino'] at this
      exact this
    -- e's path is not an existing key
    have hnewkey : e.path ∉ st.branches.map Prod.fst := by
      intro hmem
      obtain ⟨j, hj, _, hjpath⟩ := hkeys e.path hmem
      have heq : (ent s j).path = (ent s pre.length).path := by
        rw [hpre_ent j hj, hjpath, hke]
      have := adm_pathInj s hs j pre.length (lt_trans hj hk) hk heq
      omega
    -- the parent's key is present
    obtain ⟨jp, hjp_lt, hjp_dir, hjp_path⟩ := adm_linkage s hs pre.length hk hk0
    rw [hke] at hjp_path
    have hjp_dir' : (ent pre jp).is_dir = true := by
      rw [← hpre_ent jp hjp_lt]
      exact hjp_dir
    have hjp_path' : (ent pre jp).path = e.path.dropLast := by
      rw [← hpre_ent jp hjp_lt]
      exact hjp_path
    have hparent0 : bLookup st.branches e.path.dropLast =
        some (childIds pre e.path.dropLast) := by
      have := hpres jp hjp_lt hjp_dir'
      rw [hjp_path'] at this
      exact this
    have hdne : e.path ≠ e.path.dropLast := by
      intro h
      have : e.path.length = e.path.dropLast.length := by rw [← h]
      rw [List.length_dropLast] at this
      have : e.path.length ≠ 0 := fun h0 => hepath (List.eq_nil_of_length_eq_zero h0)
      omega
    set B1 := if e.is_dir = true then bInsert st.branches e.path [] else st.branches with hB1
    have hB1lookup : ∀ q, bLookup B1 q =
        if e.is_dir = true ∧ q = e.path then some [] else bLookup st.branches q := by
      intro q
      rw [hB1]
      by_cases hd : e.is_dir = true
      · rw [if_pos hd, bLookup_bInsert st.branches e.path []
          ((bLookup_none_iff e.path st.branches).mpr hnewkey) q]
        by_cases hq : q = e.path
        · rw [if_pos hq, if_pos ⟨hd, hq⟩]
        · rw [if_neg hq, if_neg (fun h => hq h.2)]
      · rw [if_neg hd, if_neg (fun h => hd h.1)]
    have hparent1 : bLookup B1 e.path.dropLast = some (childIds pre e.path.dropLast) := by
      rw [hB1lookup, if_neg (fun h => hdne h.2.symm), hparent0]
    have hstep := collect_step_insert st e (childIds pre e.path.dropLast) hnroot hepath
      hino hnl (fun hd => (bLookup_none_iff e.path st.branches).mpr hnewkey) (hB1 ▸ hparent1)
    -- the new state after the step
    set pre' := pre ++ [e] with hpre'
    have hlen_pre : st.tree.length = pre.length := by rw [htree, List.length_map]
    set B2 := bPush B1 e.path.dropLast pre.length with hB2
    have hseq' : s = pre' ++ rest := by rw [hseq, hpre', List.append_assoc]; rfl
    have hpre'_ne : pre' ≠ [] := by simp [hpre']
    have hpre'_len : pre'.length = pre.length + 1 := by simp [hpre']
    have hpre'_ent : ∀ j, j < pre.length → ent pre' j = ent pre j := by
      intro j hj
      rw [hpre']
      exact ent_append_left pre [e] j hj
    have hpre'_at : ent pre' pre.length = e := by
      rw [hpre']
      exact ent_append_at pre e []
    have hs_pre' : ∀ j, j < pre'.length → ent s j = ent pre' j := by
      intro j hj
      rw [hseq']
      exact ent_append_left pre' rest j hj
    -- keys of the new index
    have hB1keys : B1.map Prod.fst =
        if e.is_dir = true then st.branches.map Prod.fst ++ [e.path]
        else st.branches.map Prod.fst := by
      rw [hB1]
      by_cases hd : e.is_dir = true
      · rw [if_pos hd, if_pos hd, bInsert_keys]
      · rw [if_neg hd, if_neg hd]
    have hB2keys : B2.map Prod.fst = B1.map Prod.fst := bPush_keys B1 _ _
    have hnd2 : (B2.map Prod.fst).Nodup := by
      rw [hB2keys, hB1keys]
      by_cases hd : e.is_dir = true
      · rw [if_pos hd]
        simp only [List.nodup_append]
        exact ⟨hnd, List.nodup_singleton _, by
          intro a ha hb
          rw [List.mem_singleton] at hb
          subst hb
          exact hnewkey ha⟩
      · rw [if_neg hd]
        exact hnd
    have hB1nodup : (B1.map Prod.fst).Nodup := by rw [← hB2keys]; exact hnd2
    -- childIds of the extended prefix
    have hchild : ∀ p, childIds pre' p =
        childIds pre p ++ (if e.path.dropLast = p then [pre.length] else []) := by
      intro p
      rw [hpre', childIds_append_one]
      by_cases hc : e.path.dropLast = p
      · rw [if_pos hc, if_pos ⟨hk0, hc⟩]
      · rw [if_neg hc, if_neg (fun h => hc h.2)]
    -- no prefix entry is a child of e's own path
    have hnochild : childIds pre e.path = [] := by
      cases hc : childIds pre e.path with
      | nil => rfl
      | cons c cs =>
        have hm : c ∈ childIds pre e.path := by rw [hc]; exact List.mem_cons_self _ _
        obtain ⟨hcl, hc0, hcdp⟩ := (childIds_mem pre e.path c).mp hm
        obtain ⟨j2, hj2, hj2d, hj2p⟩ := adm_linkage s hs c (lt_trans hcl hk) hc0
        rw [hpre_ent c hcl] at hj2p
        rw [hcdp] at hj2p
        have heq : (ent s j2).path = (ent s pre.length).path := by rw [hj2p, hke]
        have := adm_pathInj s hs j2 pre.length
          (lt_trans (lt_of_lt_of_le hj2 (le_of_lt hcl)) hk) hk heq
        omega
    -- the new lookup table
    have hB2lookup : ∀ q, bLookup B2 q =
        if q = e.path.dropLast then some (childIds pre e.path.dropLast ++ [pre.length])
        else bLookup B1 q := by
      intro q
      rw [hB2, bLookup_bPush B1 _ _ hB1nodup q]
      by_cases hq : q = e.path.dropLast
      · rw [if_pos hq, if_pos hq, hparent1]
        rfl
      · rw [if_neg hq, if_neg hq]
    -- present-part for the extended prefix
    have hpres' : ∀ j, j < pre'.length → (ent pre' j).is_dir = true →
        bLookup B2 (ent pre' j).path = some (childIds pre' (ent pre' j).path) := by
      intro j hj hjd
      by_cases hjk : j = pre.length
      · -- the new entry's own key: empty list, nothing points at it yet
        subst hjk
        rw [hpre'_at] at hjd ⊢
        have hne2 : e.path ≠ e.path.dropLast := hdne
        rw [hB2lookup, if_neg hne2, hB1lookup, if_pos ⟨hjd, rfl⟩, hchild, hnochild]
        rw [if_neg (fun h => hne2 h.symm)]
        rfl
      · have hjlt : j < pre.length := by
          rw [hpre'_len] at hj
          omega
        rw [hpre'_ent j hjlt] at hjd ⊢
        rw [hchild]
        by_cases hq : (ent pre j).path = e.path.dropLast
        · rw [hB2lookup, if_pos hq, hq, if_pos rfl]
        · rw [hB2lookup, if_neg hq, hB1lookup, if_neg ?_, hpres j hjlt hjd,
            if_neg (fun h => hq h.symm)]
          · simp
          · intro hcon
            -- (ent pre j).path = e.path would duplicate a path
            have heq : (ent s j).path = (ent s pre.length).path := by
              rw [hpre_ent j hjlt, hcon.2, hke]
            have := adm_pathInj s hs j pre.length (lt_trans hjlt hk) hk heq
            omega
    -- keys-part for the extended prefix
    have hkeys' : ∀ p, p ∈ B2.map Prod.fst →
        ∃ j, j < pre'.length ∧ (ent pre' j).is_dir = true ∧ (ent pre' j).path = p := by
      intro p hp
      rw [hB2keys, hB1keys] at hp
      by_cases hd : e.is_dir = true
      · rw [if_pos hd] at hp
        rcases List.mem_append.mp hp with hp | hp
        · obtain ⟨j, hj, hjd, hjp⟩ := hkeys p hp
          exact ⟨j, by omega, by rw [hpre'_ent j hj]; exact hjd,
            by rw [hpre'_ent j hj]; exact hjp⟩
        · rw [List.mem_singleton] at hp
          subst hp
          exact ⟨pre.length, by omega, by rw [hpre'_at]; exact hd,
            by rw [hpre'_at]⟩
      · rw [if_neg hd] at hp
        obtain ⟨j, hj, hjd, hjp⟩ := hkeys p hp
        exact ⟨j, by omega, by rw [hpre'_ent j hj]; exact hjd,
          by rw [hpre'_ent j hj]; exact hjp⟩
    -- length bookkeeping
    have hlen' : B2.length = dirCount pre' ∅ := by
      have hlen2 : B2.length = B1.length := by
        rw [hB2keys] at hB2keys
        have h1 : B2.length = (B2.map Prod.fst).length := by rw [List.length_map]
        have h2 : B1.length = (B1.map Prod.fst).length := by rw [List.length_map]
        rw [h1, h2, bPush_keys]
      have hlen1 : B1.length =
          st.branches.length + (if e.is_dir = true then 1 else 0) := by
        rw [hB1]
        by_cases hd : e.is_dir = true
        · rw [if_pos hd, if_pos hd]
          unfold bInsert
          simp
        · rw [if_neg hd, if_neg hd]
          omega
      rw [hpre', dirCount_append_one, hlen2, hlen1, hlen]
    -- run the loop on the rest
    have := ih pre' ⟨st.tree ++ [⟨e, none, [], false⟩], B2, st.inodes, st.root_id⟩
      hseq' hpre'_ne
      (by
        show st.tree ++ [⟨e, none, [], false⟩] = _
        rw [htree, hpre', List.map_append]
        rfl)
      (by show st.root_id = some 0; rw [hroot])
      (by show st.inodes = []; rw [hino])
      hnd2 hpres' hkeys' hlen'
    obtain ⟨bs, hloop, hc1, hc2, hc3, hc4⟩ := this
    refine ⟨bs, ?_, hc1, hc2, hc3, hc4⟩
    show collect_loop st (e :: rest) = _
    unfold collect_loop
    rw [hstep, hlen_pre]
    exact hloop


/-- The Collector on a whole admissible stream: every event lands in arena
order, nothing is dropped or duplicated, the root is slot 0, and the
pending-children index ends up holding exactly the directory paths with
their canonical child lists. -/
theorem collect_char (s : List Node) (hs : Adm s) :
    ∃ bs : Branches,
      collect_loop initState s =
        Except.ok ⟨s.map (fun e => (⟨e, none, [], false⟩ : Slot)), bs, [], some 0⟩ ∧
      (bs.map Prod.fst).Nodup ∧
      (∀ j, j < s.length → (ent s j).is_dir = true →
        bLookup bs (ent s j).path = some (childIds s (ent s j).path)) ∧
      (∀ p, p ∈ bs.map Prod.fst →
        ∃ j, j < s.length ∧ (ent s j).is_dir = true ∧ (ent s j).path = p) ∧
      bs.length = dirCount s ∅ := by
  cases s with
  | nil => exact absurd rfl hs.1
  | cons e0 rest =>
    have hd : e0.is_dir = true := hs.2.1
    have hdep : e0.depth = 0 := hs.2.2.1
    -- the first step establishes the root
    have hstep0 : collect_step initState e0 =
        Except.ok ⟨[⟨e0, none, [], false⟩], [(e0.path, [])], [], some 0⟩ := by
      unfold collect_step stepDirIndex
      rw [if_pos ⟨hd, hdep⟩, if_pos ⟨hd, rfl⟩]
      rfl
    have hchild1 : ∀ q, childIds [e0] q = [] := by
      intro q
      unfold childIds
      simp
    have hdir1 : dirCount [e0] ∅ = 1 := by
      unfold dirCount
      rw [List.length_singleton, Finset.range_one, Finset.filter_singleton,
        if_pos ⟨hd, Finset.not_mem_empty 0⟩, Finset.card_singleton]
    have := collect_char_aux (e0 :: rest) hs rest [e0]
      ⟨[⟨e0, none, [], false⟩], [(e0.path, [])], [], some 0⟩
      rfl (by simp) rfl rfl rfl (List.nodup_singleton _)
      (by
        intro j hj hjd
        rw [List.length_singleton] at hj
        obtain rfl : j = 0 := by omega
        show bLookup [(e0.path, [])] e0.path = _
        rw [hchild1]
        simp [bLookup])
      (by
        intro p hp
        rw [List.map_singleton, List.mem_singleton] at hp
        exact ⟨0, by simp, hd, hp.symm⟩)
      (by rw [hdir1]; rfl)
    obtain ⟨bs, hloop, hc1, hc2, hc3, hc4⟩ := this
    refine ⟨bs, ?_, hc1, hc2, hc3, hc4⟩
    show collect_loop initState (e0 :: rest) = _
    unfold collect_loop
    rw [hstep0]
    exact hloop


theorem Arena.append_length (a : Arena) (p c : Nat) : (a.append p c).length = a.length := by
  unfold Arena.append
  rw [Arena.length_setSlot, Arena.length_setSlot]

theorem Arena.append_get_parent (a : Arena) (p c : Nat) (hpc : p ≠ c) (hp : p < a.length) :
    (a.append p c).get p = { a.get p with kids := (a.get p).kids ++ [c] } := by
  unfold Arena.append
  rw [Arena.get_setSlot_self _ _ _ (by rw [Arena.length_setSlot]; exact hp),
    Arena.get_setSlot_ne _ _ _ _ (fun h => hpc h.symm)]

theorem Arena.append_get_child (a : Arena) (p c : Nat) (hpc : p ≠ c) (hc : c < a.length) :
    (a.append p c).get c = { a.get c with parent := some p } := by
  unfold Arena.append
  rw [Arena.get_setSlot_ne _ _ _ _ hpc, Arena.get_setSlot_self _ _ _ hc]

theorem Arena.append_get_other (a : Arena) (p c j : Nat) (hjp : j ≠ p) (hjc : j ≠ c) :
    (a.append p c).get j = a.get j := by
  unfold Arena.append
  rw [Arena.get_setSlot_ne _ _ _ _ (fun h => hjp h.symm),
    Arena.get_setSlot_ne _ _ _ _ (fun h => hjc h.symm)]

/-- The final attachment loop of assemble_tree: the parent slot gains the
whole list as children in order, each listed child gets its back-reference,
and nothing else moves. -/
theorem append_fold (cs : List Nat) : ∀ (a : Arena) (p : Nat), p < a.length →
    cs.Nodup → (∀ c ∈ cs, c < a.length ∧ c ≠ p) →
    (cs.foldl (fun t c => t.append p c) a).length = a.length ∧
    (cs.foldl (fun t c => t.append p c) a).get p =
      { a.get p with kids := (a.get p).kids ++ cs } ∧
    (∀ c ∈ cs, (cs.foldl (fun t c => t.append p c) a).get c =
      { a.get c with parent := some p }) ∧
    (∀ j, j ≠ p → j ∉ cs → (cs.foldl (fun t c => t.append p c) a).get j = a.get j) := by
  induction cs with
  | nil =>
    intro a p hp _ _
    refine ⟨rfl, ?_, ?_, ?_⟩
    · show a.get p = _
      cases h : a.get p
      rw [List.append_nil]
    · intro c hc
      cases hc
    · intro j _ _
      rfl
  | cons c cs ih =>
    intro a p hp hnd hin
    have hc := hin c (List.mem_cons_self _ _)
    have hnd' := (List.nodup_cons.mp hnd).2
    have hcnot := (List.nodup_cons.mp hnd).1
    have hin' : ∀ x ∈ cs, x < (a.append p c).length ∧ x ≠ p := by
      intro x hx
      rw [Arena.append_length]
      exact hin x (List.mem_cons_of_mem _ hx)
    have hp' : p < (a.append p c).length := by
      rw [Arena.append_length]; exact hp
    obtain ⟨hl, hpar, hch, hoth⟩ := ih (a.append p c) p hp' hnd' hin'
    have hfold : ((c :: cs).foldl (fun t c => t.append p c) a) =
        cs.foldl (fun t c => t.append p c) (a.append p c) := rfl
    rw [hfold, hl, Arena.append_length]
    refine ⟨rfl, ?_, ?_, ?_⟩
    · rw [hpar, Arena.append_get_parent a p c (fun h => hc.2 h.symm) hp]
      simp
    · intro x hx
      rcases List.mem_cons.mp hx with rfl | hx'
      · rw [hoth x (fun h => hc.2 h) hcnot,
          Arena.append_get_child a p x (fun h => hc.2 h.symm) hc.1]
      · rw [hch x hx', Arena.append_get_other a p c x ((hin x hx).2) ?_]
        intro h
        subst h
        exact hcnot hx'
    · intro j hjp hjcs
      rw [hoth j hjp (fun h => hjcs (List.mem_cons_of_mem _ h)),
        Arena.append_get_other a p c j hjp (fun h => hjcs (h ▸ List.mem_cons_self _ _))]

theorem is_dir_congr (n m : Node) (h : n.kind = m.kind) : n.is_dir = m.is_dir := by
  unfold Node.is_dir
  rw [h]


theorem goChildren_nil (f : Arena → Nat → Branches → Option (Arena × Branches))
    (tree : Arena) (branches : Branches) (acc : Nat) :
    goChildren f tree branches acc [] = some (tree, branches, acc) := rfl

theorem goChildren_cons (f : Arena → Nat → Branches → Option (Arena × Branches))
    (tree : Arena) (branches : Branches) (acc : Nat) (c : Nat) (cs : List Nat) :
    goChildren f tree branches acc (c :: cs) =
      if (tree.get c).node.is_dir then
        match f tree c branches with
        | none => none
        | some (tree', branches') =>
          goChildren f tree' branches' (acc + childBytes tree' c) cs
      else goChildren f tree branches (acc + childBytes tree c) cs := rfl

theorem sortChildren_perm (ctx : Ctx) (tree : Arena) (children : List Nat) :
    (sortChildren ctx tree children).Perm children := by
  unfold sortChildren
  cases ctx.comparator with
  | none => exact List.Perm.refl _
  | some f => exact sortByCmp_perm _ _

theorem Node.set_fs_self (n : Node) : { n with file_size := n.file_size } = n := by
  cases n
  rfl

theorem Slot.set_node_self (sl : Slot) : { sl with node := sl.node } = sl := by
  cases sl
  rfl

/-- A child of a path cannot carry the path itself. -/
theorem childIds_ne_self (s : List Node) (hs : Adm s) (i c : Nat) (hil : i < s.length)
    (hc : c ∈ childIds s (ent s i).path) : c ≠ i := by
  intro h
  subst h
  have := (childIds_path s hs _ c hc).1
  omega


/-- The child loop of assemble_tree, under the induction hypothesis for the
recursion at the next fuel level: it assembles every directory child's
subtree, accumulates each child's canonical contribution, and extends both
the assembled set and the consumed-key set by the union of the child
subtrees. -/
theorem goChildren_char (s : List Node) (hs : Adm s) (ctx : Ctx) (f : Nat)
    (ih : ∀ (A AB : Finset Nat) (T : Arena) (B : Branches) (c : Nat),
      TInv s A T → BInv s AB B → A ⊆ AB → c < s.length → (ent s c).is_dir = true →
      (∀ j ∈ subDirsF s (ent s c).path, j ∉ AB) → dirCount s AB < f →
      ∃ T' B', assemble_tree ctx f T c B = some (T', B') ∧
        TInv s (A ∪ subDirsF s (ent s c).path) T' ∧
        BInv s (AB ∪ subDirsF s (ent s c).path) B') (p : Path) :
    ∀ (cs : List Nat), cs.Nodup → (∀ c ∈ cs, c ∈ childIds s p) →
    ∀ (A AB : Finset Nat) (T : Arena) (B : Branches) (acc : Nat),
      TInv s A T → BInv s AB B → A ⊆ AB →
      (∀ c ∈ cs, (ent s c).is_dir = true → ∀ j ∈ subDirsF s (ent s c).path, j ∉ AB) →
      dirCount s AB < f →
      ∃ T' B', goChildren (fun t c b => assemble_tree ctx f t c b) T B acc cs =
          some (T', B', acc + (cs.map (contrib s)).sum) ∧
        TInv s (A ∪ childSubs s cs) T' ∧
        BInv s (AB ∪ childSubs s cs) B' := by
  intro cs
  induction cs with
  | nil =>
    intro _ _ A AB T B acc hT hB _ _ _
    refine ⟨T, B, ?_, ?_, ?_⟩
    · rw [goChildren_nil, List.map_nil, List.sum_nil, Nat.add_zero]
    · rw [show childSubs s [] = ∅ from rfl, Finset.union_empty]
      exact hT
    · rw [show childSubs s [] = ∅ from rfl, Finset.union_empty]
      exact hB
  | cons c cs ihc =>
    intro hnd hmem A AB T B acc hT hB hsub hdisj hfuel
    have hcch : c ∈ childIds s p := hmem c (List.mem_cons_self _ _)
    obtain ⟨hclt, hc0, hcdp⟩ := (childIds_mem s p c).mp hcch
    have hisdir : (T.get c).node.is_dir = (ent s c).is_dir :=
      is_dir_congr _ _ ((hT.2 c hclt).2.2.1)
    have hnd' := (List.nodup_cons.mp hnd).2
    have hcnot := (List.nodup_cons.mp hnd).1
    have hmem' : ∀ x ∈ cs, x ∈ childIds s p := fun x hx => hmem x (List.mem_cons_of_mem _ hx)
    by_cases hcd : (ent s c).is_dir = true
    · -- directory child: assemble its subtree, then continue
      obtain ⟨Tc, Bc, hcall, hTc, hBc⟩ := ih A AB T B c hT hB hsub hclt hcd
        (hdisj c (List.mem_cons_self _ _) hcd) hfuel
      have hfsc : (Tc.get c).node.file_size = zeroAbsent (canonAggF s (ent s c).path) :=
        ((hTc.2 c hclt).2.2.2.2.2.2.1
          (Finset.mem_union_right _ (mem_subDirsF_self s c hclt hcd))).1
    -- the child's stored size reads back as its canonical aggregate
      have hbytes : childBytes Tc c = contrib s c := by
        unfold childBytes contrib
        rw [hfsc, if_pos hcd]
        unfold zeroAbsent
        by_cases h0 : canonAggF s (ent s c).path > 0
        · rw [if_pos h0]
        · rw [if_neg h0]
          show (0 : Nat) = canonAggF s (ent s c).path
          omega
      have hdisj2 : ∀ c' ∈ cs, (ent s c').is_dir = true →
          ∀ j ∈ subDirsF s (ent s c').path, j ∉ AB ∪ subDirsF s (ent s c).path := by
        intro c' hc' hcd' j hj
        rw [Finset.mem_union]
        rintro (h | h)
        · exact hdisj c' (List.mem_cons_of_mem _ hc') hcd' j hj h
        · obtain ⟨hjl, hjd, hjpfx⟩ := (subDirsF_mem s _ j).mp hj
          obtain ⟨hjl2, hjd2, hjpfx2⟩ := (subDirsF_mem s _ j).mp h
          have hc'ch : c' ∈ childIds s p := hmem' c' hc'
          obtain ⟨hc'lt, _, _⟩ := (childIds_mem s p c').mp hc'ch
          have hlen1 := (childIds_path s hs p c hcch).1
          have hlen2 := (childIds_path s hs p c' hc'ch).1
          have hpp : (ent s c').path = (ent s c).path :=
            isPfx_same_length _ _ _ hjpfx hjpfx2 (by rw [hlen1, hlen2])
          have : c' = c := adm_pathInj s hs c' c hc'lt hclt hpp
          exact hcnot (this ▸ hc')
      have hfuel2 : dirCount s (AB ∪ subDirsF s (ent s c).path) < f :=
        lt_of_le_of_lt (dirCount_mono s _ _ (Finset.subset_union_left)) hfuel
      obtain ⟨T2, B2, hrest, hT2, hB2⟩ := ihc hnd' hmem'
        (A ∪ subDirsF s (ent s c).path) (AB ∪ subDirsF s (ent s c).path)
        Tc Bc (acc + contrib s c) hTc hBc
        (Finset.union_subset_union hsub (Finset.Subset.refl _)) hdisj2 hfuel2
      have hset : ∀ X : Finset Nat, X ∪ childSubs s (c :: cs) =
          (X ∪ subDirsF s (ent s c).path) ∪ childSubs s cs := by
        intro X
        rw [show childSubs s (c :: cs) =
          (if (ent s c).is_dir = true then subDirsF s (ent s c).path else ∅) ∪ childSubs s cs
          from rfl, if_pos hcd, Finset.union_assoc]
      refine ⟨T2, B2, ?_, ?_, ?_⟩
      · rw [goChildren_cons, hisdir, if_pos hcd]
        simp only [hcall]
        rw [hbytes, hrest, List.map_cons, List.sum_cons, ← Nat.add_assoc]
      · rw [hset]
        exact hT2
      · rw [hset]
        exact hB2
    · -- non-directory child: only the accumulator moves
      have hcnA : c ∉ A := fun h => hcd ((hT.2 c hclt).2.2.2.2.2.1 h)
      have hfsc : (T.get c).node.file_size = (ent s c).file_size :=
        ((hT.2 c hclt).2.2.2.2.2.2.2.1 hcnA).2
      have hbytes : childBytes T c = contrib s c := by
        unfold childBytes contrib
        rw [hfsc, if_neg hcd]
        cases (ent s c).file_size with
        | none => rfl
        | some b => rfl
      obtain ⟨T2, B2, hrest, hT2, hB2⟩ := ihc hnd' hmem' A AB T B (acc + contrib s c)
        hT hB hsub (fun c' hc' => hdisj c' (List.mem_cons_of_mem _ hc')) hfuel
      have hset : ∀ X : Finset Nat, X ∪ childSubs s (c :: cs) = X ∪ childSubs s cs := by
        intro X
        rw [show childSubs s (c :: cs) =
          (if (ent s c).is_dir = true then subDirsF s (ent s c).path else ∅) ∪ childSubs s cs
          from rfl, if_neg hcd, Finset.empty_union]
      refine ⟨T2, B2, ?_, ?_, ?_⟩
      · rw [goChildren_cons, hisdir, if_neg ?_, hbytes, hrest, List.map_cons, List.sum_cons,
          ← Nat.add_assoc]
        exact hcd
      · rw [hset]
        exact hT2
      · rw [hset]
        exact hB2


/-- One assemble_tree call on an unassembled directory of an admissible
stream: it succeeds, assembles exactly the directory's subtree (sizes,
child lists and parent links), and consumes exactly the subtree's pending
keys. -/
theorem assemble_char_aux (s : List Node) (hs : Adm s) (ctx : Ctx) :
    ∀ (fuel : Nat) (A AB : Finset Nat) (T : Arena) (B : Branches) (i : Nat),
    TInv s A T → BInv s AB B → A ⊆ AB →
    i < s.length → (ent s i).is_dir = true →
    (∀ j ∈ subDirsF s (ent s i).path, j ∉ AB) →
    dirCount s AB < fuel →
    ∃ T' B',
      assemble_tree ctx fuel T i B = some (T', B') ∧
      TInv s (A ∪ subDirsF s (ent s i).path) T' ∧
      BInv s (AB ∪ subDirsF s (ent s i).path) B' := by
  intro fuel
  induction fuel with
  | zero =>
    intro A AB T B i _ _ _ _ _ _ hf
    exact absurd hf (Nat.not_lt_zero _)
  | succ f ih =>
    intro A AB T B i hT hB hAB hil hdir hdisj hfuel
    obtain ⟨hBnd, hBpres, hBabs, hBlen⟩ := hB
    have hiAB : i ∉ AB := hdisj i (mem_subDirsF_self s i hil hdir)
    have hiA : i ∉ A := fun h => hiAB (hAB h)
    have hpathT : (T.get i).node.path = (ent s i).path := (hT.2 i hil).1
    have hlookup : bLookup B (ent s i).path = some (childIds s (ent s i).path) :=
      hBpres i hil hdir hiAB
    -- removing the current key advances the consumed set by i
    have hB1inv : BInv s (insert i AB) (bRemove B (ent s i).path) := by
      refine ⟨List.Nodup.sublist (bRemove_keys_sublist B _) hBnd, ?_, ?_, ?_⟩
      · intro j hjl hjd hjni
        have hji : j ≠ i := fun h => hjni (h ▸ Finset.mem_insert_self i AB)
        have hjAB : j ∉ AB := fun h => hjni (Finset.mem_insert_of_mem h)
        have hne : (ent s j).path ≠ (ent s i).path :=
          fun h => hji (adm_pathInj s hs j i hjl hil h)
        rw [bLookup_bRemove B _ hBnd, if_neg hne]
        exact hBpres j hjl hjd hjAB
      · intro q hq
        rw [bLookup_bRemove B _ hBnd]
        by_cases hqp : q = (ent s i).path
        · rw [if_pos hqp]
        · rw [if_neg hqp]
          apply hBabs
          intro j hjl hjd hjq
          rcases Finset.mem_insert.mp (hq j hjl hjd hjq) with h | h
          · exact absurd (h ▸ hjq : (ent s i).path = q) (fun hh => hqp hh.symm)
          · exact h
      · have h1 := bRemove_length B (ent s i).path (childIds s (ent s i).path) hlookup
        have h2 := dirCount_insert s AB i hil hdir hiAB
        omega
    have hdisj1 : ∀ c ∈ childIds s (ent s i).path, (ent s c).is_dir = true →
        ∀ j ∈ subDirsF s (ent s c).path, j ∉ insert i AB := by
      intro c hc _ j hj
      obtain ⟨hjl, hjd, hjpfx⟩ := (subDirsF_mem s _ j).mp hj
      rw [Finset.mem_insert]
      rintro (rfl | h)
      · have h1 := subDirsF_longer s _ j hj
        have h2 := (childIds_path s hs _ c hc).1
        omega
      · have hjm : j ∈ subDirsF s (ent s i).path :=
          (subDirsF_mem s _ j).mpr
            ⟨hjl, hjd, isPfx_trans _ _ _ (childIds_path s hs _ c hc).2 hjpfx⟩
        exact hdisj j hjm h
    have hfuel1 : dirCount s (insert i AB) < f := by
      have h1 := dirCount_insert s AB i hil hdir hiAB
      omega
    obtain ⟨T1, B2, hmain, hT1, hB2⟩ := goChildren_char s hs ctx f ih (ent s i).path
      (childIds s (ent s i).path) (childIds_nodup s _) (fun c h => h)
      A (insert i AB) T (bRemove B (ent s i).path) 0 hT hB1inv
      (fun x hx => Finset.mem_insert_of_mem (hAB hx)) hdisj1 hfuel1
    have hsize : (0 : Nat) + ((childIds s (ent s i).path).map (contrib s)).sum =
        canonAggF s (ent s i).path := by
      rw [Nat.zero_add, canonAggF_children s (fun j hj => adm_pathNe s hs j hj)]
    rw [hsize] at hmain
    -- the slot holding i before the size write
    have hiAi : i ∉ A ∪ childSubs s (childIds s (ent s i).path) := by
      rw [Finset.mem_union]
      rintro (h | h)
      · exact hiA h
      · exact not_mem_childSubs_self s hs i hil h
    have hT1len : T1.length = s.length := hT1.1
    have hkidsT1 : (T1.get i).kids = [] := ((hT1.2 i hil).2.2.2.2.2.2.2.1 hiAi).1
    have hfsT1 : (T1.get i).node.file_size = none := by
      rw [((hT1.2 i hil).2.2.2.2.2.2.2.1 hiAi).2]
      exact adm_dirNone s hs i hil hdir
    -- the size write
    obtain ⟨T2, hT2def⟩ : ∃ T2 : Arena, T2 =
        (if canonAggF s (ent s i).path > 0 then
          T1.setSlot i { T1.get i with node :=
            { (T1.get i).node with file_size := some (canonAggF s (ent s i).path) } }
        else T1) := ⟨_, rfl⟩
    have hT2geti : T2.get i = { T1.get i with node :=
        { (T1.get i).node with file_size := zeroAbsent (canonAggF s (ent s i).path) } } := by
      rw [hT2def]
      unfold zeroAbsent
      by_cases h0 : canonAggF s (ent s i).path > 0
      · rw [if_pos h0, if_pos h0, Arena.get_setSlot_self _ _ _ (by rw [hT1len]; exact hil)]
      · rw [if_neg h0, if_neg h0, ← hfsT1, Node.set_fs_self, Slot.set_node_self]
    have hT2getne : ∀ j, j ≠ i → T2.get j = T1.get j := by
      intro j hj
      rw [hT2def]
      by_cases h0 : canonAggF s (ent s i).path > 0
      · rw [if_pos h0, Arena.get_setSlot_ne _ _ _ _ (fun h => hj h.symm)]
      · rw [if_neg h0]
    have hT2len : T2.length = s.length := by
      rw [hT2def]
      by_cases h0 : canonAggF s (ent s i).path > 0
      · rw [if_pos h0, Arena.length_setSlot, hT1len]
      · rw [if_neg h0, hT1len]
    -- the sorted child list
    obtain ⟨sorted, hsortdef⟩ : ∃ l : List Nat,
        l = sortChildren ctx T2 (childIds s (ent s i).path) := ⟨_, rfl⟩
    have hperm : sorted.Perm (childIds s (ent s i).path) := by
      rw [hsortdef]
      exact sortChildren_perm ctx T2 _
    have hsortnd : sorted.Nodup := hperm.nodup_iff.mpr (childIds_nodup s _)
    have hsortcond : ∀ c ∈ sorted, c < T2.length ∧ c ≠ i := by
      intro c hc
      have hcm := hperm.mem_iff.mp hc
      refine ⟨?_, childIds_ne_self s hs i c hil hcm⟩
      rw [hT2len]
      exact ((childIds_mem s _ c).mp hcm).1
    obtain ⟨hFlen, hFi, hFc, hFoth⟩ := append_fold sorted T2 i
      (by rw [hT2len]; exact hil) hsortnd hsortcond
    obtain ⟨T3, hT3def⟩ : ∃ T3 : Arena,
        T3 = sorted.foldl (fun t c => t.append i c) T2 := ⟨_, rfl⟩
    rw [← hT3def] at hFlen hFi hFoth
    have hFc' : ∀ c ∈ sorted, T3.get c = { T2.get c with parent := some i } := by
      intro c hc
      rw [hT3def]
      exact hFc c hc
    have hT3len : T3.length = s.length := by rw [hFlen, hT2len]
    have hgi : T3.get i = ⟨⟨(T1.get i).node.path, (T1.get i).node.depth,
        (T1.get i).node.kind, zeroAbsent (canonAggF s (ent s i).path),
        (T1.get i).node.inode⟩, (T1.get i).parent, sorted, (T1.get i).removed⟩ := by
      rw [hFi, hT2geti]
      simp [hkidsT1]
    have hpart := subDirs_partition s hs i hil hdir
    refine ⟨T3, B2, ?_, ?_, ?_⟩
    · -- the call equation
      simp only [assemble_tree, hpathT, hlookup, hmain]
      rw [← hT2def, ← hsortdef, ← hT3def]
    · -- the tree invariant at the grown assembled set
      rw [hpart, Finset.union_insert]
      refine ⟨hT3len, ?_⟩
      intro j hjl
      obtain ⟨h1, h2, h3, h4, h5, h6, h7, h8, h9, h10, h11⟩ := hT1.2 j hjl
      by_cases hji : j = i
      · subst hji
        refine ⟨by rw [hgi]; exact h1, by rw [hgi]; exact h2, by rw [hgi]; exact h3,
          by rw [hgi]; exact h4, by rw [hgi]; exact h5, fun _ => hdir, ?_, ?_, ?_, ?_, ?_⟩
        · intro _
          refine ⟨by rw [hgi], by rw [hgi]; exact hperm⟩
        · intro h
          exact absurd (Finset.mem_insert_self j _) h
        · intro h0
          rw [hgi]
          exact h9 h0
        · intro hj0 hq
          obtain ⟨j0, hj0r, hj0d, hj0p⟩ := adm_linkage s hs j hjl hj0
          have hq0 : idOfP s (ent s j).path.dropLast = j0 := by
            rw [← hj0p]
            exact idOfP_of s hs j0 (lt_trans hj0r hjl)
          rcases Finset.mem_insert.mp hq with h | h
          · rw [hq0] at h
            omega
          · rw [hgi]
            exact h10 hj0 h
        · intro hj0 hq
          rw [hgi]
          exact h11 hj0 (fun h => hq (Finset.mem_insert_of_mem h))
      · by_cases hjc : j ∈ childIds s (ent s i).path
        · have hgc : T3.get j = ⟨(T1.get j).node, some i, (T1.get j).kids,
              (T1.get j).removed⟩ := by
            rw [hFc' j (hperm.mem_iff.mpr hjc), hT2getne j hji]
          obtain ⟨_, hj0, hdpj⟩ := (childIds_mem s _ j).mp hjc
          refine ⟨by rw [hgc]; exact h1, by rw [hgc]; exact h2, by rw [hgc]; exact h3,
            by rw [hgc]; exact h4, by rw [hgc]; exact h5, ?_, ?_, ?_, ?_, ?_, ?_⟩
          · intro h
            exact h6 ((Finset.mem_insert.mp h).resolve_left hji)
          · intro h
            have h' := h7 ((Finset.mem_insert.mp h).resolve_left hji)
            exact ⟨by rw [hgc]; exact h'.1, by rw [hgc]; exact h'.2⟩
          · intro h
            have h' := h8 (fun hh => h (Finset.mem_insert_of_mem hh))
            exact ⟨by rw [hgc]; exact h'.1, by rw [hgc]; exact h'.2⟩
          · intro h0
            exact absurd h0 hj0
          · intro _ _
            rw [hgc, hdpj, idOfP_of s hs i hil]
          · intro _ hq
            exfalso
            apply hq
            rw [hdpj, idOfP_of s hs i hil]
            exact Finset.mem_insert_self i _
        · have hgo : T3.get j = T1.get j := by
            rw [hFoth j hji (fun h => hjc (hperm.mem_iff.mp h)), hT2getne j hji]
          refine ⟨by rw [hgo]; exact h1, by rw [hgo]; exact h2, by rw [hgo]; exact h3,
            by rw [hgo]; exact h4, by rw [hgo]; exact h5, ?_, ?_, ?_, ?_, ?_, ?_⟩
          · intro h
            exact h6 ((Finset.mem_insert.mp h).resolve_left hji)
          · intro h
            have h' := h7 ((Finset.mem_insert.mp h).resolve_left hji)
            exact ⟨by rw [hgo]; exact h'.1, by rw [hgo]; exact h'.2⟩
          · intro h
            have h' := h8 (fun hh => h (Finset.mem_insert_of_mem hh))
            exact ⟨by rw [hgo]; exact h'.1, by rw [hgo]; exact h'.2⟩
          · intro h0
            rw [hgo]
            exact h9 h0
          · intro hj0 hq
            obtain ⟨j0, hj0r, hj0d, hj0p⟩ := adm_linkage s hs j hjl hj0
            have hq0 : idOfP s (ent s j).path.dropLast = j0 := by
              rw [← hj0p]
              exact idOfP_of s hs j0 (lt_trans hj0r hjl)
            rcases Finset.mem_insert.mp hq with h | h
            · exfalso
              rw [hq0] at h
              apply hjc
              rw [childIds_mem]
              refine ⟨hjl, hj0, ?_⟩
              rw [← hj0p, h]
            · rw [hgo]
              exact h10 hj0 h
          · intro hj0 hq
            rw [hgo]
            exact h11 hj0 (fun h => hq (Finset.mem_insert_of_mem h))
    · -- the index invariant at the grown consumed set
      rw [hpart, Finset.union_insert, ← Finset.insert_union]
      exact hB2


/-- The Collector plus the Assembler on an admissible stream: the run
succeeds with slot j holding entry j, the root at slot 0; every directory
carries its canonical aggregate (zero left absent) and a permutation of its
canonical children; every non-directory keeps its own size and stays
childless; every non-root slot points back at its parent's slot. -/
theorem collectAssemble_char (s : List Node) (hs : Adm s) (ctx : Ctx) :
    ∃ T : Arena,
      collectAssemble s ctx = Except.ok (T, 0) ∧ AssembledChar s T := by
  obtain ⟨bs, hloop, hnd, hpres, hkeys, hlen⟩ := collect_char s hs
  have hlen0 : 0 < s.length := by
    cases s with
    | nil => exact absurd rfl hs.1
    | cons e r => exact Nat.succ_pos _
  -- the raw arena satisfies the invariant at the empty assembled set
  have hT0 : TInv s ∅ (s.map (fun e => (⟨e, none, [], false⟩ : Slot))) := by
    refine ⟨by rw [List.length_map], ?_⟩
    intro j hjl
    rw [slotMap_getD s j hjl]
    refine ⟨rfl, rfl, rfl, rfl, rfl, ?_, ?_, ?_, fun _ => rfl, ?_, fun _ _ => rfl⟩
    · intro h
      exact absurd h (Finset.not_mem_empty j)
    · intro h
      exact absurd h (Finset.not_mem_empty j)
    · intro _
      exact ⟨rfl, rfl⟩
    · intro _ h
      exact absurd h (Finset.not_mem_empty _)
  have hB0 : BInv s ∅ bs := by
    refine ⟨hnd, fun j hjl hjd _ => hpres j hjl hjd, ?_, hlen⟩
    intro q hq
    rw [bLookup_none_iff]
    intro hmem
    obtain ⟨j, hjl, hjd, hjq⟩ := hkeys q hmem
    exact absurd (hq j hjl hjd hjq) (Finset.not_mem_empty j)
  obtain ⟨T, B2, hasm, hT, _⟩ := assemble_char_aux s hs ctx (bs.length + 1) ∅ ∅
    (s.map (fun e => (⟨e, none, [], false⟩ : Slot))) bs 0 hT0 hB0
    (Finset.Subset.refl _) hlen0 hs.2.1 (fun j _ => Finset.not_mem_empty j)
    (by rw [← hlen]; exact Nat.lt_succ_self _)
  refine ⟨T, ?_, hT.1, ?_⟩
  · simp only [collectAssemble, hloop, hasm]
  · intro j hjl
    obtain ⟨h1, h2, h3, h4, h5, h6, h7, h8, h9, h10, h11⟩ := hT.2 j hjl
    have hmem : ∀ k, k < s.length → (ent s k).is_dir = true →
        k ∈ (∅ : Finset Nat) ∪ subDirsF s (ent s 0).path := by
      intro k hkl hkd
      rw [Finset.empty_union, subDirsF_mem]
      exact ⟨hkl, hkd, adm_root_pfx s hs k hkl⟩
    refine ⟨h1, h2, h3, h4, h5, ?_, ?_, h9, ?_⟩
    · intro hd
      exact h7 (hmem j hjl hd)
    · intro hd
      have hnm : j ∉ (∅ : Finset Nat) ∪ subDirsF s (ent s 0).path := by
        rw [Finset.empty_union, subDirsF_mem]
        rintro ⟨_, hdd, _⟩
        rw [hd] at hdd
        cases hdd
      exact h8 hnm
    · intro hj0
      obtain ⟨j0, hj0r, hj0d, hj0p⟩ := adm_linkage s hs j hjl hj0
      have hq0 : idOfP s (ent s j).path.dropLast = j0 := by
        rw [← hj0p]
        exact idOfP_of s hs j0 (lt_trans hj0r hjl)
      apply h10 hj0
      rw [hq0]
      exact hmem j0 (lt_trans hj0r hjl) hj0d


theorem ent_mem (s : List Node) (i : Nat) (hi : i < s.length) : ent s i ∈ s := by
  unfold ent
  rw [List.getD_eq_getElem?_getD, List.getElem?_eq_getElem hi, Option.getD_some]
  exact List.getElem_mem _

theorem mem_ent (s : List Node) (e : Node) :
    e ∈ s ↔ ∃ i, i < s.length ∧ ent s i = e := by
  constructor
  · intro he
    obtain ⟨i, hi, hei⟩ := List.mem_iff_getElem.mp he
    refine ⟨i, hi, ?_⟩
    unfold ent
    rw [List.getD_eq_getElem?_getD, List.getElem?_eq_getElem hi, Option.getD_some, hei]
  · rintro ⟨i, hi, rfl⟩
    exact ent_mem s i hi

/-- The arena the pipeline assembles is well-formed: graded, parent links
consistent, no slot in two child lists, root nobody's child. -/
theorem assembled_wf (s : List Node) (hs : Adm s) (T : Arena)
    (hc : AssembledChar s T) : Wf T 0 := by
  obtain ⟨hlen, hf⟩ := hc
  have hkidsub : ∀ i, i < s.length → ∀ j ∈ (T.get i).kids, j ∈ childIds s (ent s i).path := by
    intro i hi j hj
    cases hd : (ent s i).is_dir with
    | true => exact ((hf i hi).2.2.2.2.2.1 hd).2.mem_iff.mp hj
    | false =>
      rw [((hf i hi).2.2.2.2.2.2.1 hd).1] at hj
      cases hj
  refine ⟨?_, ?_, ?_, ?_⟩
  · -- Graded
    intro i hi j hj
    rw [List.mem_range, hlen] at hi
    have hjc := hkidsub i hi j hj
    obtain ⟨hjl, _, _⟩ := (childIds_mem s _ j).mp hjc
    rw [(hf i hi).1, (hf j hjl).1]
    have := (childIds_path s hs _ j hjc).1
    omega
  · -- ParentConsistent
    intro i hi j hj
    rw [List.mem_range, hlen] at hi
    have hjc := hkidsub i hi j hj
    obtain ⟨hjl, hj0, hjdp⟩ := (childIds_mem s _ j).mp hjc
    rw [(hf j hjl).2.2.2.2.2.2.2.2 hj0, hjdp, idOfP_of s hs i hi]
  · -- GlobalNodup
    unfold GlobalNodup allKids
    rw [List.nodup_flatMap]
    constructor
    · intro i hi
      rw [List.mem_range, hlen] at hi
      cases hd : (ent s i).is_dir with
      | true =>
        exact ((hf i hi).2.2.2.2.2.1 hd).2.nodup_iff.mpr (childIds_nodup s _)
      | false =>
        rw [((hf i hi).2.2.2.2.2.2.1 hd).1]
        exact List.nodup_nil
    · rw [List.pairwise_iff_getElem]
      intro a b ha hb hab
      rw [List.length_range] at ha hb
      rw [List.getElem_range, List.getElem_range]
      intro x hxa hxb
      rw [hlen] at ha hb
      have hxa' := hkidsub a ha x hxa
      have hxb' := hkidsub b hb x hxb
      have h1 := ((childIds_mem s _ x).mp hxa').2.2
      have h2 := ((childIds_mem s _ x).mp hxb').2.2
      have : (ent s a).path = (ent s b).path := by rw [← h1, ← h2]
      have := adm_pathInj s hs a b ha hb this
      omega
  · -- RootFree
    intro i hi h0
    rw [List.mem_range, hlen] at hi
    have := ((childIds_mem s _ 0).mp (hkidsub i hi 0 h0)).2.1
    exact this rfl

/-- Everything the traversal of the assembled tree reaches is a slot of it. -/
theorem assembled_desc_lt (s : List Node) (hs : Adm s) (T : Arena)
    (hc : AssembledChar s T) : ∀ x ∈ T.descendants 0, x < s.length := by
  obtain ⟨hlen, hf⟩ := hc
  intro x hx
  unfold Arena.descendants at hx
  rcases List.mem_cons.mp ((preorder_head T _ 0) ▸ hx) with rfl | ht
  · cases s with
    | nil => exact absurd rfl hs.1
    | cons e r => exact Nat.succ_pos _
  · obtain ⟨i, hi, hxk⟩ := (mem_allKids T x).mp (preorder_tail_allKids T _ 0 x ht)
    rw [hlen] at hi
    cases hd : (ent s i).is_dir with
    | true =>
      have := ((hf i hi).2.2.2.2.2.1 hd).2.mem_iff.mp hxk
      exact ((childIds_mem s _ x).mp this).1
    | false =>
      rw [((hf i hi).2.2.2.2.2.2.1 hd).1] at hxk
      cases hxk

/-- Every slot of the assembled tree is reached from the root. -/
theorem assembled_desc_mem (s : List Node) (hs : Adm s) (T : Arena)
    (hc : AssembledChar s T) : ∀ j, j < s.length → j ∈ T.descendants 0 := by
  obtain ⟨hlen, hf⟩ := hc
  have hg : Graded T := (assembled_wf s hs T ⟨hlen, hf⟩).1
  have key : ∀ n j, j < s.length → (ent s j).path.length ≤ n → j ∈ T.descendants 0 := by
    intro n
    induction n with
    | zero =>
      intro j hj hn
      have := adm_pathNe s hs j hj
      have : (ent s j).path.length ≠ 0 := fun h => this (List.eq_nil_of_length_eq_zero h)
      omega
    | succ n ih =>
      intro j hj hn
      by_cases hj0 : j = 0
      · subst hj0
        exact mem_preorder_self T _ 0 (Nat.succ_le_succ (Nat.zero_le _))
      · obtain ⟨j0, hj0r, hj0d, hj0p⟩ := adm_linkage s hs j hj hj0
        have hj0l : j0 < s.length := lt_trans hj0r hj
        have hq0 : idOfP s (ent s j).path.dropLast = j0 := by
          rw [← hj0p]
          exact idOfP_of s hs j0 hj0l
        have hjc : j ∈ childIds s (ent s j0).path := by
          rw [childIds_mem]
          exact ⟨hj, hj0, hj0p.symm⟩
        have hjk : j ∈ (T.get j0).kids :=
          ((hf j0 hj0l).2.2.2.2.2.1 hj0d).2.mem_iff.mpr hjc
        have hplen : (ent s j0).path.length ≤ n := by
          rw [hj0p, List.length_dropLast]
          have h1 : (ent s j).path ≠ [] := adm_pathNe s hs j hj
          have h2 : (ent s j).path.length ≠ 0 :=
            fun h => h1 (List.eq_nil_of_length_eq_zero h)
          omega
        have hj0mem : j0 ∈ T.descendants 0 := ih j0 hj0l hplen
        unfold Arena.descendants at hj0mem ⊢
        exact List.mem_of_mem_drop
          (preorder_kid_tail T hg _ 0 j0 j (Nat.lt_succ_of_le (gRank_le_len T 0)) hj0mem hjk)
  intro j hj
  exact key (ent s j).path.length j hj (le_refl _)


/-- The set of live paths of the assembled tree is determined by the stream
alone. -/
theorem extractPaths_canon (s : List Node) (hs : Adm s) (T : Arena)
    (hc : AssembledChar s T) : extractPaths T 0 = pathsCanon s := by
  obtain ⟨hlen, hf⟩ := hc
  unfold extractPaths pathsCanon
  ext q
  rw [List.mem_toFinset, List.mem_toFinset, List.mem_map, List.mem_map]
  constructor
  · rintro ⟨i, hi, rfl⟩
    have hil := assembled_desc_lt s hs T ⟨hlen, hf⟩ i hi
    exact ⟨ent s i, ent_mem s i hil, ((hf i hil).1).symm⟩
  · rintro ⟨e, he, rfl⟩
    obtain ⟨i, hil, rfl⟩ := (mem_ent s e).mp he
    exact ⟨i, assembled_desc_mem s hs T ⟨hlen, hf⟩ i hil, (hf i hil).1⟩

/-- The stored size at each live path of the assembled tree is determined by
the stream alone. -/
theorem extractSizes_canon (s : List Node) (hs : Adm s) (T : Arena)
    (hc : AssembledChar s T) : extractSizes T 0 = sizesCanon s := by
  obtain ⟨hlen, hf⟩ := hc
  have hsz : ∀ i, i < s.length → (T.get i).node.file_size =
      (if (ent s i).is_dir = true then zeroAbsent (canonAggF s (ent s i).path)
       else (ent s i).file_size) := by
    intro i hil
    cases hd : (ent s i).is_dir with
    | true => rw [if_pos rfl, ((hf i hil).2.2.2.2.2.1 hd).1]
    | false =>
      rw [if_neg (by simp [hd]), ((hf i hil).2.2.2.2.2.2.1 hd).2]
  unfold extractSizes sizesCanon
  ext x
  rw [List.mem_toFinset, List.mem_toFinset, List.mem_map, List.mem_map]
  constructor
  · rintro ⟨i, hi, rfl⟩
    have hil := assembled_desc_lt s hs T ⟨hlen, hf⟩ i hi
    refine ⟨ent s i, ent_mem s i hil, ?_⟩
    rw [(hf i hil).1, hsz i hil]
  · rintro ⟨e, he, rfl⟩
    obtain ⟨i, hil, rfl⟩ := (mem_ent s e).mp he
    refine ⟨i, assembled_desc_mem s hs T ⟨hlen, hf⟩ i hil, ?_⟩
    rw [(hf i hil).1, hsz i hil]

/-- The parent-to-child relation over paths of the assembled tree is
determined by the stream alone. -/
theorem extractEdges_canon (s : List Node) (hs : Adm s) (T : Arena)
    (hc : AssembledChar s T) : extractEdges T 0 = edgesCanon s := by
  obtain ⟨hlen, hf⟩ := hc
  have hkidsub : ∀ i, i < s.length → ∀ j ∈ (T.get i).kids, j ∈ childIds s (ent s i).path := by
    intro i hi j hj
    cases hd : (ent s i).is_dir with
    | true => exact ((hf i hi).2.2.2.2.2.1 hd).2.mem_iff.mp hj
    | false =>
      rw [((hf i hi).2.2.2.2.2.2.1 hd).1] at hj
      cases hj
  unfold extractEdges edgesCanon
  ext x
  rw [List.mem_toFinset, List.mem_toFinset, List.mem_flatMap, List.mem_map]
  constructor
  · rintro ⟨i, hi, hx⟩
    obtain ⟨c, hck, rfl⟩ := List.mem_map.mp hx
    have hil := assembled_desc_lt s hs T ⟨hlen, hf⟩ i hi
    have hcc := hkidsub i hil c hck
    obtain ⟨hcl, hc0, hcdp⟩ := (childIds_mem s _ c).mp hcc
    refine ⟨ent s c, ?_, ?_⟩
    · rw [List.mem_filter]
      refine ⟨ent_mem s c hcl, ?_⟩
      have := adm_uniqueRoot s hs c hcl hc0
      rw [Bool.not_eq_true', Bool.and_eq_false_iff]
      by_cases h1 : (ent s c).is_dir = true
      · right
        rw [decide_eq_false_iff_not]
        exact fun h2 => this ⟨h1, h2⟩
      · left
        exact Bool.not_eq_true _ ▸ (Bool.eq_false_iff.mpr h1)
    · rw [(hf i hil).1, (hf c hcl).1, hcdp]
  · rintro ⟨e, he, rfl⟩
    rw [List.mem_filter] at he
    obtain ⟨hes, hpred⟩ := he
    obtain ⟨c, hcl, rfl⟩ := (mem_ent s e).mp hes
    have hc0 : c ≠ 0 := by
      rintro rfl
      rw [hs.2.1, hs.2.2.1] at hpred
      simp at hpred
    obtain ⟨j0, hj0r, hj0d, hj0p⟩ := adm_linkage s hs c hcl hc0
    have hj0l : j0 < s.length := lt_trans hj0r hcl
    have hck : c ∈ (T.get j0).kids := by
      apply ((hf j0 hj0l).2.2.2.2.2.1 hj0d).2.mem_iff.mpr
      rw [childIds_mem]
      exact ⟨hcl, hc0, hj0p.symm⟩
    refine ⟨j0, assembled_desc_mem s hs T ⟨hlen, hf⟩ j0 hj0l, ?_⟩
    rw [List.mem_map]
    refine ⟨c, hck, ?_⟩
    rw [(hf j0 hj0l).1, (hf c hcl).1, hj0p]


theorem foldr_max_perm (l1 l2 : List Nat) (h : l1.Perm l2) :
    l1.foldr max 0 = l2.foldr max 0 := by
  induction h with
  | nil => rfl
  | cons x _ ih => rw [List.foldr_cons, List.foldr_cons, ih]
  | swap x y l => rw [List.foldr_cons, List.foldr_cons, List.foldr_cons, List.foldr_cons,
      max_left_comm]
  | trans _ _ ih1 ih2 => exact ih1.trans ih2

theorem maxLen_perm (s1 s2 : List Node) (h : s1.Perm s2) : maxLen s1 = maxLen s2 :=
  foldr_max_perm _ _ (h.map _)

theorem range_map_ent : ∀ (l : List Node),
    (List.range l.length).map (fun i => ent l i) = l := by
  intro l
  induction l with
  | nil => rfl
  | cons y ys ih =>
    rw [List.length_cons, List.range_succ_eq_map, List.map_cons, List.map_map]
    rw [show (List.range ys.length).map ((fun i => ent (y :: ys) i) ∘ Nat.succ) =
      (List.range ys.length).map (fun i => ent ys i) from
      List.map_congr_left (fun x _ => rfl)]
    rw [ih]
    rfl

theorem range_filter_map_ent (P : Node → Bool) (l : List Node) :
    ((List.range l.length).filter (fun i => P (ent l i))).map (fun i => ent l i) =
      l.filter P := by
  have h1 : ((List.range l.length).map (fun i => ent l i)).filter P =
      ((List.range l.length).filter (fun i => P (ent l i))).map (fun i => ent l i) :=
    List.filter_map _ _
  rw [← h1, range_map_ent]

/-- The canonical child positions of a cons stream are the shifted matching
positions of the tail. -/
theorem childIds_cons (e : Node) (rest : List Node) (p : Path) :
    childIds (e :: rest) p =
      ((List.range rest.length).filter
        (fun i => decide ((ent rest i).path.dropLast = p))).map Nat.succ := by
  unfold childIds
  rw [List.length_cons, List.range_succ_eq_map, List.filter_cons]
  rw [if_neg (by simp)]
  rw [List.filter_map]
  rw [show ((List.range rest.length).filter
      ((fun i => decide (i ≠ 0) && decide ((ent (e :: rest) i).path.dropLast = p)) ∘
        Nat.succ)) =
      ((List.range rest.length).filter
        (fun i => decide ((ent rest i).path.dropLast = p))) from
    List.filter_congr (fun x _ => by simp [Function.comp, ent])]

/-- The canonical child entries of a cons stream are the matching tail
entries in order. -/
theorem childEnts (e : Node) (rest : List Node) (p : Path) :
    (childIds (e :: rest) p).map (fun c => ent (e :: rest) c) =
      rest.filter (fun x => decide (x.path.dropLast = p)) := by
  rw [childIds_cons, List.map_map]
  rw [show ((List.range rest.length).filter
      (fun i => decide ((ent rest i).path.dropLast = p))).map
      ((fun c => ent (e :: rest) c) ∘ Nat.succ) =
      ((List.range rest.length).filter
        (fun i => decide ((ent rest i).path.dropLast = p))).map (fun i => ent rest i) from
    List.map_congr_left (fun x _ => rfl)]
  exact range_filter_map_ent (fun x => decide (x.path.dropLast = p)) rest

/-- The canonical aggregate only depends on the stream's head and the
multiset of its tail. -/
theorem canonAgg_perm (r : Node) (t1 t2 : List Node) (hp : t1.Perm t2) :
    ∀ f p, canonAgg (r :: t1) f p = canonAgg (r :: t2) f p := by
  intro f
  induction f with
  | zero => intro p; rfl
  | succ f ih =>
    intro p
    rw [canonAgg, canonAgg]
    have key : ∀ (t t' : List Node),
        (∀ q, canonAgg (r :: t) f q = canonAgg (r :: t') f q) →
        ((childIds (r :: t) p).map (fun c =>
          if (ent (r :: t) c).is_dir then canonAgg (r :: t) f (ent (r :: t) c).path
          else (ent (r :: t) c).file_size.getD 0)) =
        ((t.filter (fun x => decide (x.path.dropLast = p))).map (fun x =>
          if x.is_dir then canonAgg (r :: t') f x.path else x.file_size.getD 0)) := by
      intro t t' hih
      rw [show ((childIds (r :: t) p).map (fun c =>
          if (ent (r :: t) c).is_dir then canonAgg (r :: t) f (ent (r :: t) c).path
          else (ent (r :: t) c).file_size.getD 0)) =
        ((childIds (r :: t) p).map (fun c => ent (r :: t) c)).map (fun x =>
          if x.is_dir then canonAgg (r :: t) f x.path else x.file_size.getD 0) from by
        rw [List.map_map]
        rfl]
      rw [childEnts]
      apply List.map_congr_left
      intro x _
      by_cases hd : x.is_dir = true
      · rw [if_pos hd, if_pos hd, hih x.path]
      · rw [if_neg hd, if_neg hd]
    rw [key t1 t2 (fun q => ih q)]
    rw [key t2 t2 (fun q => rfl)]
    exact ((hp.filter _).map _).sum_eq

/-- Two admissible permutations of each other share the root entry. -/
theorem adm_perm_head (s1 s2 : List Node) (h1 : Adm s1) (h2 : Adm s2)
    (hp : s1.Perm s2) :
    ∃ r t1 t2, s1 = r :: t1 ∧ s2 = r :: t2 ∧ t1.Perm t2 := by
  cases s1 with
  | nil => exact absurd rfl h1.1
  | cons e1 t1 =>
    cases s2 with
    | nil => exact absurd rfl h2.1
    | cons e2 t2 =>
      have he2 : e2 ∈ e1 :: t1 := hp.mem_iff.mpr (List.mem_cons_self _ _)
      obtain ⟨i, hil, hie⟩ := (mem_ent _ e2).mp he2
      have heq : e1 = e2 := by
        by_cases hi0 : i = 0
        · rw [← hie, hi0]
          rfl
        · exfalso
          apply adm_uniqueRoot (e1 :: t1) h1 i hil hi0
          rw [hie]
          exact ⟨h2.2.1, h2.2.2.1⟩
      subst heq
      exact ⟨e1, t1, t2, rfl, rfl, (List.perm_cons e1).mp hp⟩

/-- The canonical aggregate at full fuel is permutation invariant across
admissible streams. -/
theorem canonAggF_perm (s1 s2 : List Node) (h1 : Adm s1) (h2 : Adm s2)
    (hp : s1.Perm s2) : ∀ p, canonAggF s1 p = canonAggF s2 p := by
  obtain ⟨r, t1, t2, rfl, rfl, hpt⟩ := adm_perm_head s1 s2 h1 h2 hp
  intro p
  unfold canonAggF
  rw [maxLen_perm _ _ hp]
  exact canonAgg_perm r t1 t2 hpt _ p

theorem pathsCanon_perm (s1 s2 : List Node) (hp : s1.Perm s2) :
    pathsCanon s1 = pathsCanon s2 :=
  List.toFinset_eq_of_perm _ _ (hp.map _)

theorem edgesCanon_perm (s1 s2 : List Node) (hp : s1.Perm s2) :
    edgesCanon s1 = edgesCanon s2 :=
  List.toFinset_eq_of_perm _ _ ((hp.filter _).map _)

theorem sizesCanon_perm (s1 s2 : List Node) (h1 : Adm s1) (h2 : Adm s2)
    (hp : s1.Perm s2) : sizesCanon s1 = sizesCanon s2 := by
  unfold sizesCanon
  rw [show s1.map (fun e =>
      (e.path, if e.is_dir = true then zeroAbsent (canonAggF s1 e.path) else e.file_size)) =
    s1.map (fun e =>
      (e.path, if e.is_dir = true then zeroAbsent (canonAggF s2 e.path) else e.file_size)) from
    List.map_congr_left (fun e _ => by
      by_cases hd : e.is_dir = true
      · rw [if_pos hd, if_pos hd, canonAggF_perm s1 s2 h1 h2 hp e.path]
      · rw [if_neg hd, if_neg hd])]
  exact List.toFinset_eq_of_perm _ _ (hp.map _)


/-- C3: in the assembled tree every directory's stored aggregate is the sum
of its children's stored sizes (files their byte length, subdirectories
their aggregate), and a zero sum is stored as no aggregate at all. -/
theorem C3_dir_aggregate (s : List Node) (ctx : Ctx) (hs : Adm s) :
    ∃ T : Arena,
      collectAssemble s ctx = Except.ok (T, 0) ∧
      ∀ j, j < T.length → (T.get j).node.is_dir = true →
        (T.get j).node.file_size =
          zeroAbsent (((T.get j).kids.map
            (fun c => ((T.get c).node.file_size).getD 0)).sum) := by
  obtain ⟨T, heq, hlen, hf⟩ := collectAssemble_char s hs ctx
  refine ⟨T, heq, ?_⟩
  intro j hjl' hdir'
  rw [hlen] at hjl'
  have hdir : (ent s j).is_dir = true := by
    rw [← is_dir_congr _ _ (hf j hjl').2.2.1]
    exact hdir'
  obtain ⟨hfs, hkperm⟩ := (hf j hjl').2.2.2.2.2.1 hdir
  rw [hfs]
  congr 1
  rw [canonAggF_children s (fun i hi => adm_pathNe s hs i hi)]
  have hmapeq : ∀ c ∈ childIds s (ent s j).path,
      contrib s c = ((T.get c).node.file_size).getD 0 := by
    intro c hc
    obtain ⟨hcl, _, _⟩ := (childIds_mem s _ c).mp hc
    unfold contrib
    cases hd : (ent s c).is_dir with
    | true =>
      rw [if_pos rfl, ((hf c hcl).2.2.2.2.2.1 hd).1, zeroAbsent_getD]
    | false =>
      rw [if_neg (by simp), ((hf c hcl).2.2.2.2.2.2.1 hd).2]
  calc ((childIds s (ent s j).path).map (contrib s)).sum
      = ((childIds s (ent s j).path).map
          (fun c => ((T.get c).node.file_size).getD 0)).sum :=
        congrArg List.sum (List.map_congr_left hmapeq)
    _ = (((T.get j).kids).map (fun c => ((T.get c).node.file_size).getD 0)).sum :=
        ((hkperm.map _).sum_eq).symm

theorem C3_dir_aggregate_witness :
    Adm [⟨["a"], 0, Kind.dir, none, none⟩, ⟨["a", "b"], 1, Kind.file, some 5, none⟩] ∧
    (∃ T : Arena,
      collectAssemble
        [⟨["a"], 0, Kind.dir, none, none⟩, ⟨["a", "b"], 1, Kind.file, some 5, none⟩]
        ⟨false, false, none⟩ = Except.ok (T, 0) ∧
      ∀ j, j < T.length → (T.get j).node.is_dir = true →
        (T.get j).node.file_size =
          zeroAbsent (((T.get j).kids.map
            (fun c => ((T.get c).node.file_size).getD 0)).sum)) :=
  ⟨by decide, C3_dir_aggregate _ ⟨false, false, none⟩ (by decide)⟩


/-- C2 (amended): on admissible streams — no hard links, distinct paths and
every directory's entry delivered before its children's — the assembled
tree's node set, parent-to-child relation and stored sizes are invariant
under permutation of the event stream. -/
theorem C2_perm_invariant (s1 s2 : List Node) (ctx : Ctx)
    (h1 : Adm s1) (h2 : Adm s2) (hp : s1.Perm s2) :
    ∃ T1 T2 : Arena,
      collectAssemble s1 ctx = Except.ok (T1, 0) ∧
      collectAssemble s2 ctx = Except.ok (T2, 0) ∧
      extractPaths T1 0 = extractPaths T2 0 ∧
      extractEdges T1 0 = extractEdges T2 0 ∧
      extractSizes T1 0 = extractSizes T2 0 := by
  obtain ⟨T1, he1, hc1⟩ := collectAssemble_char s1 h1 ctx
  obtain ⟨T2, he2, hc2⟩ := collectAssemble_char s2 h2 ctx
  refine ⟨T1, T2, he1, he2, ?_, ?_, ?_⟩
  · rw [extractPaths_canon s1 h1 T1 hc1, extractPaths_canon s2 h2 T2 hc2]
    exact pathsCanon_perm s1 s2 hp
  · rw [extractEdges_canon s1 h1 T1 hc1, extractEdges_canon s2 h2 T2 hc2]
    exact edgesCanon_perm s1 s2 hp
  · rw [extractSizes_canon s1 h1 T1 hc1, extractSizes_canon s2 h2 T2 hc2]
    exact sizesCanon_perm s1 s2 h1 h2 hp

theorem C2_perm_invariant_witness :
    Adm [⟨["a"], 0, Kind.dir, none, none⟩, ⟨["a", "b"], 1, Kind.dir, none, none⟩,
      ⟨["a", "c"], 1, Kind.file, some 3, none⟩] ∧
    Adm [⟨["a"], 0, Kind.dir, none, none⟩, ⟨["a", "c"], 1, Kind.file, some 3, none⟩,
      ⟨["a", "b"], 1, Kind.dir, none, none⟩] ∧
    ([⟨["a"], 0, Kind.dir, none, none⟩, ⟨["a", "b"], 1, Kind.dir, none, none⟩,
      ⟨["a", "c"], 1, Kind.file, some 3, none⟩] : List Node).Perm
      [⟨["a"], 0, Kind.dir, none, none⟩, ⟨["a", "c"], 1, Kind.file, some 3, none⟩,
       ⟨["a", "b"], 1, Kind.dir, none, none⟩] ∧
    (∃ T1 T2 : Arena,
      collectAssemble
        [⟨["a"], 0, Kind.dir, none, none⟩, ⟨["a", "b"], 1, Kind.dir, none, none⟩,
         ⟨["a", "c"], 1, Kind.file, some 3, none⟩] ⟨false, false, none⟩ =
        Except.ok (T1, 0) ∧
      collectAssemble
        [⟨["a"], 0, Kind.dir, none, none⟩, ⟨["a", "c"], 1, Kind.file, some 3, none⟩,
         ⟨["a", "b"], 1, Kind.dir, none, none⟩] ⟨false, false, none⟩ =
        Except.ok (T2, 0) ∧
      extractPaths T1 0 = extractPaths T2 0 ∧
      extractEdges T1 0 = extractEdges T2 0 ∧
      extractSizes T1 0 = extractSizes T2 0) :=
  ⟨by decide, by decide, by decide,
    C2_perm_invariant _ _ ⟨false, false, none⟩ (by decide) (by decide) (by decide)⟩

/-- C2, original form refuted: two event streams that are permutations of
each other, both delivering the root before every descendant, on which the
pipeline produces different path sets — the file whose event precedes its
parent directory's event is dropped. -/
theorem C2_perm_dependent :
    ∃ T1 T2 : Arena,
      collectAssemble
        [⟨["a"], 0, Kind.dir, none, none⟩, ⟨["a", "b"], 1, Kind.dir, none, none⟩,
         ⟨["a", "b", "c"], 2, Kind.file, some 5, none⟩] ⟨false, false, none⟩ =
        Except.ok (T1, 0) ∧
      collectAssemble
        [⟨["a"], 0, Kind.dir, none, none⟩, ⟨["a", "b", "c"], 2, Kind.file, some 5, none⟩,
         ⟨["a", "b"], 1, Kind.dir, none, none⟩] ⟨false, false, none⟩ =
        Except.ok (T2, 0) ∧
      ([⟨["a"], 0, Kind.dir, none, none⟩, ⟨["a", "b"], 1, Kind.dir, none, none⟩,
        ⟨["a", "b", "c"], 2, Kind.file, some 5, none⟩] : List Node).Perm
        [⟨["a"], 0, Kind.dir, none, none⟩, ⟨["a", "b", "c"], 2, Kind.file, some 5, none⟩,
         ⟨["a", "b"], 1, Kind.dir, none, none⟩] ∧
      extractPaths T1 0 ≠ extractPaths T2 0 := by
  refine ⟨[⟨⟨["a"], 0, Kind.dir, some 5, none⟩, none, [1], false⟩,
      ⟨⟨["a", "b"], 1, Kind.dir, some 5, none⟩, some 0, [2], false⟩,
      ⟨⟨["a", "b", "c"], 2, Kind.file, some 5, none⟩, some 1, [], false⟩],
    [⟨⟨["a"], 0, Kind.dir, none, none⟩, none, [2], false⟩,
      ⟨⟨["a", "b", "c"], 2, Kind.file, some 5, none⟩, none, [], false⟩,
      ⟨⟨["a", "b"], 1, Kind.dir, none, none⟩, some 0, [], false⟩], ?_, ?_, ?_, ?_⟩
  · rfl
  · rfl
  · decide
  · decide


theorem remove_subtree_node_all (a : Arena) (c i : Nat) :
    ((a.remove_subtree c).get i).node = (a.get i).node := by
  show ((Arena.markRemoved (a.detach c) (a.descendants c)).get i).node = _
  rw [(markRemoved_get _ _ _).1]
  cases hp : (a.get c).parent with
  | none => rw [Arena.detach_none a c hp]
  | some p => exact (detach_get_cases a c p hp i).2.1

theorem remove_subtree_kids_keep (a : Arena) (c j : Nat)
    (h : (a.get c).parent ≠ some j) :
    ((a.remove_subtree c).get j).kids = (a.get j).kids := by
  show ((Arena.markRemoved (a.detach c) (a.descendants c)).get j).kids = _
  rw [(markRemoved_get _ _ _).2.2]
  cases hp : (a.get c).parent with
  | none => rw [Arena.detach_none a c hp]
  | some p =>
    rw [(detach_get_cases a c p hp j).1, if_neg ?_]
    rintro ⟨rfl, _⟩
    exact h hp

theorem remove_subtree_mem_keep (a : Arena) (c q x : Nat) (hxc : x ≠ c)
    (hx : x ∈ (a.get q).kids) : x ∈ ((a.remove_subtree c).get q).kids := by
  show x ∈ ((Arena.markRemoved (a.detach c) (a.descendants c)).get q).kids
  rw [(markRemoved_get _ _ _).2.2]
  cases hp : (a.get c).parent with
  | none =>
    rw [Arena.detach_none a c hp]
    exact hx
  | some p =>
    rw [(detach_get_cases a c p hp q).1]
    by_cases hqp : q = p ∧ p < a.length
    · obtain ⟨rfl, hpl⟩ := hqp
      rw [if_pos ⟨rfl, hpl⟩]
      exact (List.mem_erase_of_ne hxc).mpr hx
    · rw [if_neg hqp]
      exact hx

theorem detach_parent_self_cases (a : Arena) (c : Nat) :
    ((a.detach c).get c).parent = none ∨
    ((a.detach c).get c).parent = (a.get c).parent := by
  cases hp : (a.get c).parent with
  | none =>
    right
    rw [Arena.detach_none a c hp, hp]
  | some p =>
    left
    have hcl : c < a.length := by
      by_contra hge
      rw [Arena.get_oor a c (Nat.le_of_not_lt hge)] at hp
      exact Option.noConfusion hp
    exact detach_parent_self a c p hp hcl

theorem remove_subtree_parent_not (a : Arena) (c c' j : Nat)
    (h : (a.get c').parent ≠ some j) :
    ((a.remove_subtree c).get c').parent ≠ some j := by
  show ((Arena.markRemoved (a.detach c) (a.descendants c)).get c').parent ≠ some j
  rw [(markRemoved_get _ _ _).2.1]
  by_cases hcc : c' = c
  · subst hcc
    rcases detach_parent_self_cases a c' with hh | hh
    · rw [hh]
      exact fun hcon => Option.noConfusion hcon
    · rw [hh]
      exact h
  · cases hp : (a.get c).parent with
    | none =>
      rw [Arena.detach_none a c hp]
      exact h
    | some p =>
      rw [(detach_get_cases a c p hp c').2.2.1 hcc]
      exact h

theorem fold_remove_kids_keep (ds : List Nat) : ∀ (a : Arena) (j : Nat),
    (∀ c ∈ ds, (a.get c).parent ≠ some j) →
    ((ds.foldl (fun t id => t.remove_subtree id) a).get j).kids = (a.get j).kids := by
  induction ds with
  | nil => intro a j _; rfl
  | cons c cs ih =>
    intro a j hpar
    have hfold : (c :: cs).foldl (fun t id => t.remove_subtree id) a =
        cs.foldl (fun t id => t.remove_subtree id) (a.remove_subtree c) := rfl
    rw [hfold, ih (a.remove_subtree c) j
      (fun c' hc' => remove_subtree_parent_not a c c' j
        (hpar c' (List.mem_cons_of_mem _ hc'))),
      remove_subtree_kids_keep a c j (hpar c (List.mem_cons_self _ _))]

theorem fold_remove_mem_keep (ds : List Nat) : ∀ (a : Arena) (q x : Nat), x ∉ ds →
    x ∈ (a.get q).kids →
    x ∈ ((ds.foldl (fun t id => t.remove_subtree id) a).get q).kids := by
  induction ds with
  | nil => intro a q x _ hx; exact hx
  | cons c cs ih =>
    intro a q x hnx hx
    have hfold : (c :: cs).foldl (fun t id => t.remove_subtree id) a =
        cs.foldl (fun t id => t.remove_subtree id) (a.remove_subtree c) := rfl
    rw [hfold]
    exact ih (a.remove_subtree c) q x (fun h => hnx (List.mem_cons_of_mem _ h))
      (remove_subtree_mem_keep a c q x (fun h => hnx (h ▸ List.mem_cons_self _ _)) hx)


/-- A root-to-j chain whose endpoint keeps nonempty all-non-directory
children survives the prune recursion: j keeps exactly its children, and
every chain link survives. -/
theorem prune_chain_keep (j : Nat) : ∀ (fuel : Nat) (a : Arena) (l : List Nat),
    Wf a 0 →
    (a.get j).kids ≠ [] →
    (∀ c ∈ (a.get j).kids, (a.get c).node.is_dir = false) →
    l.getLast? = some j →
    List.Chain' (fun x y => y ∈ (a.get x).kids) l →
    ((prune_directories 0 fuel a).get j).kids = (a.get j).kids ∧
    List.Chain' (fun x y => y ∈ ((prune_directories 0 fuel a).get x).kids) l := by
  intro fuel
  induction fuel with
  | zero =>
    intro a l _ _ _ _ hch
    exact ⟨rfl, hch⟩
  | succ f ih =>
    intro a l hw hkne hknd hlast hch
    by_cases hscan : scanPrune 0 a = []
    · rw [prune_directories_of_scan_nil 0 f a hscan]
      exact ⟨rfl, hch⟩
    · have hstep : prune_directories 0 (f + 1) a =
          prune_directories 0 f
            ((scanPrune 0 a).foldl (fun t id => t.remove_subtree id) a) := by
        rw [prune_directories]
        simp only [hscan, if_false]
      have hfacts := scanPrune_facts a 0 hw
      have hdirscan : ∀ c ∈ scanPrune 0 a, (a.get c).node.is_dir = true := by
        intro c hc
        exact ((Bool.and_eq_true _ _).mp (List.mem_filter.mp hc).2).1
      have hparnot : ∀ c ∈ scanPrune 0 a, (a.get c).parent ≠ some j := by
        intro c hc
        obtain ⟨i, hil, hik⟩ := (mem_allKids a c).mp (hfacts c hc).2.1
        rw [hw.2.1 i (List.mem_range.mpr hil) c hik]
        intro hcon
        injection hcon with hij
        subst hij
        have h1 := hknd c hik
        have h2 := hdirscan c hc
        rw [h1] at h2
        exact Bool.noConfusion h2
      have hkeep : (((scanPrune 0 a).foldl (fun t id => t.remove_subtree id) a).get j).kids =
          (a.get j).kids :=
        fold_remove_kids_keep (scanPrune 0 a) a j hparnot
      obtain ⟨hlen1, hsub1, hnode1, hw1, hflag1, hle1, hstrict⟩ :=
        fold_remove_facts (scanPrune 0 a) a 0 hw
          (fun c hc => (hfacts c hc).2.2) (fun c hc => (hfacts c hc).1)
      have hchb : List.Chain'
          (fun x y => y ∈ (((scanPrune 0 a).foldl
            (fun t id => t.remove_subtree id) a).get x).kids) l := by
        rw [List.chain'_iff_get] at hch ⊢
        intro i hi
        have hrel := hch i hi
        have hnotscan : l.get ⟨i + 1, by omega⟩ ∉ scanPrune 0 a := by
          intro hmem
          have hke := (hfacts _ hmem).1
          by_cases hlastidx : i + 1 = l.length - 1
          · have hj : l.get ⟨i + 1, by omega⟩ = j := by
              have h1 := hlast
              rw [List.getLast?_eq_getElem?, ← hlastidx,
                List.getElem?_eq_getElem (by omega : i + 1 < l.length)] at h1
              simpa using h1
            rw [hj] at hke
            exact hkne hke
          · have hi2 : i + 2 < l.length := by omega
            have hrel2 := hch (i + 1) (by omega)
            rw [hke] at hrel2
            cases hrel2
        exact fold_remove_mem_keep (scanPrune 0 a) a _ _ hnotscan hrel
      have hknd1 : ∀ c ∈ (((scanPrune 0 a).foldl
          (fun t id => t.remove_subtree id) a).get j).kids,
          ((((scanPrune 0 a).foldl (fun t id => t.remove_subtree id) a).get c).node).is_dir =
            false := by
        intro c hc
        rw [hkeep] at hc
        rw [hnode1 c]
        exact hknd c hc
      have hkne1 : (((scanPrune 0 a).foldl
          (fun t id => t.remove_subtree id) a).get j).kids ≠ [] := by
        rw [hkeep]
        exact hkne
      obtain ⟨ihkeep, ihch⟩ := ih ((scanPrune 0 a).foldl (fun t id => t.remove_subtree id) a)
        l hw1 hkne1 hknd1 hlast hchb
      rw [hstep]
      exact ⟨ihkeep.trans hkeep, ihch⟩


/-- Every slot of the assembled tree is the endpoint of a kid-link chain
from the root. -/
theorem assembled_chain (s : List Node) (hs : Adm s) (T : Arena)
    (hc : AssembledChar s T) :
    ∀ j, j < s.length → ∃ l : List Nat, l.head? = some 0 ∧ l.getLast? = some j ∧
      List.Chain' (fun x y => y ∈ (T.get x).kids) l := by
  obtain ⟨hlen, hf⟩ := hc
  have key : ∀ n j, j < s.length → (ent s j).path.length ≤ n →
      ∃ l : List Nat, l.head? = some 0 ∧ l.getLast? = some j ∧
        List.Chain' (fun x y => y ∈ (T.get x).kids) l := by
    intro n
    induction n with
    | zero =>
      intro j hj hn
      have h1 := adm_pathNe s hs j hj
      have : (ent s j).path.length ≠ 0 := fun h => h1 (List.eq_nil_of_length_eq_zero h)
      omega
    | succ n ih =>
      intro j hj hn
      by_cases hj0 : j = 0
      · subst hj0
        exact ⟨[0], rfl, rfl, List.chain'_singleton 0⟩
      · obtain ⟨j0, hj0r, hj0d, hj0p⟩ := adm_linkage s hs j hj hj0
        have hj0l : j0 < s.length := lt_trans hj0r hj
        have hplen : (ent s j0).path.length ≤ n := by
          rw [hj0p, List.length_dropLast]
          have h1 : (ent s j).path ≠ [] := adm_pathNe s hs j hj
          have h2 : (ent s j).path.length ≠ 0 :=
            fun h => h1 (List.eq_nil_of_length_eq_zero h)
          omega
        obtain ⟨l0, hh0, hl0, hch0⟩ := ih j0 hj0l hplen
        have hjk : j ∈ (T.get j0).kids := by
          apply ((hf j0 hj0l).2.2.2.2.2.1 hj0d).2.mem_iff.mpr
          rw [childIds_mem]
          exact ⟨hj, hj0, hj0p.symm⟩
        refine ⟨l0 ++ [j], ?_, List.getLast?_concat l0, ?_⟩
        · cases l0 with
          | nil => cases hh0
          | cons a t =>
            injection hh0 with hh0
            rw [hh0]
            rfl
        · rw [List.chain'_append]
          refine ⟨hch0, List.chain'_singleton j, ?_⟩
          intro x hx y hy
          rw [hl0] at hx
          have hx2 : some j0 = some x := hx
          have hy2 : some j = some y := hy
          injection hx2 with hx2
          injection hy2 with hy2
          subst hx2
          subst hy2
          exact hjk
  intro j hj
  exact key (ent s j).path.length j hj (le_refl _)

/-- The endpoint of a root-anchored kid-link chain is a descendant of the
root. -/
theorem chain_last_desc (a : Arena) (hg : Graded a) (l : List Nat) (x : Nat)
    (hh : l.head? = some 0) (hl : l.getLast? = some x)
    (hch : List.Chain' (fun p q => q ∈ (a.get p).kids) l) : x ∈ a.descendants 0 := by
  have step : ∀ y z, y ∈ a.descendants 0 → z ∈ (a.get y).kids → z ∈ a.descendants 0 := by
    intro y z hy hz
    unfold Arena.descendants at hy ⊢
    exact List.mem_of_mem_drop (preorder_kid_tail a hg _ 0 y z
      (Nat.lt_succ_of_le (gRank_le_len a 0)) hy hz)
  suffices h : ∀ (l : List Nat) (z x : Nat), z ∈ a.descendants 0 → l.head? = some z →
      l.getLast? = some x → List.Chain' (fun p q => q ∈ (a.get p).kids) l →
      x ∈ a.descendants 0 by
    exact h l 0 x (mem_preorder_self a _ 0 (Nat.succ_le_succ (Nat.zero_le _))) hh hl hch
  clear hh hl hch l
  intro l
  induction l with
  | nil =>
    intro z x _ hh
    cases hh
  | cons a0 t ih =>
    intro z x hz hh hl hch
    injection hh with hh
    subst hh
    cases t with
    | nil =>
      injection hl with hl
      subst hl
      exact hz
    | cons b t' =>
      have hrel := (List.chain'_cons.mp hch).1
      have hch' := (List.chain'_cons.mp hch).2
      rw [List.getLast?_cons_cons] at hl
      exact ih b x (step a0 b hz hrel) rfl hl hch'


/-- C10: with prune and dirs-only both on, traverse prunes first and
filters second; a directory whose children are all non-directories is never
pruned (its children are still attached at prune time) and survives the
directories-only pass as a reachable, childless directory. -/
theorem C10_prune_before_filter (s : List Node) (cmp : Option (Node → Node → Ordering))
    (hs : Adm s) :
    ∃ T : Arena,
      traverse s ⟨true, true, cmp⟩ =
        Except.ok (filter_directories 0 (pruneRun 0 T), 0) ∧
      AssembledChar s T ∧
      ∀ j, j < s.length → (ent s j).is_dir = true →
        childIds s (ent s j).path ≠ [] →
        (∀ c ∈ childIds s (ent s j).path, (ent s c).is_dir = false) →
        j ∈ (filter_directories 0 (pruneRun 0 T)).descendants 0 ∧
        ((filter_directories 0 (pruneRun 0 T)).get j).node.is_dir = true ∧
        ((filter_directories 0 (pruneRun 0 T)).get j).kids = [] := by
  obtain ⟨T, heq, hlen, hf⟩ := collectAssemble_char s hs ⟨true, true, cmp⟩
  have hwT : Wf T 0 := assembled_wf s hs T ⟨hlen, hf⟩
  obtain ⟨hscan1, hw1, hlen1, hsub1, hnode1, hflag1⟩ :=
    prune_fix 0 (totalKids T + 1) T hwT (Nat.lt_succ_self _)
  have hw1' : Wf (pruneRun 0 T) 0 := hw1
  have hlen1' : (pruneRun 0 T).length = T.length := hlen1
  have hsub1' : ∀ i, ((pruneRun 0 T).get i).kids.Sublist (T.get i).kids := hsub1
  have hnode1' : ∀ i, ((pruneRun 0 T).get i).node = (T.get i).node := hnode1
  -- the filter stage over the pruned arena
  have hds : filter_directories 0 (pruneRun 0 T) =
      ((((pruneRun 0 T).descendants 0).drop 1).filter
        (fun id => !((pruneRun 0 T).get id).node.is_dir)).foldl
        (fun t id => t.detach id) (pruneRun 0 T) := rfl
  obtain ⟨hlenF, hKF, hPF, hNF⟩ := fold_detach_char (pruneRun 0 T) hw1'.2.1 hw1'.2.2.1
    ((((pruneRun 0 T).descendants 0).drop 1).filter
      (fun id => !((pruneRun 0 T).get id).node.is_dir)) (pruneRun 0 T) []
    rfl (by intro i; simp) (by intro j; simp) (fun i => rfl)
  rw [← hds] at hlenF hKF hPF hNF
  simp only [List.nil_append] at hKF hPF
  -- non-directories are childless after pruning
  have hnondir_kids : ∀ c, ((pruneRun 0 T).get c).node.is_dir = false →
      ((pruneRun 0 T).get c).kids = [] := by
    intro c hcnd
    by_cases hcl : c < s.length
    · have hnd : (ent s c).is_dir = false := by
        rw [← is_dir_congr _ _ (hf c hcl).2.2.1, ← hnode1' c]
        exact hcnd
      have := hsub1' c
      rw [((hf c hcl).2.2.2.2.2.2.1 hnd).1] at this
      exact List.sublist_nil.mp this
    · have : (pruneRun 0 T).length ≤ c := by
        rw [hlen1', hlen]
        omega
      rw [Arena.get_oor _ c this]
      exact Arena.kids_default
  -- the filtered arena is graded
  have hgF : Graded (filter_directories 0 (pruneRun 0 T)) :=
    graded_of_sub (pruneRun 0 T) _ hlenF
      (fun i => by rw [hKF i]; exact List.filter_sublist _) hNF hw1'.1
  refine ⟨T, ?_, ⟨hlen, hf⟩, ?_⟩
  · simp only [traverse, heq, if_true]
  · intro j hjl hjdir hjne hjnd
    have hkperm : (T.get j).kids.Perm (childIds s (ent s j).path) :=
      ((hf j hjl).2.2.2.2.2.1 hjdir).2
    have hkneT : (T.get j).kids ≠ [] := by
      intro h
      exact hjne (List.Perm.eq_nil ((h ▸ hkperm).symm : (childIds s (ent s j).path).Perm []))
    have hkndT : ∀ c ∈ (T.get j).kids, (T.get c).node.is_dir = false := by
      intro c hc
      have hcc := hkperm.mem_iff.mp hc
      obtain ⟨hcl, _, _⟩ := (childIds_mem s _ c).mp hcc
      rw [is_dir_congr _ _ (hf c hcl).2.2.1]
      exact hjnd c hcc
    obtain ⟨l, hhead, hlast, hch⟩ := assembled_chain s hs T ⟨hlen, hf⟩ j hjl
    obtain ⟨hkeep1, hch1⟩ :=
      prune_chain_keep j (totalKids T + 1) T l hwT hkneT hkndT hlast hch
    have hkeep1' : ((pruneRun 0 T).get j).kids = (T.get j).kids := hkeep1
    have hch1' : List.Chain' (fun x y => y ∈ ((pruneRun 0 T).get x).kids) l := hch1
    have hjdesc1 : j ∈ (pruneRun 0 T).descendants 0 :=
      chain_last_desc (pruneRun 0 T) hw1'.1 l j hhead hlast hch1'
    -- interior chain targets are directories after pruning
    have hchdirs : ∀ i (hi : i < l.length - 1),
        ((pruneRun 0 T).get (l.get ⟨i + 1, by omega⟩)).node.is_dir = true := by
      intro i hi
      by_cases hlastidx : i + 1 = l.length - 1
      · have hj : l.get ⟨i + 1, by omega⟩ = j := by
          have h1 := hlast
          rw [List.getLast?_eq_getElem?, ← hlastidx,
            List.getElem?_eq_getElem (by omega : i + 1 < l.length)] at h1
          simpa using h1
        rw [hj, hnode1' j, is_dir_congr _ _ (hf j hjl).2.2.1]
        exact hjdir
      · have hi2 : i + 2 < l.length := by omega
        have hrel2 := (List.chain'_iff_get.mp hch1') (i + 1) (by omega)
        by_contra hnd
        have hnd' : ((pruneRun 0 T).get (l.get ⟨i + 1, by omega⟩)).node.is_dir = false :=
          Bool.eq_false_iff.mpr hnd
        rw [hnondir_kids _ hnd'] at hrel2
        cases hrel2
    -- the chain survives the filter
    have hchF : List.Chain'
        (fun x y => y ∈ ((filter_directories 0 (pruneRun 0 T)).get x).kids) l := by
      rw [List.chain'_iff_get] at hch1' ⊢
      intro i hi
      rw [hKF]
      rw [List.mem_filter]
      refine ⟨hch1' i hi, ?_⟩
      rw [decide_eq_true_eq]
      intro hmem
      have := (List.mem_filter.mp hmem).2
      rw [hchdirs i hi] at this
      cases this
    have hjdescF : j ∈ (filter_directories 0 (pruneRun 0 T)).descendants 0 :=
      chain_last_desc _ hgF l j hhead hlast hchF
    refine ⟨hjdescF, ?_, ?_⟩
    · rw [hNF j, hnode1' j, is_dir_congr _ _ (hf j hjl).2.2.1]
      exact hjdir
    · rw [hKF j]
      apply List.filter_eq_nil_iff.mpr
      intro x hx
      have hxmem : x ∈ ((((pruneRun 0 T).descendants 0).drop 1).filter
          (fun id => !((pruneRun 0 T).get id).node.is_dir)) := by
        rw [List.mem_filter]
        constructor
        · unfold Arena.descendants at hjdesc1 ⊢
          exact preorder_kid_tail (pruneRun 0 T) hw1'.1 _ 0 j x
            (Nat.lt_succ_of_le (gRank_le_len _ 0)) hjdesc1 hx
        · have hxk : x ∈ (T.get j).kids := by
            rw [← hkeep1']
            exact hx
          have := hkndT x hxk
          rw [hnode1' x, this]
          rfl
      simpa using hxmem
  

theorem C10_prune_before_filter_witness :
    Adm [⟨["a"], 0, Kind.dir, none, none⟩, ⟨["a", "b"], 1, Kind.dir, none, none⟩,
      ⟨["a", "b", "c"], 2, Kind.file, some 5, none⟩] ∧
    (∃ T : Arena,
      traverse [⟨["a"], 0, Kind.dir, none, none⟩, ⟨["a", "b"], 1, Kind.dir, none, none⟩,
          ⟨["a", "b", "c"], 2, Kind.file, some 5, none⟩] ⟨true, true, none⟩ =
        Except.ok (filter_directories 0 (pruneRun 0 T), 0) ∧
      AssembledChar [⟨["a"], 0, Kind.dir, none, none⟩, ⟨["a", "b"], 1, Kind.dir, none, none⟩,
        ⟨["a", "b", "c"], 2, Kind.file, some 5, none⟩] T ∧
      ∀ j, j < ([⟨["a"], 0, Kind.dir, none, none⟩, ⟨["a", "b"], 1, Kind.dir, none, none⟩,
          ⟨["a", "b", "c"], 2, Kind.file, some 5, none⟩] : List Node).length →
        (ent [⟨["a"], 0, Kind.dir, none, none⟩, ⟨["a", "b"], 1, Kind.dir, none, none⟩,
          ⟨["a", "b", "c"], 2, Kind.file, some 5, none⟩] j).is_dir = true →
        childIds [⟨["a"], 0, Kind.dir, none, none⟩, ⟨["a", "b"], 1, Kind.dir, none, none⟩,
          ⟨["a", "b", "c"], 2, Kind.file, some 5, none⟩]
          (ent [⟨["a"], 0, Kind.dir, none, none⟩, ⟨["a", "b"], 1, Kind.dir, none, none⟩,
            ⟨["a", "b", "c"], 2, Kind.file, some 5, none⟩] j).path ≠ [] →
        (∀ c ∈ childIds [⟨["a"], 0, Kind.dir, none, none⟩,
            ⟨["a", "b"], 1, Kind.dir, none, none⟩,
            ⟨["a", "b", "c"], 2, Kind.file, some 5, none⟩]
            (ent [⟨["a"], 0, Kind.dir, none, none⟩, ⟨["a", "b"], 1, Kind.dir, none, none⟩,
              ⟨["a", "b", "c"], 2, Kind.file, some 5, none⟩] j).path,
          (ent [⟨["a"], 0, Kind.dir, none, none⟩, ⟨["a", "b"], 1, Kind.dir, none, none⟩,
            ⟨["a", "b", "c"], 2, Kind.file, some 5, none⟩] c).is_dir = false) →
        j ∈ (filter_directories 0 (pruneRun 0 T)).descendants 0 ∧
        ((filter_directories 0 (pruneRun 0 T)).get j).node.is_dir = true ∧
        ((filter_directories 0 (pruneRun 0 T)).get j).kids = []) :=
  ⟨by decide,
    C10_prune_before_filter
      [⟨["a"], 0, Kind.dir, none, none⟩, ⟨["a", "b"], 1, Kind.dir, none, none⟩,
       ⟨["a", "b", "c"], 2, Kind.file, some 5, none⟩] none (by decide)⟩

end Erdtree
